import Mathlib

/-!
# light-sites: the HTML tree transformation engine

A shallow embedding of `src/document/document.go` and `src/helpers/helpers.go`.

The Go code works on `golang.org/x/net/html` nodes: a mutable tree whose nodes are
linked by `Parent`, `FirstChild`, `LastChild`, `PrevSibling` and `NextSibling`
pointers.  Here a node is a value that owns the ordered list of its children, a
pointer to a child of a known parent is the index of that child, and a pointer to
a node somewhere in a tree is the path of child indices leading to it.  The three
mutators of the library become list operations:

* `p.AppendChild(c)`        the children of `p` become `children ++ [c]`;
* `p.InsertBefore(c, old)`  `c` is inserted at the index of `old`
                            (appended when `old` is nil);
* `p.RemoveChild(c)`        the child at the index of `c` is erased, and the
                            `Parent`, `PrevSibling` and `NextSibling` fields of `c`
                            are reset to nil.

The last point matters to every loop of the form
`for c := n.FirstChild; c != nil; c = c.NextSibling` whose body may remove `c`:
after the removal `c.NextSibling` is nil and the loop stops.

A nil pointer dereference is a run-time panic of the Go program; functions that
can panic return `GoResult.panicked` there.
-/

namespace LightSites

/-! ## Data model -/

/-- The node kinds of `html.NodeType`. -/
inductive NodeType where
  | ErrorNode
  | TextNode
  | DocumentNode
  | ElementNode
  | CommentNode
  | DoctypeNode
deriving DecidableEq, Repr

/-- One `html.Attribute` (the namespace field is not used by the program). -/
structure Attribute where
  Key : String
  Val : String
deriving DecidableEq, Repr

/-- An `html.Node` together with the subtree below it. -/
inductive Node where
  | mk (type : NodeType) (data : String) (attr : List Attribute) (children : List Node)
deriving Repr

namespace Node

/-- Field `Type` of the node. -/
def type : Node → NodeType
  | mk t _ _ _ => t

/-- Field `Data` of the node: the tag name of an element, the text of a text node. -/
def data : Node → String
  | mk _ d _ _ => d

/-- Field `Attr` of the node. -/
def attr : Node → List Attribute
  | mk _ _ a _ => a

/-- The children of the node, from `FirstChild` along `NextSibling`. -/
def children : Node → List Node
  | mk _ _ _ cs => cs

/-- The same node with another child sequence. -/
def setChildren : Node → List Node → Node
  | mk t d a _, cs => mk t d a cs

/-- The same node with another attribute list. -/
def setAttr : Node → List Attribute → Node
  | mk t d _ cs, a => mk t d a cs

end Node

mutual
/-- Equality of nodes is decidable. -/
def Node.decEq : (x y : Node) → Decidable (x = y)
  | Node.mk t1 d1 a1 c1, Node.mk t2 d2 a2 c2 =>
    if ht : t1 = t2 then
      if hd : d1 = d2 then
        if ha : a1 = a2 then
          match Node.decEqList c1 c2 with
          | isTrue hc => isTrue (by rw [ht, hd, ha, hc])
          | isFalse hc => isFalse (fun h => hc (by injection h))
        else isFalse (fun h => ha (by injection h))
      else isFalse (fun h => hd (by injection h))
    else isFalse (fun h => ht (by injection h))
/-- Equality of node sequences is decidable. -/
def Node.decEqList : (xs ys : List Node) → Decidable (xs = ys)
  | [], [] => isTrue rfl
  | [], _ :: _ => isFalse (fun h => by cases h)
  | _ :: _, [] => isFalse (fun h => by cases h)
  | x :: xs, y :: ys =>
    match Node.decEq x y with
    | isTrue hx =>
      match Node.decEqList xs ys with
      | isTrue hs => isTrue (by rw [hx, hs])
      | isFalse hs => isFalse (fun h => hs (by injection h))
    | isFalse hx => isFalse (fun h => hx (by injection h))
end

instance : DecidableEq Node := Node.decEq

/-- The error values the program builds with `fmt.Errorf`, one per site. -/
inductive Error where
  /-- "document does not contain mandatory <attributes title=...> attribute" -/
  | MissingTitleAttribute
  /-- "must specify template HTML attribute file, none was specified" -/
  | MissingTemplateFile
  /-- "failed to read template file ..." -/
  | TemplateFileReadError
  /-- "failed to parse template html: ..." -/
  | TemplateParseError
  /-- "unable to identify rendered template body or parent node for template ..." -/
  | InvalidTemplateOutput
  /-- "document directory not initialized" -/
  | DirectoryNotInitialized
  /-- "cannot find parent for table node" -/
  | NoParentForTableNode
  /-- "failed to parse html: ..." -/
  | HTMLParseError
  /-- "failed to render html: ..." -/
  | HTMLRenderError
  /-- "failed to read file ..." -/
  | DocumentFileReadError
deriving DecidableEq, Repr

/-- Outcome of a Go function that mutates a state `σ` and returns an `error`:
either it returns (with the state it leaves behind and the error, `none` for nil),
or it panics on a nil pointer dereference. -/
inductive GoResult (σ : Type) where
  | returned (state : σ) (err : Option Error)
  | panicked

/-- `config.BodyConfig`. -/
structure BodyConfig where
  ContainerClass : String
  RowClass : String
  ColClass : String

/-! ## Constants (`src/constants/constants.go`) -/

def AttributeTag : String := "attributes"
def TitleAttribute : String := "title"
def TemplateFileKey : String := "file"
def TemplateHeadingKey : String := "heading"
def BodyNode : String := "body"
def TemplateNode : String := "template"
def DivNode : String := "div"
def ClassAttribute : String := "class"
def ContentPrefixURL : String := "/content/"
def DirectoryNode : String := "directory"
def HeadNode : String := "head"
def TableNode : String := "table"
def LinkNode : String := "link"
def HrefAttribute : String := "href"
def RelAttribute : String := "rel"
def RelValue : String := "noopener noreferrer"
def StylesheetVal : String := "stylesheet"
def CrossOriginAttribute : String := "crossorigin"
def AnonymousVal : String := "anonymous"
def DivTableResponsiveClass : String := "table-responsive"

/-! ## ProcessBodyNode -/

/-- A `div` element with one `class` attribute, as built by the three node
literals at the top of `ProcessBodyNode`. -/
def divWithClass (cls : String) (children : List Node) : Node :=
  Node.mk NodeType.ElementNode DivNode [⟨ClassAttribute, cls⟩] children

/-- The `containerNode` of `ProcessBodyNode` after `rowNode.AppendChild(colNode)` and
`containerNode.AppendChild(rowNode)`, when `colNode` has the children `col`.
`colNode` is reached through these two links, so what is appended to it later
shows in the container. -/
def containerNode (cfg : BodyConfig) (col : List Node) : Node :=
  divWithClass cfg.ContainerClass [divWithClass cfg.RowClass [divWithClass cfg.ColClass col]]

/-- The loop of scenario 3,
`for bodyChild := n.FirstChild; bodyChild != nil; bodyChild = n.FirstChild.NextSibling`.
`cursor` is the index of `bodyChild` among the children `body` of `n` (`none` for nil),
`col` the children of `colNode`.  Each round erases `bodyChild` from `body` and
appends it to `col`; the post statement reads `n.FirstChild.NextSibling`, which
panics when `n` has no child left.  The first argument bounds the number of rounds;
the result is `none` for a panic and when the bound is used up. -/
def bodyChildLoop : Nat → Option Nat → List Node → List Node → Option (List Node × List Node)
  | _, none, body, col => some (body, col)
  | 0, some _, _, _ => none
  | fuel + 1, some i, body, col =>
    match body.get? i with
    | none => none
    | some bodyChild =>
      -- bodyChild.Parent.RemoveChild(bodyChild); colNode.AppendChild(bodyChild)
      let body1 := body.eraseIdx i
      let col1 := col ++ [bodyChild]
      -- bodyChild = n.FirstChild.NextSibling
      match body1 with
      | [] => none
      | [_] => bodyChildLoop fuel none body1 col1
      | _ :: _ :: _ => bodyChildLoop fuel (some 1) body1 col1

/-- `ProcessBodyNode` (document.go:91-151) on the body node `n`.  The result state is
the body node as the call leaves it.  `body` holds the children of `n` other than the
container, which `n.InsertBefore(containerNode, n.FirstChild)` puts in front of them;
at that point `n.FirstChild` is not nil, so `n.LastChild` is the last of `body`. -/
def ProcessBodyNode (cfg : BodyConfig) (n : Node) : GoResult Node :=
  match n.children with
  | [] =>
    -- scenario 1: n.AppendChild(containerNode)
    GoResult.returned (n.setChildren [containerNode cfg []]) none
  | first :: rest =>
    -- scenario 3: the loop runs only when n.FirstChild.NextSibling != nil
    let moved :=
      if rest.isEmpty then some (first :: rest, [])
      else bodyChildLoop (rest.length + 1) (some 0) (first :: rest) []
    match moved with
    | none => GoResult.panicked
    | some (body, col) =>
      -- n.InsertBefore(containerNode, n.FirstChild); bodyLastChild := n.LastChild
      match body.getLast? with
      | none => GoResult.panicked
      | some bodyLastChild =>
        -- n.RemoveChild(bodyLastChild)
        let body1 := body.dropLast
        let col1 :=
          match col with
          | c0 :: c1 :: tl => c0 :: bodyLastChild :: c1 :: tl
          | _ => col ++ [bodyLastChild]
        GoResult.returned (n.setChildren (containerNode cfg col1 :: body1)) none

/-! ## ProcessAttributes -/

/-- The `document.Attributes` map of the Go program (`map[string]string`):
`none` for an absent key. -/
abbrev AttrMap := String → Option String

/-- The map assignment `m[k] = v`. -/
def AttrMap.set (m : AttrMap) (k v : String) : AttrMap :=
  fun k' => if k' = k then some v else m k'

/-- What the closure `f` of `ProcessAttributes` writes to: the attribute map of the
document and the local flag `containsTitleAttribute`. -/
structure AttrState where
  Attributes : AttrMap
  containsTitleAttribute : Bool

/-- The test of the closure, `n.Type == html.ElementNode` and
`n.Data == constants.AttributeTag`. -/
def isAttributesElement (n : Node) : Bool :=
  n.type == NodeType.ElementNode && n.data == AttributeTag

/-- The loop `for _, attribute := range n.Attr` (document.go:57-62). -/
def collectAttributes : List Attribute → AttrState → AttrState
  | [], st => st
  | a :: rest, st =>
    collectAttributes rest
      { Attributes := st.Attributes.set a.Key a.Val
        containsTitleAttribute :=
          if a.Key == TitleAttribute && a.Val != "" then true
          else st.containsTitleAttribute }

mutual
/-- The closure `f` of `ProcessAttributes` (document.go:53-70) at node `n`.  The first
component is `none` when `n` was removed from its parent (`n.Parent.RemoveChild(n)`),
and otherwise the node with the subtree the walk leaves below it. -/
def walkAttributes : Node → AttrState → Option Node × AttrState
  | Node.mk t d a cs, st =>
    if isAttributesElement (Node.mk t d a cs) then
      (none, collectAttributes a st)
    else
      let r := walkAttributesChildren cs st
      (some (Node.mk t d a r.1), r.2)
/-- The loop `for c := n.FirstChild; c != nil; c = c.NextSibling { f(c) }` over the
children from `c` on.  When `f(c)` has removed `c`, `c.NextSibling` is nil and the
loop ends: the later siblings stay as they are and are not visited. -/
def walkAttributesChildren : List Node → AttrState → List Node × AttrState
  | [], st => ([], st)
  | c :: rest, st =>
    match walkAttributes c st with
    | (none, st1) => (rest, st1)
    | (some c1, st1) =>
      let r := walkAttributesChildren rest st1
      (c1 :: r.1, r.2)
end

/-- `ProcessAttributes` (document.go:47-86) on the tree `htmlNode`, which has no parent,
with the document's attribute map `attributes`.  The state left behind is the tree
and the map.  When the root itself is an attributes element, `n.Parent` is nil and
`n.Parent.RemoveChild(n)` panics. -/
def ProcessAttributes (htmlNode : Node) (attributes : AttrMap) : GoResult (Node × AttrMap) :=
  match walkAttributes htmlNode ⟨attributes, false⟩ with
  | (none, _) => GoResult.panicked
  | (some root, st) =>
    GoResult.returned (root, st.Attributes)
      (if st.containsTitleAttribute then none else some Error.MissingTitleAttribute)

/-! ### Vocabulary for the statements about ProcessAttributes -/

mutual
/-- Every node of the tree, in pre-order. -/
def Node.subtree : Node → List Node
  | Node.mk t d a cs => Node.mk t d a cs :: Node.subtreeList cs
/-- Every node of a sequence of trees, in pre-order. -/
def Node.subtreeList : List Node → List Node
  | [] => []
  | c :: rest => c.subtree ++ Node.subtreeList rest
end

/-- The attributes elements of the tree, in pre-order. -/
def markers (n : Node) : List Node :=
  n.subtree.filter isAttributesElement

mutual
/-- The attributes elements of the tree that do not lie inside another attributes
element, in pre-order. -/
def outerMarkers : Node → List Node
  | Node.mk t d a cs =>
    if isAttributesElement (Node.mk t d a cs) then [Node.mk t d a cs]
    else outerMarkersList cs
/-- The outer attributes elements of a sequence of trees. -/
def outerMarkersList : List Node → List Node
  | [] => []
  | c :: rest => outerMarkers c ++ outerMarkersList rest
end

/-- The map `m` overwritten with the pairs of `attrs`: a key carried by `attrs` maps
to the value of its last occurrence there, every other key is as in `m`. -/
def overwrite (m : AttrMap) (attrs : List Attribute) : AttrMap :=
  fun k =>
    match attrs.reverse.find? (fun a => a.Key == k) with
    | some a => some a.Val
    | none => m k

mutual
/-- Outside the attributes elements of the tree, no attributes element has a later
sibling that is an attributes element or has one below it. -/
def noMarkerBehindMarker : Node → Bool
  | Node.mk t d a cs =>
    if isAttributesElement (Node.mk t d a cs) then true else noMarkerBehindMarkerList cs
/-- The same for a sequence of siblings. -/
def noMarkerBehindMarkerList : List Node → Bool
  | [] => true
  | c :: rest =>
    if isAttributesElement c then
      (Node.subtreeList rest).all (fun m => !isAttributesElement m)
    else noMarkerBehindMarker c && noMarkerBehindMarkerList rest
end

mutual
/-- The attributes elements at which the closure of `ProcessAttributes` arrives, in
the order of the walk: the walk does not enter an attributes element, and after
one it leaves the loop over the siblings. -/
def visitedMarkers : Node → List Node
  | Node.mk t d a cs =>
    if isAttributesElement (Node.mk t d a cs) then [Node.mk t d a cs]
    else visitedMarkersChildren cs
/-- The attributes elements at which the loop over a sequence of siblings arrives. -/
def visitedMarkersChildren : List Node → List Node
  | [] => []
  | c :: rest =>
    if isAttributesElement c then [c]
    else visitedMarkers c ++ visitedMarkersChildren rest
end

/-- The attributes of a sequence of elements, one after the other. -/
def attrsOf : List Node → List Attribute
  | [] => []
  | m :: rest => m.attr ++ attrsOf rest

/-- The element carries a title attribute with a non-empty value. -/
def hasTitle (m : Node) : Bool :=
  m.attr.any (fun a => a.Key == TitleAttribute && a.Val != "")

/-! ## Positions in a tree -/

/-- The node at the end of a path of child indices, `none` when the path leaves the
tree. -/
def Node.get? : Node → List Nat → Option Node
  | n, [] => some n
  | Node.mk _ _ _ cs, i :: p =>
    match cs[i]? with
    | none => none
    | some c => c.get? p

/-- The tree in which the node at the end of the path is replaced by its image
under `f`; a path that leaves the tree changes nothing. -/
def Node.updateAt : Node → List Nat → (Node → Node) → Node
  | n, [], f => f n
  | Node.mk t d a cs, i :: p, f => Node.mk t d a (cs.modify (fun c => c.updateAt p f) i)

/-- A path split into the path of the parent and the index below it: `n.Parent` and
the place of `n` among the children; `none` for the root, whose `Parent` is nil. -/
def parentOf : List Nat → Option (List Nat × Nat)
  | [] => none
  | [i] => some ([], i)
  | j :: i :: p =>
    match parentOf (i :: p) with
    | none => none
    | some (q, k) => some (j :: q, k)

/-- The path of the node `n` after a node was inserted as first child of the node at
`b`: when `n` lies below `b`, the index of its ancestor among the children of `b` moves
up by one. -/
def pathAfterInsertFirst : List Nat → List Nat → List Nat
  | [], [] => []
  | [], i :: rest => (i + 1) :: rest
  | _ :: _, [] => []
  | j :: b, i :: rest => if i = j then i :: pathAfterInsertFirst b rest else i :: rest

/-! ## GetNodeOfType (`src/helpers/helpers.go`) -/

mutual
/-- The closure `f` of `GetNodeOfType` (helpers.go:18-32) at node `n`: the node itself
when it is an element named `nodeType`, and otherwise the first result among its
children. -/
def GetNodeOfType : Node → String → Option Node
  | Node.mk t d a cs, nodeType =>
    if t = NodeType.ElementNode ∧ d = nodeType then some (Node.mk t d a cs)
    else GetNodeOfTypeChildren cs nodeType
/-- The loop `for c := n.FirstChild; c != nil; c = c.NextSibling` of the closure. -/
def GetNodeOfTypeChildren : List Node → String → Option Node
  | [], _ => none
  | c :: rest, nodeType =>
    match GetNodeOfType c nodeType with
    | some result => some result
    | none => GetNodeOfTypeChildren rest nodeType
end

mutual
/-- The search of `GetNodeOfType`, returning the place of the node found: the pointer
it returns, as a path from the root of the search. -/
def GetNodeOfTypePath : Node → String → Option (List Nat)
  | Node.mk t d _ cs, nodeType =>
    if t = NodeType.ElementNode ∧ d = nodeType then some []
    else GetNodeOfTypePathChildren cs nodeType 0
/-- The loop over the children, the first of which has index `i`. -/
def GetNodeOfTypePathChildren : List Node → String → Nat → Option (List Nat)
  | [], _, _ => none
  | c :: rest, nodeType, i =>
    match GetNodeOfTypePath c nodeType with
    | some p => some (i :: p)
    | none => GetNodeOfTypePathChildren rest nodeType (i + 1)
end

/-! ## ProcessTemplateNode -/

/-- A Go `map[string]string` that the program iterates over: its entries, with
distinct keys. -/
abbrev GoMap := List (String × String)

/-- The map assignment `m[k] = v`. -/
def GoMap.set (m : GoMap) (k v : String) : GoMap :=
  if m.any (fun e => e.1 == k) then m.map (fun e => if e.1 == k then (k, v) else e)
  else m ++ [(k, v)]

/-- The map lookup `v, ok := m[k]`: `none` when `ok` is false. -/
def GoMap.get (m : GoMap) (k : String) : Option String :=
  (m.find? (fun e => e.1 == k)).map (fun e => e.2)

/-- Skip `skip` characters, then replace the occurrences of `old` from left to right. -/
def replaceAllFrom (old new : List Char) : Nat → List Char → List Char
  | _, [] => []
  | skip + 1, _ :: cs => replaceAllFrom old new skip cs
  | 0, c :: cs =>
    if old.isPrefixOf (c :: cs) then new ++ replaceAllFrom old new (old.length - 1) cs
    else c :: replaceAllFrom old new 0 cs

/-- `strings.ReplaceAll(s, old, new)`: every non-overlapping occurrence of `old` in `s`,
from left to right, is replaced by `new`; for an empty `old`, `new` is inserted before
every character and at the end. -/
def ReplaceAll (s old new : String) : String :=
  if old.data.isEmpty then
    String.mk (new.data ++ (s.data.map (fun c => c :: new.data)).flatten)
  else String.mk (replaceAllFrom old.data new.data 0 s.data)

/-- `strconv.ParseBool`: `none` for the strings it rejects. -/
def ParseBool (str : String) : Option Bool :=
  if str ∈ ["1", "t", "T", "TRUE", "true", "True"] then some true
  else if str ∈ ["0", "f", "F", "FALSE", "false", "False"] then some false
  else none

/-- What `ProcessTemplateNode` takes from outside the tree. -/
structure TemplateEnv where
  /-- `document.Config.Directories.Templates`. -/
  Templates : String
  /-- `ioutil.ReadFile`: the text of the file at a path, `none` for an error. -/
  readFile : String → Option String
  /-- `html.Parse` on a text: the document node, `none` for an error. -/
  parse : String → Option Node
  /-- The order in which a `range` over a map visits the entries. -/
  rangeOrder : GoMap → GoMap

/-- The map `templateAttributes` after the loop over `n.Attr` (document.go:258-262). -/
def templateAttributes (n : Node) : GoMap :=
  n.attr.foldl (fun m a => m.set a.Key a.Val) []

/-- The loop `for templateKey, templateVal := range templateAttributes`
(document.go:276-278) on the text of the file. -/
def substitute (env : TemplateEnv) (attrs : GoMap) (content : String) : String :=
  (env.rangeOrder attrs).foldl
    (fun contentStr kv => ReplaceAll contentStr ("\x7b\x7b" ++ kv.1 ++ "\x7d\x7d") kv.2) content

/-- The file named by the template element, read from the template directory
(document.go:269): `none` when the element has no file attribute or the file cannot
be read. -/
def templateContent (env : TemplateEnv) (n : Node) : Option String :=
  match (templateAttributes n).get TemplateFileKey with
  | none => none
  | some file => env.readFile (env.Templates ++ "/" ++ file)

/-- `n.Parent.InsertBefore(renderedTemplateNode, n)` followed by `n.Parent.RemoveChild(n)`,
for the node `n` at a path of the tree `doc`; it panics when `n.Parent` is nil. -/
def insertBeforeThenRemove (doc : Node) (n : List Nat) (renderedTemplateNode : Node) :
    GoResult Node :=
  match parentOf n with
  | none => GoResult.panicked
  | some (parent, i) =>
    GoResult.returned
      (doc.updateAt parent (fun p =>
        p.setChildren ((p.children.insertIdx i renderedTemplateNode).eraseIdx (i + 1))))
      none

/-- The end of `ProcessTemplateNode` (document.go:298-325): where the rendered template
goes, for the template element at path `n` of `parentDoc` with the attribute map
`attrs`. -/
def placeRenderedTemplate (parentDoc : Node) (n : List Nat) (attrs : GoMap)
    (renderedTemplateNode : Node) : GoResult Node :=
  match attrs.get TemplateHeadingKey with
  | none => insertBeforeThenRemove parentDoc n renderedTemplateNode
  | some heading =>
    match ParseBool heading with
    | some true =>
      match GetNodeOfTypePath parentDoc BodyNode with
      | none => GoResult.panicked
      | some bodyNode =>
        -- bodyNode.InsertBefore(renderedTemplateNode, bodyNode.FirstChild)
        let doc1 := parentDoc.updateAt bodyNode
          (fun b => b.setChildren (renderedTemplateNode :: b.children))
        -- n.Parent.RemoveChild(n)
        match parentOf (pathAfterInsertFirst bodyNode n) with
        | none => GoResult.panicked
        | some (parent, i) =>
          GoResult.returned
            (doc1.updateAt parent (fun p => p.setChildren (p.children.eraseIdx i)))
            none
    | _ => insertBeforeThenRemove parentDoc n renderedTemplateNode

/-- `ProcessTemplateNode` (document.go:257-326) for the node at path `n` of the tree
`parentDoc`, which has no parent.  The state left behind is the tree. -/
def ProcessTemplateNode (env : TemplateEnv) (parentDoc : Node) (n : List Nat) : GoResult Node :=
  match parentDoc.get? n with
  | none => GoResult.panicked
  | some node =>
    match (templateAttributes node).get TemplateFileKey with
    | none => GoResult.returned parentDoc (some Error.MissingTemplateFile)
    | some file =>
      match env.readFile (env.Templates ++ "/" ++ file) with
      | none => GoResult.returned parentDoc (some Error.TemplateFileReadError)
      | some content =>
        match env.parse (substitute env (templateAttributes node) content) with
        | none => GoResult.returned parentDoc (some Error.TemplateParseError)
        | some templateHTMLNodes =>
          match GetNodeOfType templateHTMLNodes BodyNode with
          | none => GoResult.returned parentDoc (some Error.InvalidTemplateOutput)
          | some renderedTemplateBodyNode =>
            match renderedTemplateBodyNode.children with
            | [] => GoResult.returned parentDoc (some Error.InvalidTemplateOutput)
            | renderedTemplateNode :: _ =>
              placeRenderedTemplate parentDoc n (templateAttributes node) renderedTemplateNode

/-! ## Configuration (`src/config/config.go`) and the document -/

/-- `config.DirectoriesConfig`. -/
structure DirectoriesConfig where
  Assets : String
  Documents : String
  Templates : String

/-- `config.RoutingConfig`. -/
structure RoutingConfig where
  RoutePrefix : String
  AssetsPrefix : String
  UrlFileSuffix : String

/-- `config.Config`, without the refresh interval and the listen address.  `Rules` maps a
tag name to the entries of its rule map; a tag without entry has the empty map. -/
structure Config where
  Directories : DirectoriesConfig
  Routing : RoutingConfig
  CSSImports : List String
  BodyConfig : BodyConfig
  Rules : String → GoMap

/-- What the program takes from outside: the file system, the HTML parser and printer
of `golang.org/x/net/html`, and the order in which a `range` over a map visits the
entries. -/
structure World where
  /-- `ioutil.ReadFile`: the text of the file at a path, `none` for an error. -/
  readFile : String → Option String
  /-- `html.Parse` on a text: the document node, `none` for an error. -/
  parse : String → Option Node
  /-- `html.Render` of a tree: the text, `none` for an error. -/
  render : Node → Option String
  /-- The order in which a `range` over a map visits the entries. -/
  rangeOrder : GoMap → GoMap

/-- The fields of `document.Document` that the tree transformation and `ParseDocument`
read or write; a text field is empty unless it is set. -/
structure Document where
  Attributes : AttrMap
  /-- The pointer `DocumentDirectory`: `none` for nil. -/
  DocumentDirectory : Option (List String)
  Config : Config
  FileName : String := ""
  FileContents : String := ""
  DocumentName : String := ""
  ID : String := ""

/-- What `ProcessTemplateNode` takes from the configuration and from outside. -/
def templateEnv (w : World) (cfg : Config) : TemplateEnv where
  Templates := cfg.Directories.Templates
  readFile := w.readFile
  parse := w.parse
  rangeOrder := w.rangeOrder

/-! ## ProcessNode -/

/-- The inner loop `for i, a := range n.Attr` of `ProcessNode` (document.go:242-247): at
the first attribute with the key, its value becomes `a.Val`, one space, `newAttrVal`, and
the function returns; `none` when no attribute has the key. -/
def appendToAttr (key newAttrVal : String) : List Attribute → Option (List Attribute)
  | [] => none
  | a :: rest =>
    if a.Key = key then some (⟨a.Key, a.Val ++ " " ++ newAttrVal⟩ :: rest)
    else
      match appendToAttr key newAttrVal rest with
      | none => none
      | some rest1 => some (a :: rest1)

/-- The loop `for key := range document.Config.Rules[n.Data]` of `ProcessNode`
(document.go:239-253) over the entries in the order of the visit.  The `return` of the
inner loop leaves the function: the entries after it are not visited. -/
def applyRules : List (String × String) → List Attribute → List Attribute
  | [], attr => attr
  | (key, newAttrVal) :: rest, attr =>
    match appendToAttr key newAttrVal attr with
    | some attr1 => attr1
    | none => applyRules rest (attr ++ [⟨key, newAttrVal⟩])

/-- `ProcessNode` (document.go:238-254): the node as the call leaves it. -/
def ProcessNode (w : World) (cfg : Config) (n : Node) : Node :=
  n.setAttr (applyRules (w.rangeOrder (cfg.Rules n.data)) n.attr)

/-! ## ProcessHeadNode -/

/-- The link element that `ProcessHeadNode` builds for one CSS import. -/
def linkNode (cfg : Config) (cssImport : String) : Node :=
  Node.mk NodeType.ElementNode LinkNode
    [⟨HrefAttribute, cfg.Routing.AssetsPrefix ++ cssImport⟩,
     ⟨RelAttribute, StylesheetVal⟩,
     ⟨CrossOriginAttribute, AnonymousVal⟩] []

/-- The loop `for _, cssImport := range document.Config.CSSImports` of `ProcessHeadNode`
on the children of the head. -/
def appendLinks (cfg : Config) : List String → List Node → List Node
  | [], children => children
  | cssImport :: rest, children => appendLinks cfg rest (children ++ [linkNode cfg cssImport])

/-- `ProcessHeadNode` (document.go:154-169): the head node as the call leaves it. -/
def ProcessHeadNode (cfg : Config) (n : Node) : GoResult Node :=
  GoResult.returned (n.setChildren (appendLinks cfg cfg.CSSImports n.children)) none

/-! ## ProcessTableNode -/

/-- `ProcessTableNode` (document.go:174-200) for the node at path `n` of the tree `doc`,
which has no parent.  `newNode` is put at the place of `n` and `n` becomes its only
child; `ProcessNode` then works on `n` there. -/
def ProcessTableNode (w : World) (cfg : Config) (doc : Node) (n : List Nat) : GoResult Node :=
  match doc.get? n with
  | none => GoResult.panicked
  | some node =>
    match parentOf n with
    | none => GoResult.returned doc (some Error.NoParentForTableNode)
    | some _ =>
      let newNode := Node.mk NodeType.ElementNode DivNode
        [⟨ClassAttribute, DivTableResponsiveClass⟩] [ProcessNode w cfg node]
      insertBeforeThenRemove doc n newNode

/-! ## ProcessDirectoryNode -/

/-- The index of the first occurrence of `substr` in the text, counted from `k` at its
start; -1 when there is none. -/
def indexFrom (substr : List Char) : Nat → List Char → Int
  | k, [] => if substr.isEmpty then k else -1
  | k, c :: cs => if substr.isPrefixOf (c :: cs) then k else indexFrom substr (k + 1) cs

/-- `strings.Index(s, substr)`, counted in characters. -/
def Index (s substr : String) : Int :=
  indexFrom substr.data 0 s.data

/-- The list item that `ProcessDirectoryNode` builds for one document name. -/
def directoryItem (cfg : Config) (doc : String) : Node :=
  Node.mk NodeType.ElementNode "li" []
    [Node.mk NodeType.ElementNode "a"
      [⟨HrefAttribute, ContentPrefixURL ++ doc ++ cfg.Routing.UrlFileSuffix⟩,
       ⟨RelAttribute, RelValue⟩]
      [Node.mk NodeType.TextNode doc [] []]]

/-- The loop `for _, doc := range *document.DocumentDirectory` of `ProcessDirectoryNode`
(document.go:208-229): the children of `listNode`. -/
def directoryItems (cfg : Config) : List String → List Node
  | [] => []
  | doc :: rest =>
    if Index doc "." = 0 then directoryItems cfg rest
    else directoryItem cfg doc :: directoryItems cfg rest

/-- `ProcessDirectoryNode` (document.go:203-234) for the node at path `n` of the tree
`doc`, which has no parent. -/
def ProcessDirectoryNode (cfg : Config) (DocumentDirectory : Option (List String))
    (doc : Node) (n : List Nat) : GoResult Node :=
  match DocumentDirectory with
  | none => GoResult.returned doc (some Error.DirectoryNotInitialized)
  | some docs =>
    let listNode := Node.mk NodeType.ElementNode "ul" [] (directoryItems cfg docs)
    match doc.get? n with
    | none => GoResult.panicked
    | some _ => insertBeforeThenRemove doc n listNode

/-! ## ProcessNodesOfType -/

/-- The `switch nodeType` of `ProcessNodesOfType` (document.go:345-361) for the node
found at path `n` of `doc`: the handler of the type; no case for another type. -/
def processSpecialNode (w : World) (document : Document) (nodeType : String) (doc : Node)
    (n : List Nat) : GoResult Node :=
  if nodeType = TemplateNode then ProcessTemplateNode (templateEnv w document.Config) doc n
  else if nodeType = DirectoryNode then
    ProcessDirectoryNode document.Config document.DocumentDirectory doc n
  else if nodeType = TableNode then ProcessTableNode w document.Config doc n
  else GoResult.returned doc none

/-- The loop `for n := helpers.GetNodeOfType(doc, nodeType); n != nil; n = ...` of
`ProcessNodesOfType` (document.go:344-362), for at most as many rounds as the first
argument says: `none` when the loop has not ended by then. -/
def drainNodesOfType (w : World) (document : Document) (nodeType : String) :
    Nat → Node → Option (GoResult Node)
  | 0, doc =>
    match GetNodeOfTypePath doc nodeType with
    | none => some (GoResult.returned doc none)
    | some _ => none
  | fuel + 1, doc =>
    match GetNodeOfTypePath doc nodeType with
    | none => some (GoResult.returned doc none)
    | some n =>
      match processSpecialNode w document nodeType doc n with
      | GoResult.panicked => some GoResult.panicked
      | GoResult.returned doc1 (some err) => some (GoResult.returned doc1 (some err))
      | GoResult.returned doc1 none => drainNodesOfType w document nodeType fuel doc1

/-- `ProcessNodesOfType` (document.go:338-371) with at most `fuel` rounds of its loop.
The state of the result is the string `output`; the cause of a wrapped error stands
for the error. -/
def ProcessNodesOfType (w : World) (document : Document) (fuel : Nat) (htmlstr : String)
    (nodeType : String) : Option (GoResult String) :=
  match w.parse htmlstr with
  | none => some (GoResult.returned "" (some Error.HTMLParseError))
  | some doc =>
    match drainNodesOfType w document nodeType fuel doc with
    | none => none
    | some GoResult.panicked => some GoResult.panicked
    | some (GoResult.returned _ (some err)) => some (GoResult.returned "" (some err))
    | some (GoResult.returned doc1 none) =>
      match w.render doc1 with
      | none => some (GoResult.returned "" (some Error.HTMLRenderError))
      | some output => some (GoResult.returned output none)

/-! ## ProcessHTMLTree -/

/-- The `switch n.Data` in the closure of `ProcessHTMLTree` (document.go:419-439) for
one node; the errors of the body and head handlers are only logged. -/
def processElement (w : World) (cfg : Config) (n : Node) : GoResult Node :=
  if n.type = NodeType.ElementNode then
    if n.data = BodyNode then ProcessBodyNode cfg.BodyConfig n
    else if n.data = HeadNode then ProcessHeadNode cfg n
    else if n.data ≠ TableNode then GoResult.returned (ProcessNode w cfg n) none
    else GoResult.returned n none
  else GoResult.returned n none

/-- A walk over a sequence of siblings, one after the other. -/
def walkList (f : Node → Option (GoResult Node)) : List Node → Option (GoResult (List Node))
  | [] => some (GoResult.returned [] none)
  | c :: rest =>
    match f c with
    | none => none
    | some GoResult.panicked => some GoResult.panicked
    | some (GoResult.returned c1 _) =>
      match walkList f rest with
      | none => none
      | some GoResult.panicked => some GoResult.panicked
      | some (GoResult.returned rest1 _) => some (GoResult.returned (c1 :: rest1) none)

/-- The closure `f` of `ProcessHTMLTree` (document.go:418-443) at node `n`: the handler
of the node, then `f` on each child the node has after it.  The first argument bounds
the depth of the walk; `none` when the bound is used up. -/
def walkTree (w : World) (cfg : Config) : Nat → Node → Option (GoResult Node)
  | 0, _ => none
  | fuel + 1, n =>
    match processElement w cfg n with
    | GoResult.panicked => some GoResult.panicked
    | GoResult.returned n1 _ =>
      match walkList (walkTree w cfg fuel) n1.children with
      | none => none
      | some GoResult.panicked => some GoResult.panicked
      | some (GoResult.returned cs _) => some (GoResult.returned (n1.setChildren cs) none)

mutual
/-- The number of nodes on the longest path from the node down to a leaf. -/
def Node.height : Node → Nat
  | Node.mk _ _ _ cs => Node.heightList cs + 1
/-- The largest height in a sequence of trees. -/
def Node.heightList : List Node → Nat
  | [] => 0
  | c :: rest => max c.height (Node.heightList rest)
end

/-- `ProcessHTMLTree` (document.go:376-459), each of its three calls of
`ProcessNodesOfType` with at most `fuel` rounds.  The state of the result is the string
`output` and the attribute map of the document; the cause of a wrapped error stands for
the error.  The body handler puts three nodes between a body and its children, so the
walk over a tree goes no deeper than four times its height. -/
def ProcessHTMLTree (w : World) (document : Document) (fuel : Nat) (htmlstr : String) :
    Option (GoResult (String × AttrMap)) :=
  match w.parse htmlstr with
  | none => some (GoResult.returned ("", document.Attributes) (some Error.HTMLParseError))
  | some doc =>
    match ProcessAttributes doc document.Attributes with
    | GoResult.panicked => some GoResult.panicked
    | GoResult.returned (_, attributes) (some err) =>
      some (GoResult.returned ("", attributes) (some err))
    | GoResult.returned (doc1, attributes) none =>
      match w.render doc1 with
      | none => some (GoResult.returned ("", attributes) (some Error.HTMLRenderError))
      | some wipHTML =>
        match ProcessNodesOfType w document fuel wipHTML TemplateNode with
        | none => none
        | some GoResult.panicked => some GoResult.panicked
        | some (GoResult.returned _ (some err)) =>
          some (GoResult.returned ("", attributes) (some err))
        | some (GoResult.returned templatedHTML none) =>
          match ProcessNodesOfType w document fuel templatedHTML DirectoryNode with
          | none => none
          | some GoResult.panicked => some GoResult.panicked
          | some (GoResult.returned _ (some err)) =>
            some (GoResult.returned ("", attributes) (some err))
          | some (GoResult.returned directoryProcessedHTML none) =>
            match ProcessNodesOfType w document fuel directoryProcessedHTML DirectoryNode with
            | none => none
            | some GoResult.panicked => some GoResult.panicked
            | some (GoResult.returned _ (some err)) =>
              some (GoResult.returned ("", attributes) (some err))
            | some (GoResult.returned tableProcessedHTML none) =>
              match w.parse tableProcessedHTML with
              | none => some (GoResult.returned ("", attributes) (some Error.HTMLParseError))
              | some doc2 =>
                match walkTree w document.Config (4 * doc2.height) doc2 with
                | none => none
                | some GoResult.panicked => some GoResult.panicked
                | some (GoResult.returned doc3 _) =>
                  match w.render doc3 with
                  | none =>
                    some (GoResult.returned ("", attributes) (some Error.HTMLRenderError))
                  | some output => some (GoResult.returned (output, attributes) none)

/-! ### Vocabulary for the statements about ProcessTemplateNode -/

/-- The document node that `html.Parse` returns for the substituted text of the
template file, when the file attribute is there, the file can be read and the text
parses. -/
def templateFragment (env : TemplateEnv) (n : Node) : Option Node :=
  match templateContent env n with
  | none => none
  | some content => env.parse (substitute env (templateAttributes n) content)

/-- The rendered template: the first child of the body element of the fragment. -/
def templatePayload (env : TemplateEnv) (n : Node) : Option Node :=
  match templateFragment env n with
  | none => none
  | some frag =>
    match GetNodeOfType frag BodyNode with
    | none => none
    | some body => body.children.head?

/-- The four failures of a template element: it has no file attribute; the named file
cannot be read; the substituted text does not parse; the parsed text has no body
element, or a body without child. -/
def TemplateFails (env : TemplateEnv) (n : Node) : Prop :=
  (∀ a ∈ n.attr, a.Key ≠ TemplateFileKey) ∨
  (∃ file, (templateAttributes n).get TemplateFileKey = some file ∧
    env.readFile (env.Templates ++ "/" ++ file) = none) ∨
  (∃ content, templateContent env n = some content ∧
    env.parse (substitute env (templateAttributes n) content) = none) ∨
  (∃ frag, templateFragment env n = some frag ∧
    (GetNodeOfType frag BodyNode = none ∨
      ∃ body, GetNodeOfType frag BodyNode = some body ∧ body.children = []))

/-- The heading attribute of the element is there and parses as boolean true. -/
def headingTrue (n : Node) : Prop :=
  ∃ heading, (templateAttributes n).get TemplateHeadingKey = some heading ∧
    ParseBool heading = some true

/-- The text that `ProcessTemplateNode` hands to `html.Parse`: the text of the template
file after the substitution loop; `none` when the element has no file attribute or
the file cannot be read. -/
def templateText (env : TemplateEnv) (n : Node) : Option String :=
  match templateContent env n with
  | none => none
  | some content => some (substitute env (templateAttributes n) content)

/-- The tree without the subtree at the end of the path; everything else is as before.
The root cannot be erased. -/
def Node.eraseAt : Node → List Nat → Node
  | n, [] => n
  | Node.mk t d a cs, [i] => Node.mk t d a (cs.eraseIdx i)
  | Node.mk t d a cs, i :: j :: p => Node.mk t d a (cs.modify (fun c => c.eraseAt (j :: p)) i)

/-- The path of the node at `b` after the subtree at `n` was erased, for a node that
does not lie in that subtree: when the erased node is an earlier sibling of the node or
of one of its ancestors, the index at that place moves down by one. -/
def pathAfterErase : List Nat → List Nat → List Nat
  | _, [] => []
  | [], j :: b => j :: b
  | [i], j :: b => if i < j then (j - 1) :: b else j :: b
  | i :: i2 :: n, j :: b => if i = j then j :: pathAfterErase (i2 :: n) b else j :: b

/-- The node with `new` put in front of its children. -/
def Node.prependChild (new : Node) (n : Node) : Node :=
  n.setChildren (new :: n.children)

/-- The first entry of a sequence of search results that is a result, with its index. -/
def firstSome : List (Option (List Nat)) → Option (Nat × List Nat)
  | [] => none
  | some p :: _ => some (0, p)
  | none :: rest =>
    match firstSome rest with
    | none => none
    | some (j, p) => some (j + 1, p)

/-- The tree in which the subtree at the end of the path is replaced by `new`. -/
def Node.replaceAt : Node → List Nat → Node → Node
  | _, [], new => new
  | Node.mk t d a cs, i :: p, new =>
    match cs[i]? with
    | none => Node.mk t d a cs
    | some c => Node.mk t d a (cs.set i (c.replaceAt p new))

/-- The number of elements with the tag `nodeType` in a tree. -/
def countOfType (nodeType : String) (n : Node) : Nat :=
  n.subtree.countP (fun m => decide (m.type = NodeType.ElementNode ∧ m.data = nodeType))

/-! ## GetTitleURLFromString -/

/-- The class `\s` of the regular expressions of Go: tab, line feed, form feed, carriage
return and space. -/
def isWhitespace (c : Char) : Bool :=
  c == '\t' || c == '\n' || c == '\x0c' || c == '\r' || c == ' '

/-- The characters that the class `[^\d^A-Z^a-z^\-^\s]` does not match: a caret after
the first place of a class is a plain caret, so the class excludes the digits, the
caret, the letters of ASCII, the hyphen and the whitespace. -/
def isKept (c : Char) : Bool :=
  c.isDigit || c == '^' || c.isUpper || c.isLower || c == '-' || isWhitespace c

/-- The replacement of every match of `[^\d^A-Z^a-z^\-^\s]` by the empty text. -/
def stripSpecial (cs : List Char) : List Char :=
  cs.filter isKept

/-- The replacement of every match of `[\s]` by a hyphen. -/
def whitespaceToHyphens (cs : List Char) : List Char :=
  cs.map (fun c => if isWhitespace c then '-' else c)

/-- The replacement of every match of `-{2,}` by one hyphen: a hyphen that another
hyphen follows is dropped, so every run of hyphens leaves its last one. -/
def collapseHyphens : List Char → List Char
  | [] => []
  | c :: rest =>
    if c = '-' ∧ rest.head? = some '-' then collapseHyphens rest
    else c :: collapseHyphens rest

/-- The replacement of every match of `-*$` by the empty text, in a text without a
line feed: the hyphens at the end of the text are removed. -/
def trimTrailingHyphens (cs : List Char) : List Char :=
  cs.rdropWhile (fun c => c == '-')

/-- The value of `output` in `GetTitleURLFromString` (helpers.go:41-58) before the
truncation: special characters stripped, lower case if asked for (the text is ASCII by
then), whitespace turned into hyphens, clumps of hyphens collapsed. -/
def slugBeforeTruncation (title : String) (lowerCase : Bool) : List Char :=
  let output := stripSpecial title.data
  let output := if lowerCase then output.map Char.toLower else output
  let output := whitespaceToHyphens output
  collapseHyphens output

/-- `GetTitleURLFromString` (helpers.go:39-69).  The text is ASCII after the first
replacement, so its length in bytes is its number of characters; `none` stands for the
panic of the slice expression when `maxLength` is negative. -/
def GetTitleURLFromString (title : String) (maxLength : Int) (lowerCase : Bool) :
    Option String :=
  let output := slugBeforeTruncation title lowerCase
  if maxLength < 0 then none
  else
    let output := output.take (min output.length maxLength.toNat)
    some (String.mk (trimTrailingHyphens output))

/-! ## LoadFileDirectory and WalkStep -/

/-- The constant `constants.MarkdownFileSuffix`. -/
def MarkdownFileSuffix : String := ".md"

/-- `strings.Contains(s, substr)`. -/
def Contains (s substr : String) : Bool :=
  decide (0 ≤ Index s substr)

/-- `strings.TrimRight(s, cutset)`: the text without the characters at its end that
occur in `cutset`. -/
def TrimRight (s cutset : String) : String :=
  String.mk (s.data.rdropWhile (fun c => cutset.data.contains c))

/-- `strings.TrimPrefix(s, prefix)`. -/
def TrimPrefix (s pre : String) : String :=
  if pre.data.isPrefixOf s.data then String.mk (s.data.drop pre.data.length) else s

/-- `strings.TrimSuffix(s, suffix)`. -/
def TrimSuffix (s suf : String) : String :=
  if suf.data.isSuffixOf s.data then String.mk (s.data.take (s.data.length - suf.data.length))
  else s

/-- The offset in bytes of the first occurrence of `substr` in the text, counted from
`k` at its start; -1 when there is none. -/
def byteIndexFrom (substr : List Char) : Nat → List Char → Int
  | k, [] => if substr.isEmpty then k else -1
  | k, c :: cs =>
    if substr.isPrefixOf (c :: cs) then k else byteIndexFrom substr (k + c.utf8Size) cs

/-- `strings.Index(s, substr)` as Go counts it, in bytes. -/
def ByteIndex (s substr : String) : Int :=
  byteIndexFrom substr.data 0 s.data

/-- What `LoadFileDirectory` reads of an `os.FileInfo`. -/
structure FileInfo where
  Name : String
  IsDir : Bool

/-- `LoadFileDirectory` (files.go:14-23). -/
def LoadFileDirectory (fileInfo : List FileInfo) : List String :=
  fileInfo.foldl
    (fun result file =>
      let fileName := file.Name
      if Contains fileName ".md" then result ++ [TrimRight fileName ".md"] else result)
    []

/-- The type `helpers.DirectoryListing`. -/
structure DirectoryListing where
  Files : List String
  Path : String

/-- `WalkStep` (files.go:52-64): the listing after the call and the error it returns;
`err` is the error that `filepath.Walk` passes in. -/
def WalkStep (dirList : DirectoryListing) (path : String) (err : Option String) :
    DirectoryListing × Option String :=
  match err with
  | some e => (dirList, some ("err walking path " ++ path ++ ": " ++ e))
  | none =>
    let pathTrimmed := TrimPrefix path dirList.Path
    if pathTrimmed ≠ "" then
      if ByteIndex pathTrimmed ".md"
          = (pathTrimmed.utf8ByteSize : Int) - (MarkdownFileSuffix.utf8ByteSize : Int) then
        let newFile := TrimSuffix pathTrimmed MarkdownFileSuffix
        (⟨dirList.Files ++ [TrimPrefix newFile "/"], dirList.Path⟩, none)
      else (dirList, none)
    else (dirList, none)

/-! ## ParseDocument -/

/-- `strings.TrimLeft(s, cutset)`: the text without the characters at its start that
occur in `cutset`. -/
def TrimLeft (s cutset : String) : String :=
  String.mk (s.data.dropWhile (fun c => cutset.data.contains c))

/-- `ParseDocument` (document.go:469-512), with the markdown renderer `toHTML` and at
most `fuel` rounds for each loop of `ProcessHTMLTree`.  The state of the result is the
list `*documents` as the call leaves it and the text `finalMarkdown`; the attribute map
of the new entry is the one that `ProcessHTMLTree` fills, as both hold the same map. -/
def ParseDocument (w : World) (toHTML : String → String) (fuel : Nat) (conf : Config)
    (documents : List Document) (documentDirectory : Option (List String))
    (fileName : String) : Option (GoResult (List Document × String)) :=
  let newDoc : Document :=
    { FileName := fileName, ID := fileName, Attributes := fun _ => none,
      DocumentDirectory := documentDirectory, Config := conf }
  let documents := documents ++ [newDoc]
  let newDocIndex := documents.length - 1
  let documents := documents.modify (fun d => { d with FileContents := "" }) newDocIndex
  match w.readFile (conf.Directories.Documents ++ "/" ++ fileName ++ MarkdownFileSuffix) with
  | none => some (GoResult.returned (documents, "") (some Error.DocumentFileReadError))
  | some content =>
    let content := TrimLeft content "\n"
    let documents := documents.modify
      (fun d => { d with DocumentName := TrimRight fileName ".md" }) newDocIndex
    let renderedMarkdown := toHTML content
    match ProcessHTMLTree w newDoc fuel renderedMarkdown with
    | none => none
    | some GoResult.panicked => some GoResult.panicked
    | some (GoResult.returned (_, attributes) (some err)) =>
      some (GoResult.returned
        (documents.modify (fun d => { d with Attributes := attributes }) newDocIndex, "")
        (some err))
    | some (GoResult.returned (finalMarkdown, attributes) none) =>
      some (GoResult.returned
        (documents.modify
          (fun d => { d with Attributes := attributes, FileContents := finalMarkdown })
          newDocIndex, finalMarkdown)
        none)

/-- The attribute map of the document once `ProcessHTMLTree` has come past its call of
`ProcessAttributes` (document.go:377-384), whatever happens after it: the walk writes
the pairs of a marker before it removes the marker, and nothing later in
`ProcessHTMLTree` writes to the map. -/
def attributesAfterWalk (w : World) (htmlstr : String) (attributes : AttrMap) : AttrMap :=
  match w.parse htmlstr with
  | none => attributes
  | some doc => (walkAttributes doc ⟨attributes, false⟩).2.Attributes

/-- `ParseDocument` (document.go:469-512) with the list `*documents` in every outcome:
the first component is the list as the call leaves it when it returns or panics, and
as it stays from the call of `ProcessHTMLTree` on when that call does not end; the
second component is the outcome, `none` when the call has not ended within `fuel`
rounds of a loop, and its state is the text `finalMarkdown`.  The list is appended to
and written in the same places as in `ParseDocument`. -/
def ParseDocumentRun (w : World) (toHTML : String → String) (fuel : Nat) (conf : Config)
    (documents : List Document) (documentDirectory : Option (List String))
    (fileName : String) : List Document × Option (GoResult String) :=
  let newDoc : Document :=
    { FileName := fileName, ID := fileName, Attributes := fun _ => none,
      DocumentDirectory := documentDirectory, Config := conf }
  let documents := documents ++ [newDoc]
  let newDocIndex := documents.length - 1
  let documents := documents.modify (fun d => { d with FileContents := "" }) newDocIndex
  match w.readFile (conf.Directories.Documents ++ "/" ++ fileName ++ MarkdownFileSuffix) with
  | none => (documents, some (GoResult.returned "" (some Error.DocumentFileReadError)))
  | some content =>
    let content := TrimLeft content "\n"
    let documents := documents.modify
      (fun d => { d with DocumentName := TrimRight fileName ".md" }) newDocIndex
    let renderedMarkdown := toHTML content
    match ProcessHTMLTree w newDoc fuel renderedMarkdown with
    | none =>
      (documents.modify
        (fun d => { d with Attributes := attributesAfterWalk w renderedMarkdown newDoc.Attributes })
        newDocIndex, none)
    | some GoResult.panicked =>
      (documents.modify
        (fun d => { d with Attributes := attributesAfterWalk w renderedMarkdown newDoc.Attributes })
        newDocIndex, some GoResult.panicked)
    | some (GoResult.returned (_, attributes) (some err)) =>
      (documents.modify (fun d => { d with Attributes := attributes }) newDocIndex,
        some (GoResult.returned "" (some err)))
    | some (GoResult.returned (finalMarkdown, attributes) none) =>
      (documents.modify
        (fun d => { d with Attributes := attributes, FileContents := finalMarkdown })
        newDocIndex, some (GoResult.returned finalMarkdown none))

/-! ### The tree after the final walk of ProcessHTMLTree -/

mutual
/-- The tree that the final walk of `ProcessHTMLTree` is to leave for the tree `n`, in
the words of its description: `ProcessNode` once on every element that is not a body,
head or table, the three wrapper divs of a body and the links of a head included; a
body, head or table element keeps its attributes. -/
def finalWalk (w : World) (cfg : Config) : Node → Node
  | Node.mk t d a cs =>
    if t = NodeType.ElementNode then
      if d = BodyNode then
        Node.mk t d a
          [ProcessNode w cfg (divWithClass cfg.BodyConfig.ContainerClass
            [ProcessNode w cfg (divWithClass cfg.BodyConfig.RowClass
              [ProcessNode w cfg (divWithClass cfg.BodyConfig.ColClass
                (finalWalkList w cfg cs))])])]
      else if d = HeadNode then
        Node.mk t d a
          (finalWalkList w cfg cs
            ++ cfg.CSSImports.map (fun cssImport => ProcessNode w cfg (linkNode cfg cssImport)))
      else if d ≠ TableNode then ProcessNode w cfg (Node.mk t d a (finalWalkList w cfg cs))
      else Node.mk t d a (finalWalkList w cfg cs)
    else Node.mk t d a (finalWalkList w cfg cs)
/-- The final walk over a sequence of siblings. -/
def finalWalkList (w : World) (cfg : Config) : List Node → List Node
  | [] => []
  | c :: rest => finalWalk w cfg c :: finalWalkList w cfg rest
end

/-! ## Concrete trees -/

/-- An element node. -/
def element (tag : String) (attrs : List Attribute) (children : List Node) : Node :=
  Node.mk NodeType.ElementNode tag attrs children

/-- A text node. -/
def text (s : String) : Node :=
  Node.mk NodeType.TextNode s [] []

/-- The tree `html.Parse` builds around body content: a document node over
`<html><head></head><body>...</body></html>`. -/
def page (bodyChildren : List Node) : Node :=
  Node.mk NodeType.DocumentNode "" []
    [element "html" [] [element "head" [] [], element "body" [] bodyChildren]]

/-- The map with no key. -/
def emptyMap : AttrMap := fun _ => none

/-- Body `<attributes testattr="testval"></attributes>`: a marker without title. -/
def pageWithoutTitle : Node :=
  page [element "attributes" [⟨"testattr", "testval"⟩] []]

/-- Body `<attributes title="T"></attributes><attributes author="A"></attributes>`. -/
def pageSiblingMarkers : Node :=
  page [element "attributes" [⟨"title", "T"⟩] [], element "attributes" [⟨"author", "A"⟩] []]

/-- Body `<div><attributes title="T"></attributes></div><attributes title=""></attributes>`. -/
def pageTitleThenEmpty : Node :=
  page [element "div" [] [element "attributes" [⟨"title", "T"⟩] []],
    element "attributes" [⟨"title", ""⟩] []]

/-- Body `<p>x</p><attributes title="T" author="A"></attributes>`. -/
def pageOneMarker : Node :=
  page [element "p" [] [text "x"],
    element "attributes" [⟨"title", "T"⟩, ⟨"author", "A"⟩] []]

/-- Body `<attributes title="T"><attributes k="v"></attributes></attributes>`. -/
def pageNestedMarker : Node :=
  page [element "attributes" [⟨"title", "T"⟩] [element "attributes" [⟨"k", "v"⟩] []]]

/-- The template directory of the tests, with the one file `alert.html`; the parser
is given on the one text that this file yields for the alert text "Heads up!". -/
def alertEnv : TemplateEnv where
  Templates := "../tests/templates"
  readFile := fun path =>
    if path = "../tests/templates/alert.html" then
      some "<div class=\"alert alert-primary\">\x7b\x7balert-text\x7d\x7d</div>"
    else none
  parse := fun s =>
    if s = "<div class=\"alert alert-primary\">Heads up!</div>" then
      some (page [element "div" [⟨"class", "alert alert-primary"⟩] [text "Heads up!"]])
    else none
  rangeOrder := fun m => m

/-- Body `<span>Hello</span><template file="alert.html" alert-text="Heads up!"></template>`. -/
def pageTemplateNoHeading : Node :=
  page [element "span" [] [text "Hello"],
    element "template" [⟨"file", "alert.html"⟩, ⟨"alert-text", "Heads up!"⟩] []]

/-- Body `<span>Hello</span><template></template>`. -/
def pageTemplateNoFile : Node :=
  page [element "span" [] [text "Hello"], element "template" [] []]

/-- The tree of
`<head><template file="alert.html" heading="true" alert-text="Heads up!"></template></head><frameset></frameset>`:
a document without body element. -/
def framesetPage : Node :=
  Node.mk NodeType.DocumentNode "" []
    [element "html" []
      [element "head" []
        [element "template"
          [⟨"file", "alert.html"⟩, ⟨"heading", "true"⟩, ⟨"alert-text", "Heads up!"⟩] []],
       element "frameset" [] []]]

/-- The configuration of `GetDefaultConfig`, with the routes given. -/
def configWith (routing : RoutingConfig) : Config where
  Directories := ⟨"./src/assets", "./src/content", "./src/templates"⟩
  Routing := routing
  CSSImports := ["bootstrap.min.css", "custom.css"]
  BodyConfig := ⟨"container", "row", "col-lg-12"⟩
  Rules := fun tag =>
    if tag = "table" then [("class", "table table-bordered table-striped table-hover table-sm")]
    else if tag = "img" then [("style", "max-width: 100%;")]
    else []

/-- The configuration of `GetDefaultConfig` (config.go:64-96). -/
def defaultConfig : Config :=
  configWith ⟨"/content/", "/assets/", ".html"⟩

/-- The default configuration with the content served under `/docs/`. -/
def docsConfig : Config :=
  configWith ⟨"/docs/", "/assets/", ".html"⟩

/-- Body `<directory></directory>`. -/
def pageDirectory : Node :=
  page [element "directory" [] []]

/-- Body `<table class="test-class"><tbody></tbody></table><p>x</p>`. -/
def pageTable : Node :=
  page [element "table" [⟨"class", "test-class"⟩] [element "tbody" [] []],
    element "p" [] [text "x"]]

/-- Body `<table id="t"><tbody></tbody></table>`. -/
def pageTableNoClass : Node :=
  page [element "table" [⟨"id", "t"⟩] [element "tbody" [] []]]

/-- A world in which a `range` visits the entries of a map in the order they are
written; there is no file, and nothing parses or renders. -/
def plainWorld : World where
  readFile := fun _ => none
  parse := fun _ => none
  render := fun _ => none
  rangeOrder := fun m => m

/-- Body `<span>Hello</span><div><template file="alert.html" heading="true" alert-text="Heads up!"></template></div>`. -/
def pageTemplateHeading : Node :=
  page [element "span" [] [text "Hello"],
    element "div" []
      [element "template"
        [⟨"file", "alert.html"⟩, ⟨"heading", "true"⟩, ⟨"alert-text", "Heads up!"⟩] []]]

/-- A template directory with the one file `name.html`, whose text holds the token of
the file key; the parser is given on the text of the file and on the text with the
token replaced by the file name. -/
def fileTokenEnv : TemplateEnv where
  Templates := "../tests/templates"
  readFile := fun path =>
    if path = "../tests/templates/name.html" then some "<p>\x7b\x7bfile\x7d\x7d</p>"
    else none
  parse := fun s =>
    if s = "<p>name.html</p>" then some (page [element "p" [] [text "name.html"]])
    else if s = "<p>\x7b\x7bfile\x7d\x7d</p>" then
      some (page [element "p" [] [text "\x7b\x7bfile\x7d\x7d"]])
    else none
  rangeOrder := fun m => m

/-- Body `<template file="name.html"></template>`. -/
def pageTemplateFileToken : Node :=
  page [element "template" [⟨"file", "name.html"⟩] []]

/-- The attributes of a start tag as text: a blank, the key, `="`, the value and `"` for
each. -/
def renderAttrs : List Attribute → String
  | [] => ""
  | a :: rest => " " ++ a.Key ++ "=\"" ++ a.Val ++ "\"" ++ renderAttrs rest

mutual
/-- A plain printer of trees, for the concrete worlds below: text as it is, an element
as start tag, children and end tag (a link element as one self-closing tag), a
document node as its children. -/
def renderTree : Node → String
  | Node.mk t d a cs =>
    if t = NodeType.TextNode then d
    else if t = NodeType.ElementNode then
      if d = "link" then "<" ++ d ++ renderAttrs a ++ "/>"
      else "<" ++ d ++ renderAttrs a ++ ">" ++ renderTrees cs ++ "</" ++ d ++ ">"
    else renderTrees cs
/-- The texts of a sequence of trees, one after the other. -/
def renderTrees : List Node → String
  | [] => ""
  | c :: rest => renderTree c ++ renderTrees rest
end

/-- A world that prints with `renderTree` and parses the texts of the trees `known`
back to them; a `range` visits the entries of a map in the order they are written, and
there is no file. -/
def worldOf (known : List Node) : World where
  readFile := fun _ => none
  parse := fun s => known.find? (fun t => renderTree t == s)
  render := fun t => some (renderTree t)
  rangeOrder := fun m => m

/-- Body `<attributes title="T"></attributes><table><tbody><tr><td></td></tr></tbody></table>`. -/
def pageTitleAndTable : Node :=
  page [element "attributes" [⟨"title", "T"⟩] [],
    element "table" [] [element "tbody" [] [element "tr" [] [element "td" [] []]]]]

/-- Body `<table><tbody><tr><td></td></tr></tbody></table>`. -/
def pageOnlyTable : Node :=
  page [element "table" [] [element "tbody" [] [element "tr" [] [element "td" [] []]]]]

/-- A document with the default configuration, no attribute yet and the sibling names
`test1`, `test2`. -/
def defaultDocument : Document where
  Attributes := emptyMap
  DocumentDirectory := some ["test1", "test2"]
  Config := defaultConfig

/-- A world in which a `range` visits the entries of a map in the reverse of the order
they are written; there is no file, and nothing parses or renders. -/
def reverseWorld : World where
  readFile := fun _ => none
  parse := fun _ => none
  render := fun _ => none
  rangeOrder := fun m => m.reverse

/-- The default configuration with a second rule, class = `img-fluid`, for tag img. -/
def twoRulesConfig : Config where
  Directories := defaultConfig.Directories
  Routing := defaultConfig.Routing
  CSSImports := defaultConfig.CSSImports
  BodyConfig := defaultConfig.BodyConfig
  Rules := fun tag =>
    if tag = "img" then [("style", "max-width: 100%;"), ("class", "img-fluid")]
    else defaultConfig.Rules tag

/-- A world whose documents directory holds the one file `word.md`; it parses and
renders as `worldOf` does. -/
def wordWorld (known : List Node) : World where
  readFile := fun path => if path = "./src/content/word.md" then some "\n# Word" else none
  parse := (worldOf known).parse
  render := (worldOf known).render
  rangeOrder := fun m => m

/-- The entry that a call of `ParseDocument` for the file name `missing` adds when the
file cannot be read. -/
def missingDocument : Document where
  Attributes := fun _ => none
  DocumentDirectory := some ["missing"]
  Config := defaultConfig
  FileName := "missing"
  ID := "missing"

/-- The default configuration with one style sheet and the rule `data-x` = `1` for
every tag, body, head and table included. -/
def everyTagConfig : Config where
  Directories := defaultConfig.Directories
  Routing := defaultConfig.Routing
  CSSImports := ["custom.css"]
  BodyConfig := defaultConfig.BodyConfig
  Rules := fun _ => [("data-x", "1")]

/-- A world whose template directory holds the one file `alert.html`; the parser is
given on the one text that this file yields for the alert text "Heads up!". -/
def alertWorld : World where
  readFile := fun path =>
    if path = "./src/templates/alert.html" then
      some "<div class=\"alert alert-primary\">\x7b\x7balert-text\x7d\x7d</div>"
    else none
  parse := alertEnv.parse
  render := fun _ => none
  rangeOrder := fun m => m

/-- Body with two template elements, the second one a heading inside a div:
`<template file="alert.html" alert-text="Heads up!"></template><span>Hello</span><div><template file="alert.html" heading="true" alert-text="Heads up!"></template></div>`. -/
def pageTwoTemplates : Node :=
  page [element "template" [⟨"file", "alert.html"⟩, ⟨"alert-text", "Heads up!"⟩] [],
    element "span" [] [text "Hello"],
    element "div" []
      [element "template"
        [⟨"file", "alert.html"⟩, ⟨"heading", "true"⟩, ⟨"alert-text", "Heads up!"⟩] []]]

/-- Body `<div><attributes title="A" k="1"></attributes><p>x</p></div><attributes title="B"><attributes z="9"></attributes></attributes>`:
the first marker has a later sibling without marker, the second one holds a marker. -/
def pageMarkersWithSiblings : Node :=
  page [element "div" []
      [element "attributes" [⟨"title", "A"⟩, ⟨"k", "1"⟩] [], element "p" [] [text "x"]],
    element "attributes" [⟨"title", "B"⟩] [element "attributes" [⟨"z", "9"⟩] []]]

/-- The default configuration with the two rules style and class for tag table. -/
def tableTwoRulesConfig : Config where
  Directories := defaultConfig.Directories
  Routing := defaultConfig.Routing
  CSSImports := defaultConfig.CSSImports
  BodyConfig := defaultConfig.BodyConfig
  Rules := fun tag =>
    if tag = "table" then [("style", "width: 100%;"), ("class", "table-sm")]
    else defaultConfig.Rules tag

/-- Body `<table style="color: red;"><tbody></tbody></table>`. -/
def pageTableStyle : Node :=
  page [element "table" [⟨"style", "color: red;"⟩] [element "tbody" [] []]]

/-- The text of the template file `loop.html`: a page whose body is a template element
for the file `loop.html` itself. -/
def loopText : String :=
  "<html><head></head><body><template file=\"loop.html\"></template></body></html>"

/-- The tree of `loopText`. -/
def pageLoop : Node :=
  page [element "template" [⟨"file", "loop.html"⟩] []]

/-- Body `<attributes title="T"></attributes><template file="loop.html"></template>`. -/
def pageTitleAndLoop : Node :=
  page [element "attributes" [⟨"title", "T"⟩] [],
    element "template" [⟨"file", "loop.html"⟩] []]

/-- A world with the document `word.md` and the template file `loop.html`; it parses
the texts of `pageTitleAndLoop` and `pageLoop` and renders as `worldOf` does. -/
def loopWorld : World where
  readFile := fun path =>
    if path = "./src/content/word.md" then some "\n# Word"
    else if path = "./src/templates/loop.html" then some loopText
    else none
  parse := (worldOf [pageTitleAndLoop, pageLoop]).parse
  render := (worldOf [pageTitleAndLoop, pageLoop]).render
  rangeOrder := fun m => m

/-! ## Theorems -/

theorem bodyChildLoop_second_stays (c2 : Node) :
    ∀ (r : List Node) (fuel : Nat) (col : List Node), r.length ≤ fuel →
      bodyChildLoop fuel (if r.isEmpty then none else some 1) (c2 :: r) col
        = some ([c2], col ++ r) := by
  intro r
  induction r with
  | nil => intro fuel col _; cases fuel <;> simp [bodyChildLoop]
  | cons x xs ih =>
    intro fuel col h
    cases fuel with
    | zero => simp at h
    | succ f =>
      have hf : xs.length ≤ f := by simpa using h
      have := ih f (col ++ [x]) hf
      cases xs with
      | nil => simp [bodyChildLoop]
      | cons y ys => simpa [bodyChildLoop] using this

theorem bodyChildLoop_first_round (c1 c2 : Node) (r col : List Node) (fuel : Nat) :
    bodyChildLoop (fuel + 1) (some 0) (c1 :: c2 :: r) col
      = bodyChildLoop fuel (if r.isEmpty then none else some 1) (c2 :: r) (col ++ [c1]) := by
  cases r <;> rfl

theorem ProcessBodyNode_eq (cfg : BodyConfig) (n : Node) :
    ProcessBodyNode cfg n
      = GoResult.returned (n.setChildren [containerNode cfg n.children]) none := by
  obtain ⟨t, d, a, cs⟩ := n
  cases cs with
  | nil => rfl
  | cons c1 r =>
    cases r with
    | nil => rfl
    | cons c2 r2 =>
      have h := bodyChildLoop_second_stays c2 r2 (r2.length + 1) [c1] (by omega)
      have h1 := bodyChildLoop_first_round c1 c2 r2 [] (r2.length + 1)
      simp only [List.nil_append] at h1
      rw [h] at h1
      simp only [ProcessBodyNode, Node.children, List.isEmpty_cons, Bool.false_eq_true,
        if_false, List.length_cons, h1, Node.setChildren]
      cases r2 <;> simp

theorem collectAttributes_append (xs ys : List Attribute) (st : AttrState) :
    collectAttributes (xs ++ ys) st = collectAttributes ys (collectAttributes xs st) := by
  induction xs generalizing st with
  | nil => rfl
  | cons a r ih => simp [collectAttributes, ih]

theorem collectAttributes_flag (xs : List Attribute) (st : AttrState) :
    (collectAttributes xs st).containsTitleAttribute
      = (st.containsTitleAttribute || xs.any (fun a => a.Key == TitleAttribute && a.Val != "")) := by
  induction xs generalizing st with
  | nil => simp [collectAttributes]
  | cons a r ih =>
    simp only [collectAttributes, ih, List.any_cons]
    by_cases h : (a.Key == TitleAttribute && a.Val != "") = true
    · simp [h]
    · simp [h]

theorem overwrite_nil (m : AttrMap) : overwrite m [] = m := by
  funext k; simp [overwrite]

theorem overwrite_cons (m : AttrMap) (a : Attribute) (xs : List Attribute) :
    overwrite m (a :: xs) = overwrite (m.set a.Key a.Val) xs := by
  funext k
  simp only [overwrite, List.reverse_cons, List.find?_append]
  cases h : List.find? (fun a => a.Key == k) xs.reverse with
  | some b => simp
  | none =>
    by_cases hk : a.Key = k
    · simp [AttrMap.set, hk]
    · have hk2 : ¬ k = a.Key := fun h => hk h.symm
      simp [AttrMap.set, hk, hk2]

theorem collectAttributes_map (xs : List Attribute) (st : AttrState) :
    (collectAttributes xs st).Attributes = overwrite st.Attributes xs := by
  induction xs generalizing st with
  | nil => simp [collectAttributes, overwrite_nil]
  | cons a r ih => simp only [collectAttributes, ih, overwrite_cons]

theorem attrsOf_append (xs ys : List Node) : attrsOf (xs ++ ys) = attrsOf xs ++ attrsOf ys := by
  induction xs with
  | nil => rfl
  | cons m r ih => simp [attrsOf, ih]

theorem walkAttributes_marker (c : Node) (st : AttrState) (h : isAttributesElement c = true) :
    walkAttributes c st = (none, collectAttributes c.attr st) := by
  obtain ⟨t, d, a, cs⟩ := c
  simp [walkAttributes, h, Node.attr]

theorem walkAttributes_other (c : Node) (st : AttrState) (h : isAttributesElement c = false) :
    walkAttributes c st
      = (some (c.setChildren (walkAttributesChildren c.children st).1),
          (walkAttributesChildren c.children st).2) := by
  obtain ⟨t, d, a, cs⟩ := c
  simp [walkAttributes, h, Node.children, Node.setChildren]

mutual
theorem walkAttributes_state (n : Node) (st : AttrState) :
    (walkAttributes n st).2 = collectAttributes (attrsOf (visitedMarkers n)) st := by
  match n with
  | Node.mk t d a cs =>
    simp only [walkAttributes, visitedMarkers]
    split
    · simp [attrsOf, Node.attr]
    · simpa using walkAttributesChildren_state cs st
theorem walkAttributesChildren_state (cs : List Node) (st : AttrState) :
    (walkAttributesChildren cs st).2
      = collectAttributes (attrsOf (visitedMarkersChildren cs)) st := by
  match cs with
  | [] => simp [walkAttributesChildren, visitedMarkersChildren, attrsOf, collectAttributes]
  | c :: rest =>
    have h1 := walkAttributes_state c st
    have h2 := walkAttributesChildren_state rest (walkAttributes c st).2
    cases hc : isAttributesElement c with
    | true =>
      simp [walkAttributesChildren, visitedMarkersChildren, hc, walkAttributes_marker c st hc,
        attrsOf]
    | false =>
      rw [walkAttributes_other c st hc] at h1 h2
      simp only [walkAttributesChildren, visitedMarkersChildren, hc, walkAttributes_other c st hc,
        attrsOf_append, collectAttributes_append]
      simp only [Bool.false_eq_true, if_false] at *
      rw [h2, attrsOf_append, collectAttributes_append, ← h1]
end

theorem ProcessAttributes_returns (n : Node) (m : AttrMap) (h : isAttributesElement n = false) :
    ProcessAttributes n m
      = GoResult.returned
          (n.setChildren (walkAttributesChildren n.children ⟨m, false⟩).1,
            overwrite m (attrsOf (visitedMarkers n)))
          (if (attrsOf (visitedMarkers n)).any (fun a => a.Key == TitleAttribute && a.Val != "")
            then none else some Error.MissingTitleAttribute) := by
  have hs := walkAttributes_state n ⟨m, false⟩
  rw [walkAttributes_other n _ h] at hs
  simp only at hs
  simp only [ProcessAttributes, walkAttributes_other n _ h, hs, collectAttributes_map,
    collectAttributes_flag]
  simp

theorem subtree_self (n : Node) : n ∈ n.subtree := by
  obtain ⟨t, d, a, cs⟩ := n
  simp [Node.subtree]

theorem subtree_eq (n : Node) : n.subtree = n :: Node.subtreeList n.children := by
  obtain ⟨t, d, a, cs⟩ := n
  simp [Node.subtree, Node.children]

theorem visitedMarkers_eq (n : Node) :
    visitedMarkers n
      = if isAttributesElement n then [n] else visitedMarkersChildren n.children := by
  obtain ⟨t, d, a, cs⟩ := n
  simp [visitedMarkers, Node.children]

theorem outerMarkers_eq (n : Node) :
    outerMarkers n = if isAttributesElement n then [n] else outerMarkersList n.children := by
  obtain ⟨t, d, a, cs⟩ := n
  simp [outerMarkers, Node.children]

mutual
theorem visitedMarkers_sub (n m : Node) (h : m ∈ visitedMarkers n) : m ∈ markers n := by
  match n with
  | Node.mk t d a cs =>
    rw [visitedMarkers_eq] at h
    simp only [markers, List.mem_filter, subtree_eq, Node.children, List.mem_cons]
    split at h
    · rename_i hn
      simp only [List.mem_singleton] at h
      subst h
      exact ⟨Or.inl rfl, hn⟩
    · have := visitedMarkersChildren_sub cs m h
      simp only [List.mem_filter] at this
      exact ⟨Or.inr this.1, this.2⟩
theorem visitedMarkersChildren_sub (cs : List Node) (m : Node)
    (h : m ∈ visitedMarkersChildren cs) :
    m ∈ (Node.subtreeList cs).filter isAttributesElement := by
  match cs with
  | [] => simp [visitedMarkersChildren] at h
  | c :: rest =>
    simp only [visitedMarkersChildren] at h
    simp only [Node.subtreeList, List.filter_append, List.mem_append]
    split at h
    · rename_i hc
      simp only [List.mem_singleton] at h
      subst h
      exact Or.inl (by simp [List.mem_filter, subtree_self, hc])
    · rw [List.mem_append] at h
      cases h with
      | inl h => exact Or.inl (visitedMarkers_sub c m h)
      | inr h => exact Or.inr (visitedMarkersChildren_sub rest m h)
end

mutual
theorem visitedMarkers_single (n : Node) (h : (markers n).length ≤ 1) :
    visitedMarkers n = markers n := by
  match n with
  | Node.mk t d a cs =>
    rw [visitedMarkers_eq]
    simp only [markers, subtree_eq, Node.children, List.filter_cons] at h ⊢
    split
    · rename_i hn
      simp only [hn, if_true, List.length_cons] at h ⊢
      have : ((Node.subtreeList cs).filter isAttributesElement).length = 0 := by omega
      rw [List.length_eq_zero] at this
      rw [this]
    · rename_i hn
      simp only [hn, if_false] at h ⊢
      exact visitedMarkersChildren_single cs h
theorem visitedMarkersChildren_single (cs : List Node)
    (h : ((Node.subtreeList cs).filter isAttributesElement).length ≤ 1) :
    visitedMarkersChildren cs = (Node.subtreeList cs).filter isAttributesElement := by
  match cs with
  | [] => simp [visitedMarkersChildren, Node.subtreeList]
  | c :: rest =>
    simp only [Node.subtreeList, List.filter_append, List.length_append] at h ⊢
    simp only [visitedMarkersChildren]
    split
    · rename_i hc
      rw [subtree_eq, List.filter_cons] at h ⊢
      simp only [hc, if_true, List.length_cons] at h ⊢
      have h1 : ((Node.subtreeList c.children).filter isAttributesElement).length = 0 := by omega
      have h2 : ((Node.subtreeList rest).filter isAttributesElement).length = 0 := by omega
      rw [List.length_eq_zero] at h1 h2
      rw [h1, h2]
      rfl
    · have e1 := visitedMarkers_single c (by simp only [markers]; omega)
      have e2 := visitedMarkersChildren_single rest (by omega)
      rw [e1, e2, markers]
end

mutual
theorem outerMarkers_of_no_marker (n : Node)
    (h : n.subtree.all (fun m => !isAttributesElement m) = true) : outerMarkers n = [] := by
  match n with
  | Node.mk t d a cs =>
    simp only [Node.subtree, List.all_cons, Bool.and_eq_true, Bool.not_eq_true'] at h
    rw [outerMarkers_eq, h.1]
    exact outerMarkersList_of_no_marker cs h.2
theorem outerMarkersList_of_no_marker (cs : List Node)
    (h : (Node.subtreeList cs).all (fun m => !isAttributesElement m) = true) :
    outerMarkersList cs = [] := by
  match cs with
  | [] => rfl
  | c :: rest =>
    simp only [Node.subtreeList, List.all_append, Bool.and_eq_true] at h
    simp only [outerMarkersList, outerMarkers_of_no_marker c h.1,
      outerMarkersList_of_no_marker rest h.2, List.append_nil]
end

mutual
theorem visitedMarkers_outer (n : Node) (h : noMarkerBehindMarker n = true) :
    visitedMarkers n = outerMarkers n := by
  match n with
  | Node.mk t d a cs =>
    rw [visitedMarkers_eq, outerMarkers_eq]
    simp only [noMarkerBehindMarker] at h
    split
    · rfl
    · rename_i hn
      rw [if_neg hn] at h
      exact visitedMarkersChildren_outer cs h
theorem visitedMarkersChildren_outer (cs : List Node)
    (h : noMarkerBehindMarkerList cs = true) :
    visitedMarkersChildren cs = outerMarkersList cs := by
  match cs with
  | [] => rfl
  | c :: rest =>
    simp only [noMarkerBehindMarkerList] at h
    simp only [visitedMarkersChildren, outerMarkersList]
    split
    · rename_i hm
      rw [if_pos hm] at h
      rw [outerMarkers_eq, if_pos hm, outerMarkersList_of_no_marker rest h]
      rfl
    · rename_i hm
      rw [if_neg hm, Bool.and_eq_true] at h
      rw [visitedMarkers_outer c h.1, visitedMarkersChildren_outer rest h.2]
end

theorem attrsOf_any (p : Attribute → Bool) (ms : List Node) :
    (attrsOf ms).any p = ms.any (fun m => m.attr.any p) := by
  induction ms with
  | nil => rfl
  | cons m r ih => simp [attrsOf, List.any_append, ih]

/-- C3: a tree whose root is no attributes element and in which no attributes element
carries a title attribute with a non-empty value makes `ProcessAttributes` return the
missing-title error. -/
theorem ProcessAttributes_missing_title (htmlNode : Node) (attributes : AttrMap)
    (hroot : isAttributesElement htmlNode = false)
    (h : ∀ m ∈ markers htmlNode, hasTitle m = false) :
    ∃ st, ProcessAttributes htmlNode attributes
      = GoResult.returned st (some Error.MissingTitleAttribute) := by
  rw [ProcessAttributes_returns htmlNode attributes hroot, attrsOf_any]
  have : (visitedMarkers htmlNode).any
      (fun m => m.attr.any (fun a => a.Key == TitleAttribute && a.Val != "")) = false := by
    rw [List.any_eq_false]
    intro m hm
    have := h m (visitedMarkers_sub htmlNode m hm)
    simpa [hasTitle] using this
  rw [this]
  exact ⟨_, rfl⟩

theorem ProcessAttributes_missing_title_witness :
    isAttributesElement pageWithoutTitle = false ∧
    (∀ m ∈ markers pageWithoutTitle, hasTitle m = false) ∧
    ∃ st, ProcessAttributes pageWithoutTitle emptyMap
      = GoResult.returned st (some Error.MissingTitleAttribute) :=
  ⟨by decide, by decide,
    ProcessAttributes_missing_title pageWithoutTitle emptyMap (by decide) (by decide)⟩

/-- C4: on the body `<attributes title="T"></attributes><attributes author="A"></attributes>`
`ProcessAttributes` returns no error and leaves the second attributes element in the
tree; its attribute is not recorded. -/
theorem ProcessAttributes_leaves_sibling_marker :
    ∃ attributes,
      ProcessAttributes pageSiblingMarkers emptyMap
        = GoResult.returned (page [element "attributes" [⟨"author", "A"⟩] []], attributes) none
      ∧ markers (page [element "attributes" [⟨"author", "A"⟩] []])
        = [element "attributes" [⟨"author", "A"⟩] []]
      ∧ attributes "author" = none :=
  ⟨_, rfl, by decide, by decide⟩

theorem ProcessAttributes_root_marker (n : Node) (m : AttrMap) (h : isAttributesElement n = true) :
    ProcessAttributes n m = GoResult.panicked := by
  simp [ProcessAttributes, walkAttributes_marker n _ h]

theorem mem_attrsOf (a : Attribute) (ms : List Node) (h : a ∈ attrsOf ms) :
    ∃ m ∈ ms, a ∈ m.attr := by
  induction ms with
  | nil => simp [attrsOf] at h
  | cons m r ih =>
    simp only [attrsOf, List.mem_append] at h
    cases h with
    | inl h => exact ⟨m, by simp, h⟩
    | inr h =>
      obtain ⟨m1, hm1, ha⟩ := ih h
      exact ⟨m1, by simp [hm1], ha⟩

theorem overwrite_of_any (m : AttrMap) (attrs : List Attribute) (k : String)
    (h : attrs.any (fun a => a.Key == k) = true) :
    ∃ a ∈ attrs, a.Key = k ∧ overwrite m attrs k = some a.Val := by
  have hex : ∃ a, attrs.reverse.find? (fun a => a.Key == k) = some a := by
    cases hf : attrs.reverse.find? (fun a => a.Key == k) with
    | some a => exact ⟨a, rfl⟩
    | none =>
      rw [List.find?_eq_none] at hf
      rw [List.any_eq_true] at h
      obtain ⟨a, ha, hk⟩ := h
      exact absurd hk (hf a (by simpa using ha))
  obtain ⟨a, ha⟩ := hex
  refine ⟨a, ?_, ?_, ?_⟩
  · simpa using List.mem_of_find?_eq_some ha
  · simpa using List.find?_some ha
  · simp [overwrite, ha]

/-- C5 (as stated, refuted): on the body
`<div><attributes title="T"></attributes></div><attributes title=""></attributes>`
`ProcessAttributes` returns no error and the map holds title with the empty value. -/
theorem ProcessAttributes_title_may_be_empty :
    ∃ root attributes,
      ProcessAttributes pageTitleThenEmpty emptyMap = GoResult.returned (root, attributes) none
      ∧ attributes TitleAttribute = some "" :=
  ⟨_, _, rfl, by decide⟩

/-- C5 (amended): whenever `ProcessAttributes` returns no error and no attributes element
of the tree carries a title attribute with an empty value, the attribute map holds key
title with a non-empty value, for every tree and every initial map. -/
theorem ProcessAttributes_title_established (htmlNode root : Node) (initial attributes : AttrMap)
    (hret : ProcessAttributes htmlNode initial = GoResult.returned (root, attributes) none)
    (hne : ∀ m ∈ markers htmlNode, ∀ a ∈ m.attr, a.Key = TitleAttribute → a.Val ≠ "") :
    ∃ v, attributes TitleAttribute = some v ∧ v ≠ "" := by
  cases hroot : isAttributesElement htmlNode with
  | true =>
    rw [ProcessAttributes_root_marker htmlNode initial hroot] at hret
    cases hret
  | false =>
    rw [ProcessAttributes_returns htmlNode initial hroot] at hret
    injection hret with hst herr
    injection hst with _ hmap
    have hany : (attrsOf (visitedMarkers htmlNode)).any
        (fun a => a.Key == TitleAttribute && a.Val != "") = true := by
      by_contra hc
      simp only [Bool.not_eq_true] at hc
      rw [hc] at herr
      cases herr
    have hany2 : (attrsOf (visitedMarkers htmlNode)).any (fun a => a.Key == TitleAttribute)
        = true := by
      rw [List.any_eq_true] at hany ⊢
      obtain ⟨a, ha, hk⟩ := hany
      simp only [Bool.and_eq_true] at hk
      exact ⟨a, ha, hk.1⟩
    obtain ⟨a, ha, hk, hv⟩ := overwrite_of_any initial _ _ hany2
    obtain ⟨m, hm, ham⟩ := mem_attrsOf a _ ha
    refine ⟨a.Val, ?_, hne m (visitedMarkers_sub htmlNode m hm) a ham hk⟩
    rw [← hmap, hv]

theorem ProcessAttributes_title_established_witness :
    ∃ root attributes,
      ProcessAttributes pageOneMarker emptyMap = GoResult.returned (root, attributes) none
      ∧ (∀ m ∈ markers pageOneMarker, ∀ a ∈ m.attr, a.Key = TitleAttribute → a.Val ≠ "")
      ∧ ∃ v, attributes TitleAttribute = some v ∧ v ≠ "" :=
  ⟨_, _, rfl, by decide,
    ProcessAttributes_title_established pageOneMarker _ emptyMap _ rfl (by decide)⟩

/-- C6: for a tree with exactly one attributes element `E` (the root is none) and every
initial map `M`, `ProcessAttributes` leaves the map `M` overwritten with the pairs of `E`,
unchanged on every other key, whether it returns the missing-title error or not. -/
theorem ProcessAttributes_single_marker (htmlNode E : Node) (M : AttrMap)
    (hroot : isAttributesElement htmlNode = false)
    (h : markers htmlNode = [E]) :
    ∃ root, ProcessAttributes htmlNode M
      = GoResult.returned (root, overwrite M E.attr)
          (if hasTitle E then none else some Error.MissingTitleAttribute) := by
  have hv : visitedMarkers htmlNode = [E] := by
    rw [visitedMarkers_single htmlNode (by simp [h]), h]
  rw [ProcessAttributes_returns htmlNode M hroot, hv]
  simp only [attrsOf, List.append_nil]
  exact ⟨_, rfl⟩

theorem ProcessAttributes_single_marker_witness :
    isAttributesElement pageWithoutTitle = false ∧
    markers pageWithoutTitle = [element "attributes" [⟨"testattr", "testval"⟩] []] ∧
    ∃ root, ProcessAttributes pageWithoutTitle emptyMap
      = GoResult.returned
          (root, overwrite emptyMap (element "attributes" [⟨"testattr", "testval"⟩] []).attr)
          (if hasTitle (element "attributes" [⟨"testattr", "testval"⟩] []) then none
            else some Error.MissingTitleAttribute) :=
  ⟨by decide, by decide,
    ProcessAttributes_single_marker pageWithoutTitle _ emptyMap (by decide) (by decide)⟩

/-- C7 (as stated, refuted): on the body
`<attributes title="T"><attributes k="v"></attributes></attributes>` the map that
`ProcessAttributes` leaves has no key k, while the initial map overwritten by the
attributes of every attributes element of the tree maps k to v. -/
theorem ProcessAttributes_skips_nested_marker :
    ∃ root attributes,
      ProcessAttributes pageNestedMarker emptyMap = GoResult.returned (root, attributes) none
      ∧ attributes "k" = none
      ∧ overwrite emptyMap (attrsOf (markers pageNestedMarker)) "k" = some "v" :=
  ⟨_, _, rfl, by decide, by decide⟩

/-- C7 (amended): for every tree (the root no attributes element) in which, outside
the attributes elements, no attributes element has a later sibling that is an attributes
element or has one below it, after `ProcessAttributes` the attribute map equals the
initial map overwritten by the attributes of every attributes element that does not lie
inside another attributes element, taken in pre-order: for a key carried by several of
them the value of the last one wins. -/
theorem ProcessAttributes_outer_markers (htmlNode : Node) (M : AttrMap)
    (hroot : isAttributesElement htmlNode = false)
    (h : noMarkerBehindMarker htmlNode = true) :
    ∃ root err, ProcessAttributes htmlNode M
      = GoResult.returned (root, overwrite M (attrsOf (outerMarkers htmlNode))) err := by
  rw [ProcessAttributes_returns htmlNode M hroot, visitedMarkers_outer htmlNode h]
  exact ⟨_, _, rfl⟩

theorem ProcessAttributes_outer_markers_witness :
    isAttributesElement pageMarkersWithSiblings = false
    ∧ noMarkerBehindMarker pageMarkersWithSiblings = true
    ∧ attrsOf (outerMarkers pageMarkersWithSiblings)
      = [⟨"title", "A"⟩, ⟨"k", "1"⟩, ⟨"title", "B"⟩]
    ∧ ∃ root err, ProcessAttributes pageMarkersWithSiblings emptyMap
      = GoResult.returned
          (root, overwrite emptyMap (attrsOf (outerMarkers pageMarkersWithSiblings))) err :=
  ⟨by decide, by decide, by decide,
    ProcessAttributes_outer_markers pageMarkersWithSiblings emptyMap (by decide) (by decide)⟩

theorem GoMap.get_update (m : GoMap) (k v k1 : String) :
    ((m.map (fun e => if e.1 == k then (k, v) else e)).find? (fun e => e.1 == k1)).map
        (fun e => e.2)
      = if k1 = k then (if m.any (fun e => e.1 == k) then some v else none)
        else (m.find? (fun e => e.1 == k1)).map (fun e => e.2) := by
  induction m with
  | nil => simp
  | cons e r ih =>
    simp only [List.map, List.find?, List.any]
    by_cases he : (e.1 == k) = true
    · have he1 : e.1 = k := by simpa using he
      simp only [he, if_true, Bool.true_or]
      by_cases hk : (k == k1) = true
      · have hk1 : k1 = k := (by simpa using hk : k = k1).symm
        subst hk1
        simp
      · have hk0 : (k == k1) = false := by simpa using hk
        have hk1 : ¬ k1 = k := fun h => by simp [h] at hk
        have he2 : (e.1 == k1) = false := by rw [he1]; exact hk0
        simp only [hk0, he2, ih, hk1, if_false]
    · have he0 : (e.1 == k) = false := by simpa using he
      simp only [he0, Bool.false_eq_true, if_false, Bool.false_or]
      by_cases hk : (e.1 == k1) = true
      · have hk1 : ¬ k1 = k := fun h => by
          rw [h] at hk; exact he hk
        simp only [hk, hk1, if_false]
      · have hk0 : (e.1 == k1) = false := by simpa using hk
        simp only [hk0, ih]

theorem GoMap.get_set (m : GoMap) (k v k1 : String) :
    (m.set k v).get k1 = if k1 = k then some v else m.get k1 := by
  unfold GoMap.set GoMap.get
  split
  · rename_i hany
    rw [GoMap.get_update, hany]
    simp
  · rename_i hany
    simp only [Bool.not_eq_true, List.any_eq_false, beq_iff_eq] at hany
    rw [List.find?_append]
    by_cases hk : k1 = k
    · subst hk
      have : m.find? (fun e => e.1 == k1) = none := by
        rw [List.find?_eq_none]
        intro x hx
        simpa using hany x hx
      simp [this]
    · have hk2 : ¬ k = k1 := fun h => hk h.symm
      cases h : m.find? (fun e => e.1 == k1) with
      | some x => simp [hk]
      | none => simp [hk, hk2]

theorem templateAttributes_get_fold (attrs : List Attribute) (m : GoMap) (k : String) :
    (attrs.foldl (fun m a => m.set a.Key a.Val) m).get k
      = match attrs.reverse.find? (fun a => a.Key == k) with
        | some a => some a.Val
        | none => m.get k := by
  induction attrs generalizing m with
  | nil => simp
  | cons a r ih =>
    simp only [List.foldl_cons, ih, List.reverse_cons, List.find?_append]
    cases h : r.reverse.find? (fun a => a.Key == k) with
    | some b => simp
    | none =>
      by_cases hk : a.Key = k
      · simp [GoMap.get_set, hk]
      · have hk2 : ¬ k = a.Key := fun h => hk h.symm
        simp [GoMap.get_set, hk, hk2]

theorem templateAttributes_get_none (n : Node) (k : String) :
    (templateAttributes n).get k = none ↔ ∀ a ∈ n.attr, a.Key ≠ k := by
  unfold templateAttributes
  rw [templateAttributes_get_fold]
  cases h : n.attr.reverse.find? (fun a => a.Key == k) with
  | some b =>
    simp only [false_iff, reduceCtorEq]
    intro hall
    have h1 := List.mem_of_find?_eq_some h
    have h2 := List.find?_some h
    exact hall b (by simpa using h1) (by simpa using h2)
  | none =>
    rw [List.find?_eq_none] at h
    simp only [GoMap.get, List.find?_nil, Option.map_none', true_iff]
    intro a ha
    simpa using h a (by simpa using ha)

theorem templatePayload_none_iff (env : TemplateEnv) (n : Node) :
    templatePayload env n = none ↔ TemplateFails env n := by
  unfold templatePayload TemplateFails templateFragment templateContent
  rw [← templateAttributes_get_none]
  cases hfile : (templateAttributes n).get TemplateFileKey with
  | none => simp
  | some file =>
    simp only
    cases hread : env.readFile (env.Templates ++ "/" ++ file) with
    | none => simp [hread]
    | some content =>
      simp only
      cases hparse : env.parse (substitute env (templateAttributes n) content) with
      | none => simp [hread, hparse]
      | some frag =>
        simp only
        cases hbody : GetNodeOfType frag BodyNode with
        | none => simp [hread, hparse, hbody]
        | some body =>
          cases hch : body.children with
          | nil => simp [hread, hparse, hbody, hch]
          | cons P rest => simp [hread, hparse, hbody, hch]

theorem ProcessTemplateNode_of_payload_none (env : TemplateEnv) (doc node : Node) (n : List Nat)
    (hn : doc.get? n = some node) (h : templatePayload env node = none) :
    ∃ e, ProcessTemplateNode env doc n = GoResult.returned doc (some e) := by
  unfold templatePayload templateFragment templateContent at h
  unfold ProcessTemplateNode
  rw [hn]
  simp only
  cases hfile : (templateAttributes node).get TemplateFileKey with
  | none => exact ⟨_, rfl⟩
  | some file =>
    rw [hfile] at h
    simp only at h ⊢
    cases hread : env.readFile (env.Templates ++ "/" ++ file) with
    | none => exact ⟨_, rfl⟩
    | some content =>
      rw [hread] at h
      simp only at h ⊢
      cases hparse : env.parse (substitute env (templateAttributes node) content) with
      | none => exact ⟨_, rfl⟩
      | some frag =>
        rw [hparse] at h
        simp only at h ⊢
        cases hbody : GetNodeOfType frag BodyNode with
        | none => exact ⟨_, rfl⟩
        | some body =>
          rw [hbody] at h
          simp only at h ⊢
          cases hch : body.children with
          | nil => exact ⟨_, rfl⟩
          | cons P rest => simp [hch] at h

theorem ProcessTemplateNode_of_payload_some (env : TemplateEnv) (doc node P : Node) (n : List Nat)
    (hn : doc.get? n = some node) (h : templatePayload env node = some P) :
    ProcessTemplateNode env doc n = placeRenderedTemplate doc n (templateAttributes node) P := by
  unfold templatePayload templateFragment templateContent at h
  unfold ProcessTemplateNode
  rw [hn]
  simp only
  cases hfile : (templateAttributes node).get TemplateFileKey with
  | none => simp [hfile] at h
  | some file =>
    rw [hfile] at h
    simp only at h ⊢
    cases hread : env.readFile (env.Templates ++ "/" ++ file) with
    | none => simp [hread] at h
    | some content =>
      rw [hread] at h
      simp only at h ⊢
      cases hparse : env.parse (substitute env (templateAttributes node) content) with
      | none => simp [hread, hparse] at h
      | some frag =>
        rw [hparse] at h
        simp only at h ⊢
        cases hbody : GetNodeOfType frag BodyNode with
        | none => simp [hbody] at h
        | some body =>
          rw [hbody] at h
          simp only at h ⊢
          cases hch : body.children with
          | nil => simp [hch] at h
          | cons P1 rest =>
            simp only [hch, List.head?_cons, Option.some.injEq] at h
            rw [h]

theorem placeRenderedTemplate_no_error (doc P st : Node) (n : List Nat) (attrs : GoMap)
    (e : Error) : placeRenderedTemplate doc n attrs P ≠ GoResult.returned st (some e) := by
  unfold placeRenderedTemplate insertBeforeThenRemove
  intro h
  repeat' split at h
  all_goals cases h
theorem parentOf_of_ne_nil (n : List Nat) (h : n ≠ []) : ∃ q i, parentOf n = some (q, i) := by
  induction n with
  | nil => exact absurd rfl h
  | cons j r ih =>
    cases r with
    | nil => exact ⟨[], j, rfl⟩
    | cons i p =>
      obtain ⟨q, k, hq⟩ := ih (by simp)
      exact ⟨j :: q, k, by simp [parentOf, hq]⟩

theorem pathAfterInsertFirst_ne_nil (b n : List Nat) (h : n ≠ []) :
    pathAfterInsertFirst b n ≠ [] := by
  cases n with
  | nil => exact absurd rfl h
  | cons i rest =>
    cases b with
    | nil => simp [pathAfterInsertFirst]
    | cons j b1 =>
      simp only [pathAfterInsertFirst]
      split <;> simp

theorem placeRenderedTemplate_of_not_heading (doc P : Node) (n : List Nat) (attrs : GoMap)
    (h : ¬ ∃ heading, attrs.get TemplateHeadingKey = some heading ∧ ParseBool heading = some true) :
    placeRenderedTemplate doc n attrs P = insertBeforeThenRemove doc n P := by
  unfold placeRenderedTemplate
  cases hh : attrs.get TemplateHeadingKey with
  | none => rfl
  | some heading =>
    simp only
    cases hp : ParseBool heading with
    | none => rfl
    | some b =>
      cases b with
      | false => rfl
      | true => exact absurd ⟨heading, hh, hp⟩ h

theorem placeRenderedTemplate_returns (doc P : Node) (n : List Nat) (attrs : GoMap)
    (hn : n ≠ [])
    (hb : (∃ heading, attrs.get TemplateHeadingKey = some heading ∧
        ParseBool heading = some true) → ∃ b, GetNodeOfTypePath doc BodyNode = some b) :
    ∃ st, placeRenderedTemplate doc n attrs P = GoResult.returned st none := by
  by_cases hh : ∃ heading, attrs.get TemplateHeadingKey = some heading ∧
      ParseBool heading = some true
  · obtain ⟨b, hbody⟩ := hb hh
    obtain ⟨heading, h1, h2⟩ := hh
    obtain ⟨q, i, hq⟩ := parentOf_of_ne_nil _ (pathAfterInsertFirst_ne_nil b n hn)
    unfold placeRenderedTemplate
    simp only [h1, h2, hbody, hq]
    exact ⟨_, rfl⟩
  · rw [placeRenderedTemplate_of_not_heading doc P n attrs hh]
    obtain ⟨q, i, hq⟩ := parentOf_of_ne_nil n hn
    unfold insertBeforeThenRemove
    simp only [hq]
    exact ⟨_, rfl⟩

theorem insertIdx_eraseIdx_succ (cs : List Node) (i : Nat) (P c : Node)
    (h : cs[i]? = some c) :
    (cs.insertIdx i P).eraseIdx (i + 1) = cs.set i P := by
  induction cs generalizing i with
  | nil => simp at h
  | cons x xs ih =>
    cases i with
    | zero => simp [List.insertIdx]
    | succ k =>
      simp only [List.getElem?_cons_succ] at h
      simp [List.insertIdx_succ_cons, ih k h]

theorem updateAt_parent_eq_replaceAt (n : List Nat) :
    ∀ (doc node P : Node) (q : List Nat) (i : Nat),
      doc.get? n = some node → parentOf n = some (q, i) →
      doc.updateAt q (fun p =>
          p.setChildren ((p.children.insertIdx i P).eraseIdx (i + 1)))
        = doc.replaceAt n P := by
  induction n with
  | nil => intro doc node P q i _ hp; simp [parentOf] at hp
  | cons j r ih =>
    intro doc node P q i hn hp
    obtain ⟨t, d, a, cs⟩ := doc
    cases r with
    | nil =>
      simp only [parentOf, Option.some.injEq, Prod.mk.injEq] at hp
      obtain ⟨hq, hi⟩ := hp
      subst hq hi
      simp only [Node.get?] at hn
      cases hc : cs[j]? with
      | none => simp [hc] at hn
      | some c =>
        simp only [Node.updateAt, Node.setChildren, Node.children, Node.replaceAt, hc]
        rw [insertIdx_eraseIdx_succ cs j P c hc]
    | cons i1 p =>
      simp only [parentOf] at hp
      cases hq : parentOf (i1 :: p) with
      | none => simp [hq] at hp
      | some qk =>
        obtain ⟨q1, k⟩ := qk
        simp only [hq, Option.some.injEq, Prod.mk.injEq] at hp
        obtain ⟨hq1, hk⟩ := hp
        subst hq1 hk
        simp only [Node.get?] at hn
        cases hc : cs[j]? with
        | none => simp [hc] at hn
        | some c =>
          simp only [hc] at hn
          have := ih c node P q1 k hn hq
          simp only [Node.updateAt, Node.replaceAt, hc]
          rw [List.modify_eq_set_get?, List.get?_eq_getElem?, hc]
          simp [this]

mutual
theorem GetNodeOfTypePath_none_iff (n : Node) (ty : String) :
    GetNodeOfTypePath n ty = none
      ↔ ∀ m ∈ n.subtree, ¬ (m.type = NodeType.ElementNode ∧ m.data = ty) := by
  match n with
  | Node.mk t d a cs =>
    simp only [GetNodeOfTypePath, Node.subtree, List.mem_cons, forall_eq_or_imp, Node.type,
      Node.data]
    by_cases h : t = NodeType.ElementNode ∧ d = ty
    · simp [h]
    · simp only [h, if_false, not_false_eq_true, true_and]
      exact GetNodeOfTypePathChildren_none_iff cs ty 0
theorem GetNodeOfTypePathChildren_none_iff (cs : List Node) (ty : String) (i : Nat) :
    GetNodeOfTypePathChildren cs ty i = none
      ↔ ∀ m ∈ Node.subtreeList cs, ¬ (m.type = NodeType.ElementNode ∧ m.data = ty) := by
  match cs with
  | [] => simp [GetNodeOfTypePathChildren, Node.subtreeList]
  | c :: rest =>
    have h1 := GetNodeOfTypePath_none_iff c ty
    have h2 := GetNodeOfTypePathChildren_none_iff rest ty (i + 1)
    simp only [GetNodeOfTypePathChildren, Node.subtreeList, List.mem_append]
    cases hc : GetNodeOfTypePath c ty with
    | some p =>
      simp only [reduceCtorEq, false_iff]
      intro hall
      rw [hc] at h1
      exact absurd (h1.mpr (fun m hm => hall m (Or.inl hm))) (by simp)
    | none =>
      simp only
      rw [h2]
      constructor
      · intro hr m hm
        cases hm with
        | inl hm => exact (h1.mp hc) m hm
        | inr hm => exact hr m hm
      · intro hall m hm
        exact hall m (Or.inr hm)
end

mutual
theorem GetNodeOfTypePath_spec (n : Node) (ty : String) :
    match GetNodeOfTypePath n ty with
    | none => GetNodeOfType n ty = none
    | some p => ∃ m, n.get? p = some m ∧ GetNodeOfType n ty = some m := by
  match n with
  | Node.mk t d a cs =>
    simp only [GetNodeOfType, GetNodeOfTypePath]
    by_cases h : t = NodeType.ElementNode ∧ d = ty
    · simp [h, Node.get?]
    · simp only [h, if_false]
      have := GetNodeOfTypePathChildren_spec cs [] ty
      simp only [List.length_nil, List.nil_append] at this
      cases hp : GetNodeOfTypePathChildren cs ty 0 with
      | none => simpa [hp] using this
      | some p =>
        rw [hp] at this
        obtain ⟨j, q, m, c, hpq, hc, hm, hg⟩ := this
        subst hpq
        exact ⟨m, by simp [Node.get?, hc, hm], hg⟩
theorem GetNodeOfTypePathChildren_spec (cs pre : List Node) (ty : String) :
    match GetNodeOfTypePathChildren cs ty pre.length with
    | none => GetNodeOfTypeChildren cs ty = none
    | some p => ∃ j q m c, p = j :: q ∧ (pre ++ cs)[j]? = some c ∧ c.get? q = some m ∧
        GetNodeOfTypeChildren cs ty = some m := by
  match cs with
  | [] => simp [GetNodeOfTypeChildren, GetNodeOfTypePathChildren]
  | c :: rest =>
    have h1 := GetNodeOfTypePath_spec c ty
    have h2 := GetNodeOfTypePathChildren_spec rest (pre ++ [c]) ty
    simp only [GetNodeOfTypeChildren, GetNodeOfTypePathChildren]
    cases hc : GetNodeOfTypePath c ty with
    | some p =>
      rw [hc] at h1
      obtain ⟨m, hm, hg⟩ := h1
      have hidx : (pre ++ c :: rest)[pre.length]? = some c := by
        rw [List.getElem?_append_right (Nat.le_refl _)]
        simp
      exact ⟨pre.length, p, m, c, rfl, hidx, hm, by simp [hg]⟩
    | none =>
      rw [hc] at h1
      simp only at h1
      simp only [h1]
      simp only [List.length_append, List.length_singleton, List.append_assoc,
        List.singleton_append] at h2
      exact h2
end

/-- C1: for a body with the children `c :: cs` (at least one), `ProcessBodyNode` returns
no error, the body is left with exactly one child, the container, and the column div
(container > row > column) has exactly the children `c :: cs`, in that order. -/
theorem ProcessBodyNode_moves_children (cfg : BodyConfig) (t : NodeType) (d : String)
    (a : List Attribute) (c : Node) (cs : List Node) :
    ∃ container row col,
      ProcessBodyNode cfg (Node.mk t d a (c :: cs))
        = GoResult.returned (Node.mk t d a [container]) none
      ∧ container.children = [row] ∧ row.children = [col] ∧ col.children = c :: cs :=
  ⟨_, _, _, ProcessBodyNode_eq cfg (Node.mk t d a (c :: cs)), rfl, rfl, rfl⟩

/-- C2: for every body, with any number of children, `ProcessBodyNode` returns no error
and leaves as the only child of the body a div with the configured container class,
whose only child is a div with the configured row class, whose only child is a div with
the configured column class, holding the former children of the body; for a body
without children the column div is empty. -/
theorem ProcessBodyNode_wraps (cfg : BodyConfig) (n : Node) (t : NodeType) (d : String)
    (a : List Attribute) :
    ProcessBodyNode cfg n
        = GoResult.returned
            (n.setChildren
              [Node.mk NodeType.ElementNode "div" [⟨"class", cfg.ContainerClass⟩]
                [Node.mk NodeType.ElementNode "div" [⟨"class", cfg.RowClass⟩]
                  [Node.mk NodeType.ElementNode "div" [⟨"class", cfg.ColClass⟩] n.children]]])
            none
    ∧ ProcessBodyNode cfg (Node.mk t d a [])
        = GoResult.returned
            (Node.mk t d a
              [Node.mk NodeType.ElementNode "div" [⟨"class", cfg.ContainerClass⟩]
                [Node.mk NodeType.ElementNode "div" [⟨"class", cfg.RowClass⟩]
                  [Node.mk NodeType.ElementNode "div" [⟨"class", cfg.ColClass⟩] []]]])
            none :=
  ⟨ProcessBodyNode_eq cfg n, ProcessBodyNode_eq cfg (Node.mk t d a [])⟩

/-- C8 (as stated, refuted): for the template element in the head of a document without
body element, with a readable file, a text that parses and a body with a child in the
parsed text, and with heading="true", `ProcessTemplateNode` does not return: it
panics. -/
theorem ProcessTemplateNode_panics_without_body :
    ProcessTemplateNode alertEnv framesetPage [0, 0, 0] = GoResult.panicked
    ∧ ∃ node, framesetPage.get? [0, 0, 0] = some node ∧ ¬ TemplateFails alertEnv node := by
  refine ⟨rfl, _, rfl, ?_⟩
  rw [← templatePayload_none_iff]
  decide

/-- C8 (amended): for a template element that has a parent, in a tree that has a body
element when the heading value parses as boolean true, `ProcessTemplateNode` returns an
error if and only if the element has no file attribute, or the named file cannot be
read, or the substituted text fails to parse, or the parsed text has no body element or
a body with no child; and it returns no error if and only if none of these holds. -/
theorem ProcessTemplateNode_error_iff (env : TemplateEnv) (doc node : Node) (n : List Nat)
    (hn : doc.get? n = some node) (hparent : n ≠ [])
    (hbody : headingTrue node →
      ∃ b ∈ doc.subtree, b.type = NodeType.ElementNode ∧ b.data = BodyNode) :
    ((∃ st e, ProcessTemplateNode env doc n = GoResult.returned st (some e))
        ↔ TemplateFails env node)
    ∧ ((∃ st, ProcessTemplateNode env doc n = GoResult.returned st none)
        ↔ ¬ TemplateFails env node) := by
  have hbody : headingTrue node → ∃ b, GetNodeOfTypePath doc BodyNode = some b := by
    intro hh
    obtain ⟨b, hb, hel⟩ := hbody hh
    cases hp : GetNodeOfTypePath doc BodyNode with
    | some p => exact ⟨p, rfl⟩
    | none => exact absurd hel ((GetNodeOfTypePath_none_iff doc BodyNode).mp hp b hb)
  rw [← templatePayload_none_iff]
  cases hp : templatePayload env node with
  | none =>
    obtain ⟨e, he⟩ := ProcessTemplateNode_of_payload_none env doc node n hn hp
    refine ⟨⟨fun _ => rfl, fun _ => ⟨_, _, he⟩⟩, ⟨fun h => ?_, fun h => absurd rfl h⟩⟩
    obtain ⟨st, hst⟩ := h
    rw [he] at hst
    cases hst
  | some P =>
    have hplace := ProcessTemplateNode_of_payload_some env doc node P n hn hp
    obtain ⟨st, hst⟩ := placeRenderedTemplate_returns doc P n (templateAttributes node)
      hparent hbody
    refine ⟨⟨fun h => ?_, fun h => by cases h⟩, ⟨fun _ => by simp, fun _ => ⟨st, ?_⟩⟩⟩
    · obtain ⟨st1, e, h1⟩ := h
      rw [hplace, hst] at h1
      cases h1
    · rw [hplace, hst]

theorem ProcessTemplateNode_error_iff_witness :
    ∃ node, pageTemplateNoHeading.get? [0, 1, 1] = some node
    ∧ ((∃ st e, ProcessTemplateNode alertEnv pageTemplateNoHeading [0, 1, 1]
          = GoResult.returned st (some e)) ↔ TemplateFails alertEnv node)
    ∧ ((∃ st, ProcessTemplateNode alertEnv pageTemplateNoHeading [0, 1, 1]
          = GoResult.returned st none) ↔ ¬ TemplateFails alertEnv node) :=
  ⟨_, rfl,
    ProcessTemplateNode_error_iff alertEnv pageTemplateNoHeading _ [0, 1, 1] rfl (by decide)
      (fun _ => by decide)⟩

/-- C9: whenever `ProcessTemplateNode` returns an error, the tree it leaves is the tree
it was given. -/
theorem ProcessTemplateNode_error_keeps_tree (env : TemplateEnv) (doc st : Node)
    (n : List Nat) (e : Error)
    (h : ProcessTemplateNode env doc n = GoResult.returned st (some e)) : st = doc := by
  cases hn : doc.get? n with
  | none =>
    simp [ProcessTemplateNode, hn] at h
  | some node =>
    cases hp : templatePayload env node with
    | none =>
      obtain ⟨e1, he⟩ := ProcessTemplateNode_of_payload_none env doc node n hn hp
      rw [he] at h
      injection h with h1 _
      exact h1.symm
    | some P =>
      rw [ProcessTemplateNode_of_payload_some env doc node P n hn hp] at h
      exact absurd h (placeRenderedTemplate_no_error doc P st n _ e)

theorem ProcessTemplateNode_error_keeps_tree_witness :
    ProcessTemplateNode alertEnv pageTemplateNoFile [0, 1, 1]
      = GoResult.returned pageTemplateNoFile (some Error.MissingTemplateFile)
    ∧ pageTemplateNoFile = pageTemplateNoFile :=
  ⟨rfl, ProcessTemplateNode_error_keeps_tree alertEnv pageTemplateNoFile pageTemplateNoFile
    [0, 1, 1] Error.MissingTemplateFile rfl⟩

/-- C10: for a template element with a parent whose file can be read and whose parsed
text has a body with first child `P`, when the heading attribute is absent or its value
does not parse as boolean true, `ProcessTemplateNode` returns no error and leaves the
tree in which the template element is replaced by `P` at its place; nothing else changes. -/
theorem ProcessTemplateNode_replaces_in_place (env : TemplateEnv) (doc node frag body P : Node)
    (rest : List Node) (n : List Nat)
    (hn : doc.get? n = some node) (hparent : n ≠ [])
    (hfrag : templateFragment env node = some frag)
    (hbody : GetNodeOfType frag BodyNode = some body)
    (hP : body.children = P :: rest)
    (hheading : ∀ heading, (templateAttributes node).get TemplateHeadingKey = some heading →
      ParseBool heading ≠ some true) :
    ProcessTemplateNode env doc n = GoResult.returned (doc.replaceAt n P) none := by
  have hp : templatePayload env node = some P := by
    simp [templatePayload, hfrag, hbody, hP]
  rw [ProcessTemplateNode_of_payload_some env doc node P n hn hp,
    placeRenderedTemplate_of_not_heading doc P n _
      (fun ⟨heading, h1, h2⟩ => hheading heading h1 h2)]
  obtain ⟨q, i, hq⟩ := parentOf_of_ne_nil n hparent
  simp only [insertBeforeThenRemove, hq]
  rw [updateAt_parent_eq_replaceAt n doc node P q i hn hq]

theorem ProcessTemplateNode_replaces_in_place_witness :
    ProcessTemplateNode alertEnv pageTemplateNoHeading [0, 1, 1]
      = GoResult.returned
          (page [element "span" [] [text "Hello"],
            element "div" [⟨"class", "alert alert-primary"⟩] [text "Heads up!"]])
          none :=
  ProcessTemplateNode_replaces_in_place alertEnv pageTemplateNoHeading
    (element "template" [⟨"file", "alert.html"⟩, ⟨"alert-text", "Heads up!"⟩] [])
    (page [element "div" [⟨"class", "alert alert-primary"⟩] [text "Heads up!"]])
    (element "body" [] [element "div" [⟨"class", "alert alert-primary"⟩] [text "Heads up!"]])
    (element "div" [⟨"class", "alert alert-primary"⟩] [text "Heads up!"]) []
    [0, 1, 1] rfl (by decide) (by decide) (by decide) rfl (by decide)

theorem indexFrom_ge (substr : List Char) (cs : List Char) (k : Nat) :
    indexFrom substr k cs = -1 ∨ (k : Int) ≤ indexFrom substr k cs := by
  induction cs generalizing k with
  | nil =>
    simp only [indexFrom]
    split
    · exact Or.inr (Int.le_refl _)
    · exact Or.inl rfl
  | cons c cs ih =>
    simp only [indexFrom]
    split
    · exact Or.inr (Int.le_refl _)
    · cases ih (k + 1) with
      | inl h => exact Or.inl h
      | inr h => exact Or.inr (by push_cast at h; omega)

theorem Index_dot_eq_zero (doc : String) :
    Index doc "." = 0 ↔ doc.data.head? = some '.' := by
  unfold Index
  have hd : (".".data : List Char) = ['.'] := rfl
  rw [hd]
  cases h : doc.data with
  | nil => simp [indexFrom]
  | cons c cs =>
    simp only [indexFrom, List.isPrefixOf, List.head?_cons, Option.some.injEq]
    by_cases hc : c = '.'
    · simp [hc]
    · have hc2 : ('.' == c) = false := by
        simp only [beq_eq_false_iff_ne, ne_eq]
        exact fun h => hc h.symm
      simp only [hc2, Bool.false_and, Bool.false_eq_true, if_false, hc, iff_false]
      cases indexFrom_ge ['.'] cs (0 + 1) with
      | inl h => rw [h]; decide
      | inr h => intro h0; rw [h0] at h; simp at h

theorem directoryItems_eq (cfg : Config) (docs : List String) :
    directoryItems cfg docs
      = (docs.filter (fun doc => decide (doc.data.head? ≠ some '.'))).map (directoryItem cfg) := by
  induction docs with
  | nil => rfl
  | cons doc rest ih =>
    simp only [directoryItems, List.filter_cons, Index_dot_eq_zero]
    by_cases h : doc.data.head? = some '.'
    · simp [h, ih]
    · simp [h, ih]

theorem insertBeforeThenRemove_eq (doc node new : Node) (n : List Nat)
    (hn : doc.get? n = some node) (hparent : n ≠ []) :
    insertBeforeThenRemove doc n new = GoResult.returned (doc.replaceAt n new) none := by
  obtain ⟨q, i, hq⟩ := parentOf_of_ne_nil n hparent
  simp only [insertBeforeThenRemove, hq]
  rw [updateAt_parent_eq_replaceAt n doc node new q i hn hq]

theorem ProcessDirectoryNode_eq (cfg : Config) (docs : List String) (doc node : Node)
    (n : List Nat) (hn : doc.get? n = some node) (hparent : n ≠ []) :
    ProcessDirectoryNode cfg (some docs) doc n
      = GoResult.returned
          (doc.replaceAt n (Node.mk NodeType.ElementNode "ul" [] (directoryItems cfg docs)))
          none := by
  simp only [ProcessDirectoryNode, hn]
  exact insertBeforeThenRemove_eq doc node _ n hn hparent
theorem replaceAt_parent (n : List Nat) :
    ∀ (doc node new : Node) (q : List Nat) (i : Nat),
      doc.get? n = some node → parentOf n = some (q, i) →
      ∃ p, doc.get? q = some p ∧ p.children[i]? = some node ∧
        (doc.replaceAt n new).get? q = some (p.setChildren (p.children.set i new)) := by
  induction n with
  | nil => intro doc node new q i _ hp; simp [parentOf] at hp
  | cons j r ih =>
    intro doc node new q i hn hp
    obtain ⟨t, d, a, cs⟩ := doc
    cases r with
    | nil =>
      simp only [parentOf, Option.some.injEq, Prod.mk.injEq] at hp
      obtain ⟨hq, hi⟩ := hp
      subst hq hi
      simp only [Node.get?] at hn
      cases hc : cs[j]? with
      | none => simp [hc] at hn
      | some c =>
        simp only [hc, Node.get?, Option.some.injEq] at hn
        subst hn
        exact ⟨Node.mk t d a cs, rfl, hc, by simp [Node.replaceAt, hc, Node.get?, Node.setChildren,
          Node.children]⟩
    | cons i1 p =>
      simp only [parentOf] at hp
      cases hq : parentOf (i1 :: p) with
      | none => simp [hq] at hp
      | some qk =>
        obtain ⟨q1, k⟩ := qk
        simp only [hq, Option.some.injEq, Prod.mk.injEq] at hp
        obtain ⟨hq1, hk⟩ := hp
        subst hq1 hk
        simp only [Node.get?] at hn
        cases hc : cs[j]? with
        | none => simp [hc] at hn
        | some c =>
          simp only [hc] at hn
          obtain ⟨p1, hp1, hch, hrep⟩ := ih c node new q1 k hn hq
          refine ⟨p1, by simp [Node.get?, hc, hp1], hch, ?_⟩
          have hlt : j < cs.length := by
            rcases Nat.lt_or_ge j cs.length with h | h
            · exact h
            · rw [List.getElem?_eq_none h] at hc; cases hc
          simp [Node.replaceAt, hc, Node.get?, hlt, hrep]

theorem appendToAttr_none (key val : String) (attr : List Attribute)
    (h : ∀ x ∈ attr, x.Key ≠ key) : appendToAttr key val attr = none := by
  induction attr with
  | nil => rfl
  | cons a rest ih =>
    have ha : a.Key ≠ key := h a (by simp)
    simp [appendToAttr, ha, ih (fun x hx => h x (by simp [hx]))]

theorem appendToAttr_some (key val W : String) (pre post : List Attribute)
    (h : ∀ x ∈ pre, x.Key ≠ key) :
    appendToAttr key val (pre ++ ⟨key, W⟩ :: post)
      = some (pre ++ ⟨key, W ++ " " ++ val⟩ :: post) := by
  induction pre with
  | nil => simp [appendToAttr]
  | cons a rest ih =>
    have ha : a.Key ≠ key := h a (by simp)
    simp [appendToAttr, ha, ih (fun x hx => h x (by simp [hx]))]

theorem ProcessTableNode_eq (w : World) (cfg : Config) (doc node : Node) (n : List Nat)
    (hn : doc.get? n = some node) (hparent : n ≠ []) :
    ProcessTableNode w cfg doc n
      = GoResult.returned
          (doc.replaceAt n (Node.mk NodeType.ElementNode DivNode
            [⟨ClassAttribute, DivTableResponsiveClass⟩] [ProcessNode w cfg node]))
          none := by
  obtain ⟨q, i, hq⟩ := parentOf_of_ne_nil n hparent
  simp only [ProcessTableNode, hn, hq]
  exact insertBeforeThenRemove_eq doc node _ n hn hparent
/-- C13: for every list of sibling names and a directory element with a parent, the ul
that `ProcessDirectoryNode` builds has one li for each name whose first character is
not '.', in the order of the list (nothing sorted, nothing dropped as a duplicate); each
li holds one a element with an href and rel "noopener noreferrer", whose only child is
the text node of the name.  The empty name has no first character and is listed. -/
theorem ProcessDirectoryNode_lists_visible (cfg : Config) (docs : List String)
    (doc node : Node) (n : List Nat) (hn : doc.get? n = some node) (hparent : n ≠ []) :
    ∃ href : String → String,
      ProcessDirectoryNode cfg (some docs) doc n
        = GoResult.returned
            (doc.replaceAt n (Node.mk NodeType.ElementNode "ul" []
              ((docs.filter (fun name => decide (name.data.head? ≠ some '.'))).map
                (fun name =>
                  Node.mk NodeType.ElementNode "li" []
                    [Node.mk NodeType.ElementNode "a"
                      [⟨"href", href name⟩, ⟨"rel", "noopener noreferrer"⟩]
                      [Node.mk NodeType.TextNode name [] []]]))))
            none
      ∧ ProcessDirectoryNode cfg (some [""]) doc n
        = GoResult.returned
            (doc.replaceAt n (Node.mk NodeType.ElementNode "ul" []
              [Node.mk NodeType.ElementNode "li" []
                [Node.mk NodeType.ElementNode "a"
                  [⟨"href", href ""⟩, ⟨"rel", "noopener noreferrer"⟩]
                  [Node.mk NodeType.TextNode "" [] []]]]))
            none := by
  refine ⟨fun name => ContentPrefixURL ++ name ++ cfg.Routing.UrlFileSuffix, ?_, ?_⟩
  · rw [ProcessDirectoryNode_eq cfg docs doc node n hn hparent, directoryItems_eq]
    rfl
  · rw [ProcessDirectoryNode_eq cfg [""] doc node n hn hparent, directoryItems_eq]
    rfl

theorem ProcessDirectoryNode_lists_visible_witness :
    ∃ href : String → String,
      ProcessDirectoryNode defaultConfig (some ["b", ".hidden", "a", "b"]) pageDirectory [0, 1, 0]
        = GoResult.returned
            (pageDirectory.replaceAt [0, 1, 0] (Node.mk NodeType.ElementNode "ul" []
              ((["b", ".hidden", "a", "b"].filter
                  (fun name => decide (name.data.head? ≠ some '.'))).map
                (fun name =>
                  Node.mk NodeType.ElementNode "li" []
                    [Node.mk NodeType.ElementNode "a"
                      [⟨"href", href name⟩, ⟨"rel", "noopener noreferrer"⟩]
                      [Node.mk NodeType.TextNode name [] []]]))))
            none
      ∧ ProcessDirectoryNode defaultConfig (some [""]) pageDirectory [0, 1, 0]
        = GoResult.returned
            (pageDirectory.replaceAt [0, 1, 0] (Node.mk NodeType.ElementNode "ul" []
              [Node.mk NodeType.ElementNode "li" []
                [Node.mk NodeType.ElementNode "a"
                  [⟨"href", href ""⟩, ⟨"rel", "noopener noreferrer"⟩]
                  [Node.mk NodeType.TextNode "" [] []]]]))
            none :=
  ProcessDirectoryNode_lists_visible defaultConfig ["b", ".hidden", "a", "b"] pageDirectory
    (element "directory" [] []) [0, 1, 0] rfl (by decide)

/-- C14: with the content route prefix configured as `/docs/`, the link that
`ProcessDirectoryNode` builds for the sibling `doc1` has the href `/content/doc1.html`:
the prefix is the constant `ContentPrefixURL`, not `Config.Routing.RoutePrefix`. -/
theorem ProcessDirectoryNode_href_ignores_RoutePrefix :
    ProcessDirectoryNode docsConfig (some ["doc1"]) pageDirectory [0, 1, 0]
      = GoResult.returned
          (page [element "ul" []
            [element "li" []
              [element "a" [⟨"href", "/content/doc1.html"⟩, ⟨"rel", "noopener noreferrer"⟩]
                [text "doc1"]]]])
          none
    ∧ docsConfig.Routing.RoutePrefix ++ "doc1" ++ docsConfig.Routing.UrlFileSuffix
        = "/docs/doc1.html" :=
  ⟨by rfl, by decide⟩

/-- C15: `ProcessDirectoryNode` returns an error if and only if the sibling-name list
is nil; when it returns the error the tree is the one it was given; with the empty list
a directory element that has a parent is replaced by an empty ul, without error. -/
theorem ProcessDirectoryNode_error_iff (cfg : Config) (dir : Option (List String))
    (doc : Node) (n : List Nat) :
    ((∃ st e, ProcessDirectoryNode cfg dir doc n = GoResult.returned st (some e)) ↔ dir = none)
    ∧ (∀ st e, ProcessDirectoryNode cfg dir doc n = GoResult.returned st (some e) → st = doc)
    ∧ (∀ node, doc.get? n = some node → n ≠ [] →
        ProcessDirectoryNode cfg (some []) doc n
          = GoResult.returned (doc.replaceAt n (Node.mk NodeType.ElementNode "ul" [] [])) none) := by
  have hnoerr : ∀ docs st e,
      ProcessDirectoryNode cfg (some docs) doc n ≠ GoResult.returned st (some e) := by
    intro docs st e h
    simp only [ProcessDirectoryNode, insertBeforeThenRemove] at h
    repeat' split at h
    all_goals cases h
  refine ⟨⟨?_, ?_⟩, ?_, ?_⟩
  · rintro ⟨st, e, h⟩
    cases dir with
    | none => rfl
    | some docs => exact absurd h (hnoerr docs st e)
  · intro h
    subst h
    exact ⟨doc, Error.DirectoryNotInitialized, rfl⟩
  · intro st e h
    cases dir with
    | none =>
      simp only [ProcessDirectoryNode] at h
      injection h with h1 _
      exact h1.symm
    | some docs => exact absurd h (hnoerr docs st e)
  · intro node hn hparent
    exact ProcessDirectoryNode_eq cfg [] doc node n hn hparent

theorem ProcessDirectoryNode_error_iff_witness :
    ProcessDirectoryNode defaultConfig none pageDirectory [0, 1, 0]
      = GoResult.returned pageDirectory (some Error.DirectoryNotInitialized)
    ∧ ProcessDirectoryNode defaultConfig (some []) pageDirectory [0, 1, 0]
      = GoResult.returned (page [element "ul" [] []]) none :=
  ⟨rfl,
    (ProcessDirectoryNode_error_iff defaultConfig (some []) pageDirectory [0, 1, 0]).2.2
      (element "directory" [] []) rfl (by decide)⟩

/-- C16: for a directory element with a parent, a call of `ProcessDirectoryNode` that
returns no error leaves the tree in which the subtree of the directory element is
replaced by the generated ul: the child sequence of the parent is the old one with the
ul at the place of the directory element, and nothing else changes. -/
theorem ProcessDirectoryNode_replaces_in_place (cfg : Config) (dir : Option (List String))
    (doc node st : Node) (n : List Nat)
    (hn : doc.get? n = some node) (hparent : n ≠ [])
    (hret : ProcessDirectoryNode cfg dir doc n = GoResult.returned st none) :
    ∃ docs ul q i p,
      dir = some docs ∧ ul = Node.mk NodeType.ElementNode "ul" [] (directoryItems cfg docs)
      ∧ st = doc.replaceAt n ul
      ∧ parentOf n = some (q, i) ∧ doc.get? q = some p ∧ p.children[i]? = some node
      ∧ st.get? q = some (p.setChildren (p.children.set i ul)) := by
  cases dir with
  | none => simp [ProcessDirectoryNode] at hret
  | some docs =>
    rw [ProcessDirectoryNode_eq cfg docs doc node n hn hparent] at hret
    injection hret with hst _
    obtain ⟨q, i, hq⟩ := parentOf_of_ne_nil n hparent
    obtain ⟨p, hp, hch, hrep⟩ := replaceAt_parent n doc node
      (Node.mk NodeType.ElementNode "ul" [] (directoryItems cfg docs)) q i hn hq
    exact ⟨docs, _, q, i, p, rfl, rfl, hst.symm, hq, hp, hch, by rw [← hst]; exact hrep⟩

theorem ProcessDirectoryNode_replaces_in_place_witness :
    ∃ docs ul q i p,
      some ["doc1"] = some docs
      ∧ ul = Node.mk NodeType.ElementNode "ul" [] (directoryItems defaultConfig docs)
      ∧ page [element "ul" []
            [element "li" []
              [element "a" [⟨"href", "/content/doc1.html"⟩, ⟨"rel", "noopener noreferrer"⟩]
                [text "doc1"]]]] = pageDirectory.replaceAt [0, 1, 0] ul
      ∧ parentOf [0, 1, 0] = some (q, i) ∧ pageDirectory.get? q = some p
      ∧ p.children[i]? = some (element "directory" [] [])
      ∧ (page [element "ul" []
            [element "li" []
              [element "a" [⟨"href", "/content/doc1.html"⟩, ⟨"rel", "noopener noreferrer"⟩]
                [text "doc1"]]]]).get? q = some (p.setChildren (p.children.set i ul)) :=
  ProcessDirectoryNode_replaces_in_place defaultConfig (some ["doc1"]) pageDirectory
    (element "directory" [] []) _ [0, 1, 0] rfl (by decide) rfl
/-- C17: for a table element with a parent, `ProcessTableNode` returns no error and
leaves the tree in which the subtree of the table is replaced by a new div of class
table-responsive whose only child is the table: the child sequence of the parent is the
old one with the div at the place of the table, the table keeps its children, and
nothing else changes. -/
theorem ProcessTableNode_wraps_in_place (w : World) (cfg : Config) (doc node : Node)
    (n : List Nat) (hn : doc.get? n = some node) (hparent : n ≠ []) :
    ∃ table wrapper q i p,
      table.type = node.type ∧ table.data = node.data ∧ table.children = node.children
      ∧ wrapper = Node.mk NodeType.ElementNode "div" [⟨"class", "table-responsive"⟩] [table]
      ∧ ProcessTableNode w cfg doc n = GoResult.returned (doc.replaceAt n wrapper) none
      ∧ parentOf n = some (q, i) ∧ doc.get? q = some p ∧ p.children[i]? = some node
      ∧ (doc.replaceAt n wrapper).get? q = some (p.setChildren (p.children.set i wrapper)) := by
  obtain ⟨q, i, hq⟩ := parentOf_of_ne_nil n hparent
  obtain ⟨p, hp, hch, hrep⟩ := replaceAt_parent n doc node
    (Node.mk NodeType.ElementNode "div" [⟨"class", "table-responsive"⟩] [ProcessNode w cfg node])
    q i hn hq
  refine ⟨ProcessNode w cfg node, _, q, i, p, ?_, ?_, ?_, rfl,
    ProcessTableNode_eq w cfg doc node n hn hparent, hq, hp, hch, hrep⟩
  · obtain ⟨t, d, a, cs⟩ := node; rfl
  · obtain ⟨t, d, a, cs⟩ := node; rfl
  · obtain ⟨t, d, a, cs⟩ := node; rfl

theorem ProcessTableNode_wraps_in_place_witness :
    ∃ table wrapper q i p,
      table.type = (element "table" [⟨"class", "test-class"⟩] [element "tbody" [] []]).type
      ∧ table.data = (element "table" [⟨"class", "test-class"⟩] [element "tbody" [] []]).data
      ∧ table.children
          = (element "table" [⟨"class", "test-class"⟩] [element "tbody" [] []]).children
      ∧ wrapper = Node.mk NodeType.ElementNode "div" [⟨"class", "table-responsive"⟩] [table]
      ∧ ProcessTableNode plainWorld defaultConfig pageTable [0, 1, 0]
          = GoResult.returned (pageTable.replaceAt [0, 1, 0] wrapper) none
      ∧ parentOf [0, 1, 0] = some (q, i) ∧ pageTable.get? q = some p
      ∧ p.children[i]? = some (element "table" [⟨"class", "test-class"⟩] [element "tbody" [] []])
      ∧ (pageTable.replaceAt [0, 1, 0] wrapper).get? q
          = some (p.setChildren (p.children.set i wrapper)) :=
  ProcessTableNode_wraps_in_place plainWorld defaultConfig pageTable
    (element "table" [⟨"class", "test-class"⟩] [element "tbody" [] []]) [0, 1, 0] rfl (by decide)

/-- When the rule map of tag table holds the one rule class = V, after
`ProcessTableNode` on a table element with a parent the table under the wrapper has the
attributes of before followed by class = V when it had no class attribute, and the
attributes of before with the value W of its (first) class attribute replaced by W, one
space, V when it had one; type, tag and children of the table are as before. -/
theorem ProcessTableNode_class_rule (w : World) (cfg : Config) (doc : Node) (n : List Nat)
    (t : NodeType) (attr : List Attribute) (cs : List Node) (V : String)
    (hn : doc.get? n = some (Node.mk t TableNode attr cs)) (hparent : n ≠ [])
    (hrules : cfg.Rules TableNode = [(ClassAttribute, V)])
    (horder : ∀ m, (w.rangeOrder m).Perm m) :
    ∃ attr1,
      ProcessTableNode w cfg doc n
        = GoResult.returned
            (doc.replaceAt n (Node.mk NodeType.ElementNode "div" [⟨"class", "table-responsive"⟩]
              [Node.mk t TableNode attr1 cs]))
            none
      ∧ ((∀ x ∈ attr, x.Key ≠ "class") → attr1 = attr ++ [⟨"class", V⟩])
      ∧ (∀ pre W post, attr = pre ++ ⟨"class", W⟩ :: post → (∀ x ∈ pre, x.Key ≠ "class") →
          attr1 = pre ++ ⟨"class", W ++ " " ++ V⟩ :: post) := by
  have hvisit : w.rangeOrder (cfg.Rules TableNode) = [(ClassAttribute, V)] := by
    have := horder (cfg.Rules TableNode)
    rw [hrules] at this ⊢
    exact List.perm_singleton.mp this
  refine ⟨applyRules [(ClassAttribute, V)] attr, ?_, ?_, ?_⟩
  · rw [ProcessTableNode_eq w cfg doc _ n hn hparent]
    simp only [ProcessNode, Node.data, Node.attr, Node.setAttr, hvisit]
    rfl
  · intro h
    simp only [applyRules]
    rw [appendToAttr_none ClassAttribute V attr h]
    rfl
  · intro pre W post hattr h
    simp only [applyRules]
    rw [hattr]
    have := appendToAttr_some ClassAttribute V W pre post h
    simp only [ClassAttribute] at this
    simp only [ClassAttribute, this]

theorem ProcessTableNode_class_rule_witness :
    (∃ attr1,
      ProcessTableNode plainWorld defaultConfig pageTable [0, 1, 0]
        = GoResult.returned
            (pageTable.replaceAt [0, 1, 0]
              (Node.mk NodeType.ElementNode "div" [⟨"class", "table-responsive"⟩]
                [Node.mk NodeType.ElementNode TableNode attr1 [element "tbody" [] []]]))
            none
      ∧ ((∀ x ∈ [(⟨"class", "test-class"⟩ : Attribute)], x.Key ≠ "class") →
          attr1 = [⟨"class", "test-class"⟩] ++
            [⟨"class", "table table-bordered table-striped table-hover table-sm"⟩])
      ∧ (∀ pre W post, [(⟨"class", "test-class"⟩ : Attribute)] = pre ++ ⟨"class", W⟩ :: post →
          (∀ x ∈ pre, x.Key ≠ "class") →
          attr1 = pre ++
            ⟨"class", W ++ " " ++ "table table-bordered table-striped table-hover table-sm"⟩
              :: post))
    ∧ ProcessTableNode plainWorld defaultConfig pageTable [0, 1, 0]
        = GoResult.returned
            (page [element "div" [⟨"class", "table-responsive"⟩]
                [element "table"
                  [⟨"class", "test-class table table-bordered table-striped table-hover table-sm"⟩]
                  [element "tbody" [] []]],
              element "p" [] [text "x"]])
            none
    ∧ ProcessTableNode plainWorld defaultConfig pageTableNoClass [0, 1, 0]
        = GoResult.returned
            (page [element "div" [⟨"class", "table-responsive"⟩]
                [element "table"
                  [⟨"id", "t"⟩,
                    ⟨"class", "table table-bordered table-striped table-hover table-sm"⟩]
                  [element "tbody" [] []]]])
            none :=
  ⟨ProcessTableNode_class_rule plainWorld defaultConfig pageTable [0, 1, 0]
      NodeType.ElementNode [⟨"class", "test-class"⟩] [element "tbody" [] []]
      "table table-bordered table-striped table-hover table-sm" rfl (by decide) rfl
      (fun m => List.Perm.refl m),
    rfl, rfl⟩

/-- C18: with the two rules style and class for tag table, `ProcessTableNode` on the
table `<table style="color: red;">` leaves the table without a class attribute when the
range visits style first: `ProcessNode` extends the style value and returns before it
comes to the class rule.  When the range visits class first the class attribute is
added.  Both orders are orders of the same rule map. -/
theorem ProcessTableNode_may_skip_class_rule :
    ProcessTableNode plainWorld tableTwoRulesConfig pageTableStyle [0, 1, 0]
      = GoResult.returned
          (page [element "div" [⟨"class", "table-responsive"⟩]
            [element "table" [⟨"style", "color: red; width: 100%;"⟩]
              [element "tbody" [] []]]])
          none
    ∧ ProcessTableNode reverseWorld tableTwoRulesConfig pageTableStyle [0, 1, 0]
      = GoResult.returned
          (page [element "div" [⟨"class", "table-responsive"⟩]
            [element "table" [⟨"style", "color: red; width: 100%;"⟩, ⟨"class", "table-sm"⟩]
              [element "tbody" [] []]]])
          none
    ∧ tableTwoRulesConfig.Rules TableNode = [("style", "width: 100%;"), ("class", "table-sm")]
    ∧ (plainWorld.rangeOrder (tableTwoRulesConfig.Rules TableNode)).Perm
        (tableTwoRulesConfig.Rules TableNode)
    ∧ (reverseWorld.rangeOrder (tableTwoRulesConfig.Rules TableNode)).Perm
        (tableTwoRulesConfig.Rules TableNode) :=
  ⟨rfl, rfl, rfl, List.Perm.refl _, List.reverse_perm _⟩

/-- C19: `ProcessTableNode` on a node of the tree returns an error if and only if the
node has no parent (it is the root of the tree), and whenever it returns an error the
tree is the one it was given: no wrapper, no rule attribute. -/
theorem ProcessTableNode_error_iff (w : World) (cfg : Config) (doc node : Node) (n : List Nat)
    (hn : doc.get? n = some node) :
    ((∃ st e, ProcessTableNode w cfg doc n = GoResult.returned st (some e)) ↔ n = [])
    ∧ (∀ st e, ProcessTableNode w cfg doc n = GoResult.returned st (some e) →
        st = doc ∧ e = Error.NoParentForTableNode) := by
  by_cases hparent : n = []
  · subst hparent
    have hr : ProcessTableNode w cfg doc []
        = GoResult.returned doc (some Error.NoParentForTableNode) := by
      simp [ProcessTableNode, Node.get?, parentOf]
    refine ⟨⟨fun _ => rfl, fun _ => ⟨_, _, hr⟩⟩, ?_⟩
    intro st e h
    rw [hr] at h
    injection h with h1 h2
    injection h2 with h2
    exact ⟨h1.symm, h2.symm⟩
  · have hr := ProcessTableNode_eq w cfg doc node n hn hparent
    refine ⟨⟨?_, fun h => absurd h hparent⟩, ?_⟩
    · rintro ⟨st, e, h⟩
      rw [hr] at h
      cases h
    · intro st e h
      rw [hr] at h
      cases h

theorem ProcessTableNode_error_iff_witness :
    ((∃ st e, ProcessTableNode plainWorld defaultConfig
          (element "table" [] [element "tbody" [] []]) []
        = GoResult.returned st (some e)) ↔ ([] : List Nat) = [])
    ∧ (∀ st e, ProcessTableNode plainWorld defaultConfig
          (element "table" [] [element "tbody" [] []]) []
        = GoResult.returned st (some e) →
        st = element "table" [] [element "tbody" [] []] ∧ e = Error.NoParentForTableNode) :=
  ProcessTableNode_error_iff plainWorld defaultConfig
    (element "table" [] [element "tbody" [] []]) (element "table" [] [element "tbody" [] []])
    [] rfl

theorem eraseAt_of_parent (m : List Nat) :
    ∀ (t : Node) (q : List Nat) (i : Nat), parentOf m = some (q, i) →
      t.updateAt q (fun p => p.setChildren (p.children.eraseIdx i)) = t.eraseAt m := by
  induction m with
  | nil => intro t q i hp; simp [parentOf] at hp
  | cons j r ih =>
    intro t q i hp
    obtain ⟨ty, d, a, cs⟩ := t
    cases r with
    | nil =>
      simp only [parentOf, Option.some.injEq, Prod.mk.injEq] at hp
      obtain ⟨hq, hi⟩ := hp
      subst hq hi
      simp [Node.updateAt, Node.eraseAt, Node.setChildren, Node.children]
    | cons i1 p =>
      simp only [parentOf] at hp
      cases hq : parentOf (i1 :: p) with
      | none => simp [hq] at hp
      | some qk =>
        obtain ⟨q1, k⟩ := qk
        simp only [hq, Option.some.injEq, Prod.mk.injEq] at hp
        obtain ⟨hq1, hk⟩ := hp
        subst hq1 hk
        simp only [Node.updateAt, Node.eraseAt]
        congr 1
        congr 1
        funext c
        exact ih c q1 k hq

theorem modify_eraseIdx_of_ne (g : Node → Node) (cs : List Node) (i j : Nat) (h : i ≠ j) :
    (cs.modify g j).eraseIdx i = (cs.eraseIdx i).modify g (if i < j then j - 1 else j) := by
  induction cs generalizing i j with
  | nil => simp
  | cons c rest ih =>
    cases i with
    | zero =>
      cases j with
      | zero => exact absurd rfl h
      | succ j1 => simp
    | succ i1 =>
      cases j with
      | zero => simp
      | succ j1 =>
        have h1 : i1 ≠ j1 := fun e => h (by rw [e])
        have := ih i1 j1 h1
        by_cases hlt : i1 < j1
        · have hj : j1 - 1 + 1 = j1 := by omega
          simp only [hlt, if_true] at this
          simp [hlt, this]
          cases j1 with
          | zero => omega
          | succ j2 => simp
        · simp only [hlt, if_false] at this
          simp [hlt, this]

theorem modify_modify_of_ne (f g : Node → Node) (cs : List Node) (i j : Nat) (h : i ≠ j) :
    (cs.modify f j).modify g i = (cs.modify g i).modify f j := by
  induction cs generalizing i j with
  | nil => simp
  | cons c rest ih =>
    cases i with
    | zero =>
      cases j with
      | zero => exact absurd rfl h
      | succ j1 => simp
    | succ i1 =>
      cases j with
      | zero => simp
      | succ j1 =>
        have h1 : i1 ≠ j1 := fun e => h (by rw [e])
        simp [ih i1 j1 h1]

theorem modify_modify_same (f g : Node → Node) (cs : List Node) (j : Nat) :
    (cs.modify f j).modify g j = cs.modify (fun c => g (f c)) j := by
  induction cs generalizing j with
  | nil => simp
  | cons c rest ih =>
    cases j with
    | zero => simp
    | succ j1 => simp [ih j1]
theorem eraseAt_cons_of_ne_nil (t : NodeType) (d : String) (a : List Attribute) (cs : List Node)
    (i : Nat) (m : List Nat) (h : m ≠ []) :
    (Node.mk t d a cs).eraseAt (i :: m) = Node.mk t d a (cs.modify (fun c => c.eraseAt m) i) := by
  cases m with
  | nil => exact absurd rfl h
  | cons j p => rfl

theorem prepend_erase_comm (P : Node) :
    ∀ (b n : List Nat) (doc : Node), ¬ n <+: b →
      (doc.updateAt b (Node.prependChild P)).eraseAt (pathAfterInsertFirst b n)
        = (doc.eraseAt n).updateAt (pathAfterErase n b) (Node.prependChild P) := by
  intro b
  induction b with
  | nil =>
    intro n doc hpre
    obtain ⟨t, d, a, cs⟩ := doc
    cases n with
    | nil => exact absurd (List.prefix_refl _) hpre
    | cons i r =>
      cases r with
      | nil => rfl
      | cons i2 r2 => rfl
  | cons j b1 ih =>
    intro n doc hpre
    obtain ⟨t, d, a, cs⟩ := doc
    cases n with
    | nil => exact absurd (List.nil_prefix) hpre
    | cons i r =>
      cases r with
      | nil =>
        have hij : i ≠ j := by
          intro e
          apply hpre
          rw [e]
          exact List.prefix_iff_eq_take.mpr (by simp)
        simp only [pathAfterInsertFirst, hij, if_false, Node.updateAt, Node.eraseAt,
          pathAfterErase]
        rw [modify_eraseIdx_of_ne _ cs i j hij]
        split <;> rfl
      | cons i2 r2 =>
        by_cases hij : i = j
        · subst hij
          have hpre1 : ¬ (i2 :: r2) <+: b1 := by
            intro h
            apply hpre
            exact List.cons_prefix_cons.mpr ⟨rfl, h⟩
          have hne := pathAfterInsertFirst_ne_nil b1 (i2 :: r2) (by simp)
          simp only [pathAfterInsertFirst, if_true, Node.updateAt, pathAfterErase]
          rw [eraseAt_cons_of_ne_nil _ _ _ _ _ _ hne, modify_modify_same]
          rw [modify_modify_same]
          congr 1
          congr 1
          funext c
          exact ih (i2 :: r2) c hpre1
        · simp only [pathAfterInsertFirst, hij, if_false, Node.updateAt, Node.eraseAt,
            pathAfterErase]
          rw [modify_modify_of_ne _ _ cs i j hij]
theorem GetNodeOfTypePathChildren_eq_firstSome (ty : String) (cs : List Node) (k : Nat) :
    GetNodeOfTypePathChildren cs ty k
      = match firstSome (cs.map (fun c => GetNodeOfTypePath c ty)) with
        | none => none
        | some (j, p) => some ((k + j) :: p) := by
  induction cs generalizing k with
  | nil => rfl
  | cons c rest ih =>
    simp only [GetNodeOfTypePathChildren, List.map_cons]
    cases hc : GetNodeOfTypePath c ty with
    | some p => simp [firstSome]
    | none =>
      simp only [firstSome, ih (k + 1)]
      cases firstSome (rest.map (fun c => GetNodeOfTypePath c ty)) with
      | none => rfl
      | some jp =>
        obtain ⟨j, p⟩ := jp
        simp only [Option.some.injEq, List.cons.injEq, and_true]
        omega

theorem GetNodeOfTypePath_mk (ty : String) (t : NodeType) (d : String) (a : List Attribute)
    (cs : List Node) :
    GetNodeOfTypePath (Node.mk t d a cs) ty
      = if t = NodeType.ElementNode ∧ d = ty then some []
        else match firstSome (cs.map (fun c => GetNodeOfTypePath c ty)) with
          | none => none
          | some (j, p) => some (j :: p) := by
  simp only [GetNodeOfTypePath, GetNodeOfTypePathChildren_eq_firstSome, Nat.zero_add]

theorem firstSome_eraseIdx_none (rs : List (Option (List Nat))) (i : Nat)
    (h : firstSome rs = none) : firstSome (rs.eraseIdx i) = none := by
  induction rs generalizing i with
  | nil => simp [firstSome]
  | cons r rest ih =>
    cases r with
    | some p => simp [firstSome] at h
    | none =>
      simp only [firstSome] at h
      cases hr : firstSome rest with
      | some jp => simp [hr] at h
      | none =>
        cases i with
        | zero => simpa using hr
        | succ i1 => simp [firstSome, ih i1 hr]

theorem firstSome_eraseIdx (rs : List (Option (List Nat))) (i j : Nat) (p : List Nat)
    (h : firstSome rs = some (j, p)) (hij : i ≠ j) :
    firstSome (rs.eraseIdx i) = some (if i < j then j - 1 else j, p) := by
  induction rs generalizing i j with
  | nil => simp [firstSome] at h
  | cons r rest ih =>
    cases r with
    | some p0 =>
      simp only [firstSome, Option.some.injEq, Prod.mk.injEq] at h
      obtain ⟨hj, hp⟩ := h
      subst hj hp
      cases i with
      | zero => exact absurd rfl hij
      | succ i1 => simp [firstSome]
    | none =>
      simp only [firstSome] at h
      cases hr : firstSome rest with
      | none => simp [hr] at h
      | some jp =>
        obtain ⟨j1, p1⟩ := jp
        simp only [hr, Option.some.injEq, Prod.mk.injEq] at h
        obtain ⟨hj, hp⟩ := h
        subst hj hp
        cases i with
        | zero => simp [hr]
        | succ i1 =>
          have hne : i1 ≠ j1 := fun e => hij (by rw [e])
          have := ih i1 j1 hr hne
          simp only [List.eraseIdx_cons_succ, firstSome, this]
          by_cases hlt : i1 < j1
          · have h1 : i1 + 1 < j1 + 1 := by omega
            simp only [hlt, h1, if_true, Option.some.injEq, Prod.mk.injEq, and_true]
            omega
          · have h1 : ¬ i1 + 1 < j1 + 1 := by omega
            simp only [hlt, h1, if_false]

theorem firstSome_set_none (rs : List (Option (List Nat))) (i : Nat) :
    firstSome rs = none → firstSome (rs.set i none) = none := by
  induction rs generalizing i with
  | nil => simp [firstSome]
  | cons r rest ih =>
    intro h
    cases r with
    | some p => simp [firstSome] at h
    | none =>
      simp only [firstSome] at h
      cases hr : firstSome rest with
      | some jp => simp [hr] at h
      | none =>
        cases i with
        | zero => simp [firstSome, hr]
        | succ i1 => simp [firstSome, ih i1 hr]

theorem firstSome_set (rs : List (Option (List Nat))) (i j : Nat) (p : List Nat)
    (r1 : Option (List Nat)) (h : firstSome rs = some (j, p))
    (hr1 : i < j → r1 = none) :
    firstSome (rs.set i r1) = if i = j then (match r1 with
        | none => firstSome (rs.set i none)
        | some p1 => some (j, p1)) else some (j, p) := by
  induction rs generalizing i j with
  | nil => simp [firstSome] at h
  | cons r rest ih =>
    cases r with
    | some p0 =>
      simp only [firstSome, Option.some.injEq, Prod.mk.injEq] at h
      obtain ⟨hj, hp⟩ := h
      subst hj hp
      cases i with
      | zero =>
        cases r1 with
        | none => simp
        | some p1 => simp [firstSome]
      | succ i1 => simp [firstSome]
    | none =>
      simp only [firstSome] at h
      cases hr : firstSome rest with
      | none => simp [hr] at h
      | some jp =>
        obtain ⟨j1, p1⟩ := jp
        simp only [hr, Option.some.injEq, Prod.mk.injEq] at h
        obtain ⟨hj, hp⟩ := h
        subst hj hp
        cases i with
        | zero =>
          have := hr1 (by omega)
          subst this
          simp [firstSome, hr]
        | succ i1 =>
          have := ih i1 j1 hr (fun hlt => hr1 (by omega))
          simp only [List.set_cons_succ, firstSome, this]
          by_cases hij : i1 = j1
          · subst hij
            cases r1 with
            | none => simp [firstSome]
            | some p2 => simp
          · have hij2 : ¬ i1 + 1 = j1 + 1 := by omega
            simp [hij, hij2]

theorem firstSome_before (rs : List (Option (List Nat))) (i j : Nat) (p : List Nat)
    (h : firstSome rs = some (j, p)) (hlt : i < j) : rs[i]? = some none := by
  induction rs generalizing i j with
  | nil => simp [firstSome] at h
  | cons r rest ih =>
    cases r with
    | some p0 =>
      simp only [firstSome, Option.some.injEq, Prod.mk.injEq] at h
      omega
    | none =>
      simp only [firstSome] at h
      cases hr : firstSome rest with
      | none => simp [hr] at h
      | some jp =>
        obtain ⟨j1, p1⟩ := jp
        simp only [hr, Option.some.injEq, Prod.mk.injEq] at h
        obtain ⟨hj, hp⟩ := h
        subst hj hp
        cases i with
        | zero => simp
        | succ i1 => simpa using ih i1 j1 hr (by omega)

theorem firstSome_at (rs : List (Option (List Nat))) (j : Nat) (p : List Nat)
    (h : firstSome rs = some (j, p)) : rs[j]? = some (some p) := by
  induction rs generalizing j with
  | nil => simp [firstSome] at h
  | cons r rest ih =>
    cases r with
    | some p0 =>
      simp only [firstSome, Option.some.injEq, Prod.mk.injEq] at h
      obtain ⟨hj, hp⟩ := h
      subst hj hp
      simp
    | none =>
      simp only [firstSome] at h
      cases hr : firstSome rest with
      | none => simp [hr] at h
      | some jp =>
        obtain ⟨j1, p1⟩ := jp
        simp only [hr, Option.some.injEq, Prod.mk.injEq] at h
        obtain ⟨hj, hp⟩ := h
        subst hj hp
        simpa using ih j1 hr

theorem map_modify_eq_set (G : Node → Option (List Nat)) (h : Node → Node) (cs : List Node)
    (i : Nat) (c : Node) (hc : cs[i]? = some c) :
    (cs.modify h i).map G = (cs.map G).set i (G (h c)) := by
  induction cs generalizing i with
  | nil => simp at hc
  | cons x rest ih =>
    cases i with
    | zero =>
      simp only [List.getElem?_cons_zero, Option.some.injEq] at hc
      subst hc
      simp
    | succ i1 =>
      simp only [List.getElem?_cons_succ] at hc
      simp [ih i1 hc]

theorem modify_of_none (h : Node → Node) (cs : List Node) (i : Nat) (hc : cs[i]? = none) :
    cs.modify h i = cs := by
  induction cs generalizing i with
  | nil => simp
  | cons x rest ih =>
    cases i with
    | zero => simp at hc
    | succ i1 =>
      simp only [List.getElem?_cons_succ] at hc
      simp [ih i1 hc]
theorem map_eraseIdx_eq (G : Node → Option (List Nat)) (cs : List Node) (i : Nat) :
    (cs.eraseIdx i).map G = (cs.map G).eraseIdx i := by
  induction cs generalizing i with
  | nil => simp
  | cons x rest ih =>
    cases i with
    | zero => simp
    | succ i1 => simp [ih i1]

theorem GetNodeOfTypePath_eraseAt (ty : String) :
    ∀ (n : List Nat) (doc : Node),
      (GetNodeOfTypePath doc ty = none → GetNodeOfTypePath (doc.eraseAt n) ty = none) ∧
      (∀ b, GetNodeOfTypePath doc ty = some b → ¬ n <+: b →
        GetNodeOfTypePath (doc.eraseAt n) ty = some (pathAfterErase n b)) := by
  intro n
  induction n with
  | nil =>
    intro doc
    refine ⟨fun h => by simpa [Node.eraseAt] using h, fun b _ hpre => ?_⟩
    exact absurd List.nil_prefix hpre
  | cons i r ih =>
    intro doc
    obtain ⟨t, d, a, cs⟩ := doc
    by_cases hroot : t = NodeType.ElementNode ∧ d = ty
    · -- the root itself is found
      have h0 : GetNodeOfTypePath (Node.mk t d a cs) ty = some [] := by
        simp [GetNodeOfTypePath, hroot]
      have h1 : GetNodeOfTypePath ((Node.mk t d a cs).eraseAt (i :: r)) ty = some [] := by
        cases r with
        | nil => simp [Node.eraseAt, GetNodeOfTypePath, hroot]
        | cons i2 r2 => simp [Node.eraseAt, GetNodeOfTypePath, hroot]
      refine ⟨fun h => (by rw [h0] at h; cases h), fun b hb _ => ?_⟩
      rw [h0] at hb
      injection hb with hb
      subst hb
      rw [h1]
      cases r <;> rfl
    · have hsearch : ∀ cs1 : List Node, GetNodeOfTypePath (Node.mk t d a cs1) ty
          = match firstSome (cs1.map (fun c => GetNodeOfTypePath c ty)) with
            | none => none
            | some (j, p) => some (j :: p) := by
        intro cs1
        rw [GetNodeOfTypePath_mk]
        simp only [hroot, if_false]
      cases r with
      | nil =>
        -- the erased node is a child of the root
        simp only [Node.eraseAt]
        rw [hsearch cs, hsearch (cs.eraseIdx i), map_eraseIdx_eq]
        cases hf : firstSome (cs.map (fun c => GetNodeOfTypePath c ty)) with
        | none =>
          rw [firstSome_eraseIdx_none _ i hf]
          exact ⟨fun _ => rfl, fun b hb => by cases hb⟩
        | some jp =>
          obtain ⟨j, p⟩ := jp
          refine ⟨fun h => (by cases h), fun b hb hpre => ?_⟩
          simp only [Option.some.injEq] at hb
          subst hb
          have hij : i ≠ j := by
            intro e
            apply hpre
            rw [e]
            exact List.prefix_iff_eq_take.mpr (by simp)
          rw [firstSome_eraseIdx _ i j p hf hij]
          simp only [pathAfterErase]
          split <;> rfl
      | cons i2 r2 =>
        -- the erased node lies below the child `i` of the root
        rw [eraseAt_cons_of_ne_nil _ _ _ _ _ _ (by simp), hsearch cs, hsearch]
        cases hci : cs[i]? with
        | none =>
          rw [modify_of_none _ cs i hci]
          cases hf : firstSome (cs.map (fun c => GetNodeOfTypePath c ty)) with
          | none => exact ⟨fun _ => rfl, fun b hb => by cases hb⟩
          | some jp =>
            obtain ⟨j, p⟩ := jp
            refine ⟨fun h => (by cases h), fun b hb hpre => ?_⟩
            simp only [Option.some.injEq] at hb
            subst hb
            have hj := firstSome_at _ j p hf
            have hij : i ≠ j := by
              intro e
              subst e
              simp [hci] at hj
            simp [pathAfterErase, hij]
        | some c =>
          rw [map_modify_eq_set _ _ cs i c hci]
          obtain ⟨ihnone, ihsome⟩ := ih c
          cases hf : firstSome (cs.map (fun c => GetNodeOfTypePath c ty)) with
          | none =>
            refine ⟨fun _ => ?_, fun b hb => by cases hb⟩
            have hcn : GetNodeOfTypePath c ty = none := by
              cases hcc : GetNodeOfTypePath c ty with
              | none => rfl
              | some pc =>
                exfalso
                have : ∀ (rs : List (Option (List Nat))) (k : Nat) (q : List Nat),
                    rs[k]? = some (some q) → firstSome rs ≠ none := by
                  intro rs
                  induction rs with
                  | nil => intro k q h; simp at h
                  | cons x xs ihx =>
                    intro k q h
                    cases x with
                    | some p0 => simp [firstSome]
                    | none =>
                      cases k with
                      | zero => simp at h
                      | succ k1 =>
                        simp only [List.getElem?_cons_succ] at h
                        have := ihx k1 q h
                        simp only [firstSome]
                        cases hx : firstSome xs with
                        | none => exact absurd hx this
                        | some jp => obtain ⟨_, _⟩ := jp; simp
                exact this _ i pc (by simp [hci, hcc]) hf
            rw [ihnone hcn, firstSome_set_none _ i hf]
          | some jp =>
            obtain ⟨j, p⟩ := jp
            refine ⟨fun h => (by cases h), fun b hb hpre => ?_⟩
            simp only [Option.some.injEq] at hb
            subst hb
            by_cases hij : i = j
            · subst hij
              have hpre1 : ¬ (i2 :: r2) <+: p := by
                intro h
                apply hpre
                exact List.cons_prefix_cons.mpr ⟨rfl, h⟩
              have hcp : GetNodeOfTypePath c ty = some p := by
                have := firstSome_at _ i p hf
                simpa [hci] using this
              rw [ihsome p hcp hpre1, firstSome_set _ i i p _ hf (fun h => absurd h (by omega))]
              simp [pathAfterErase]
            · have hres : i < j → GetNodeOfTypePath (c.eraseAt (i2 :: r2)) ty = none := by
                intro hlt
                have := firstSome_before _ i j p hf hlt
                have hcn : GetNodeOfTypePath c ty = none := by simpa [hci] using this
                exact ihnone hcn
              rw [firstSome_set _ i j p _ hf hres]
              simp [pathAfterErase, hij]
theorem get?_append (n r : List Nat) :
    ∀ doc : Node, doc.get? (n ++ r) = (doc.get? n).bind (fun x => x.get? r) := by
  induction n with
  | nil => intro doc; simp [Node.get?]
  | cons i n1 ih =>
    intro doc
    obtain ⟨t, d, a, cs⟩ := doc
    simp only [List.cons_append, Node.get?]
    cases cs[i]? with
    | none => rfl
    | some c => exact ih c

theorem subtree_subset_subtreeList (c : Node) (cs : List Node) (hc : c ∈ cs) (x : Node)
    (hx : x ∈ c.subtree) : x ∈ Node.subtreeList cs := by
  induction cs with
  | nil => simp at hc
  | cons y rest ih =>
    simp only [Node.subtreeList, List.mem_append]
    rcases List.mem_cons.mp hc with h | h
    · subst h; exact Or.inl hx
    · exact Or.inr (ih h)

theorem get?_mem_subtree (p : List Nat) :
    ∀ (doc x : Node), doc.get? p = some x → x ∈ doc.subtree := by
  induction p with
  | nil =>
    intro doc x h
    simp only [Node.get?, Option.some.injEq] at h
    subst h
    exact subtree_self _
  | cons i p1 ih =>
    intro doc x h
    obtain ⟨t, d, a, cs⟩ := doc
    simp only [Node.get?] at h
    cases hc : cs[i]? with
    | none => simp [hc] at h
    | some c =>
      simp only [hc] at h
      simp only [Node.subtree, List.mem_cons]
      exact Or.inr (subtree_subset_subtreeList c cs (List.getElem?_mem hc) x (ih c x h))

theorem GetNodeOfTypePath_found (ty : String) (b : List Nat) :
    ∀ doc : Node, GetNodeOfTypePath doc ty = some b →
      ∃ m, doc.get? b = some m ∧ m.type = NodeType.ElementNode ∧ m.data = ty := by
  induction b with
  | nil =>
    intro doc h
    obtain ⟨t, d, a, cs⟩ := doc
    rw [GetNodeOfTypePath_mk] at h
    by_cases hroot : t = NodeType.ElementNode ∧ d = ty
    · exact ⟨_, rfl, hroot.1, hroot.2⟩
    · simp only [hroot, if_false] at h
      cases hf : firstSome (cs.map (fun c => GetNodeOfTypePath c ty)) with
      | none => simp [hf] at h
      | some jp => obtain ⟨j, p⟩ := jp; simp [hf] at h
  | cons j p ih =>
    intro doc h
    obtain ⟨t, d, a, cs⟩ := doc
    rw [GetNodeOfTypePath_mk] at h
    by_cases hroot : t = NodeType.ElementNode ∧ d = ty
    · simp [hroot] at h
    · simp only [hroot, if_false] at h
      cases hf : firstSome (cs.map (fun c => GetNodeOfTypePath c ty)) with
      | none => simp [hf] at h
      | some jp =>
        obtain ⟨j1, p1⟩ := jp
        simp only [hf, Option.some.injEq, List.cons.injEq] at h
        obtain ⟨hj, hp⟩ := h
        subst hj hp
        have hat := firstSome_at _ j1 p1 hf
        simp only [List.getElem?_map] at hat
        cases hc : cs[j1]? with
        | none => simp [hc] at hat
        | some c =>
          simp only [hc, Option.map_some', Option.some.injEq] at hat
          obtain ⟨m, hm, hty⟩ := ih c hat
          exact ⟨m, by simp [Node.get?, hc, hm], hty⟩

theorem GetNodeOfTypePath_updateAt (ty : String) (f : Node → Node)
    (hf : ∀ x, (f x).type = x.type ∧ (f x).data = x.data) (p : List Nat) :
    ∀ t : Node, GetNodeOfTypePath t ty = some p → GetNodeOfTypePath (t.updateAt p f) ty = some p := by
  induction p with
  | nil =>
    intro t h
    simp only [Node.updateAt]
    obtain ⟨m, hm2, hm3⟩ := GetNodeOfTypePath_found ty [] t h
    simp only [Node.get?, Option.some.injEq] at hm2
    subst hm2
    obtain ⟨h1, h2⟩ := hf t
    rw [hm3.1] at h1
    rw [hm3.2] at h2
    generalize f t = y at h1 h2
    obtain ⟨t1, d1, a1, cs1⟩ := y
    change t1 = NodeType.ElementNode at h1
    change d1 = ty at h2
    simp [GetNodeOfTypePath, h1, h2]
  | cons j q ih =>
    intro t h
    obtain ⟨ty1, d, a, cs⟩ := t
    rw [GetNodeOfTypePath_mk] at h
    by_cases hroot : ty1 = NodeType.ElementNode ∧ d = ty
    · simp [hroot] at h
    · simp only [hroot, if_false] at h
      cases hfs : firstSome (cs.map (fun c => GetNodeOfTypePath c ty)) with
      | none => simp [hfs] at h
      | some jp =>
        obtain ⟨j1, p1⟩ := jp
        simp only [hfs, Option.some.injEq, List.cons.injEq] at h
        obtain ⟨hj, hp⟩ := h
        subst hj hp
        have hat := firstSome_at _ j1 p1 hfs
        simp only [List.getElem?_map] at hat
        cases hc : cs[j1]? with
        | none => simp [hc] at hat
        | some c =>
          simp only [hc, Option.map_some', Option.some.injEq] at hat
          simp only [Node.updateAt]
          rw [GetNodeOfTypePath_mk]
          simp only [hroot, if_false]
          rw [map_modify_eq_set _ _ cs j1 c hc, ih c hat,
            firstSome_set _ j1 j1 p1 _ hfs (fun hlt => absurd hlt (by omega))]
          simp

theorem get?_updateAt_self (f : Node → Node) (p : List Nat) :
    ∀ (t x : Node), t.get? p = some x → (t.updateAt p f).get? p = some (f x) := by
  induction p with
  | nil =>
    intro t x h
    simp only [Node.get?, Option.some.injEq] at h
    subst h
    simp [Node.updateAt, Node.get?]
  | cons i q ih =>
    intro t x h
    obtain ⟨ty, d, a, cs⟩ := t
    simp only [Node.get?] at h
    cases hc : cs[i]? with
    | none => simp [hc] at h
    | some c =>
      simp only [hc] at h
      have hlt : i < cs.length := by
        rcases Nat.lt_or_ge i cs.length with h1 | h1
        · exact h1
        · rw [List.getElem?_eq_none h1] at hc; cases hc
      simp only [Node.updateAt, Node.get?]
      rw [List.modify_eq_set_get?, List.get?_eq_getElem?, hc]
      simp [hlt, ih c x h]
/-- C11: for a tree that has a body element and a template element in it that holds no
body element, whose heading value parses as boolean true and whose file yields the
payload `P`, `ProcessTemplateNode` returns no error and leaves the tree without the
template element in which `P` is put in front of the children of the body: the body
of the result is the body of the tree without the template element, with `P` as first
child and its other children after it in their order. -/
theorem ProcessTemplateNode_heading_first (env : TemplateEnv) (doc node frag body P : Node)
    (rest : List Node) (n : List Nat)
    (hn : doc.get? n = some node)
    (hfrag : templateFragment env node = some frag)
    (hbody : GetNodeOfType frag BodyNode = some body)
    (hP : body.children = P :: rest)
    (hheading : headingTrue node)
    (hdocbody : ∃ m ∈ doc.subtree, m.type = NodeType.ElementNode ∧ m.data = BodyNode)
    (hinside : ∀ m ∈ node.subtree, ¬ (m.type = NodeType.ElementNode ∧ m.data = BodyNode)) :
    ∃ b1 body1 result,
      GetNodeOfTypePath (doc.eraseAt n) BodyNode = some b1
      ∧ (doc.eraseAt n).get? b1 = some body1
      ∧ result = (doc.eraseAt n).updateAt b1 (fun b => b.setChildren (P :: b.children))
      ∧ ProcessTemplateNode env doc n = GoResult.returned result none
      ∧ GetNodeOfType result BodyNode = some (body1.setChildren (P :: body1.children)) := by
  -- the body of the tree, and the template element is not above it
  obtain ⟨b, hb⟩ : ∃ b, GetNodeOfTypePath doc BodyNode = some b := by
    obtain ⟨m, hm, hel⟩ := hdocbody
    cases hp : GetNodeOfTypePath doc BodyNode with
    | some p => exact ⟨p, rfl⟩
    | none => exact absurd hel ((GetNodeOfTypePath_none_iff doc BodyNode).mp hp m hm)
  obtain ⟨m, hm, hmel⟩ := GetNodeOfTypePath_found BodyNode b doc hb
  have hpre : ¬ n <+: b := by
    rintro ⟨r, hr⟩
    rw [← hr, get?_append, hn] at hm
    exact hinside m (get?_mem_subtree r node m hm) hmel
  have hparent : n ≠ [] := fun e => hpre (by rw [e]; exact List.nil_prefix)
  -- the “placement” part of the function
  have hp : templatePayload env node = some P := by
    simp [templatePayload, hfrag, hbody, hP]
  obtain ⟨heading, hh1, hh2⟩ := hheading
  obtain ⟨q, i, hq⟩ := parentOf_of_ne_nil _ (pathAfterInsertFirst_ne_nil b n hparent)
  have hrun : ProcessTemplateNode env doc n
      = GoResult.returned ((doc.eraseAt n).updateAt (pathAfterErase n b) (Node.prependChild P))
          none := by
    rw [ProcessTemplateNode_of_payload_some env doc node P n hn hp]
    simp only [placeRenderedTemplate, hh1, hh2, hb, hq]
    have e1 := eraseAt_of_parent (pathAfterInsertFirst b n)
      (doc.updateAt b (Node.prependChild P)) q i hq
    have e2 := prepend_erase_comm P b n doc hpre
    rw [← e2, ← e1]
    rfl
  -- the body of the tree without the template element
  have hb1 := (GetNodeOfTypePath_eraseAt BodyNode n doc).2 b hb hpre
  obtain ⟨body1, hbody1, _⟩ := GetNodeOfTypePath_found BodyNode _ _ hb1
  refine ⟨pathAfterErase n b, body1, _, hb1, hbody1, rfl, hrun, ?_⟩
  have hsearch := GetNodeOfTypePath_updateAt BodyNode (Node.prependChild P)
    (fun x => by obtain ⟨t, d, a, cs⟩ := x; exact ⟨rfl, rfl⟩) _ _ hb1
  have hspec := GetNodeOfTypePath_spec
    ((doc.eraseAt n).updateAt (pathAfterErase n b) (Node.prependChild P)) BodyNode
  rw [hsearch] at hspec
  obtain ⟨m1, hm1, hg⟩ := hspec
  rw [get?_updateAt_self _ _ _ _ hbody1] at hm1
  injection hm1 with hm1
  rw [← hm1] at hg
  exact hg

theorem ProcessTemplateNode_heading_first_witness :
    ∃ b1 body1 result,
      GetNodeOfTypePath (pageTemplateHeading.eraseAt [0, 1, 1, 0]) BodyNode = some b1
      ∧ (pageTemplateHeading.eraseAt [0, 1, 1, 0]).get? b1 = some body1
      ∧ result = (pageTemplateHeading.eraseAt [0, 1, 1, 0]).updateAt b1
          (fun b => b.setChildren
            (element "div" [⟨"class", "alert alert-primary"⟩] [text "Heads up!"] :: b.children))
      ∧ ProcessTemplateNode alertEnv pageTemplateHeading [0, 1, 1, 0]
          = GoResult.returned result none
      ∧ GetNodeOfType result BodyNode
          = some (body1.setChildren
              (element "div" [⟨"class", "alert alert-primary"⟩] [text "Heads up!"]
                :: body1.children)) :=
  ProcessTemplateNode_heading_first alertEnv pageTemplateHeading
    (element "template"
      [⟨"file", "alert.html"⟩, ⟨"heading", "true"⟩, ⟨"alert-text", "Heads up!"⟩] [])
    (page [element "div" [⟨"class", "alert alert-primary"⟩] [text "Heads up!"]])
    (element "body" [] [element "div" [⟨"class", "alert alert-primary"⟩] [text "Heads up!"]])
    (element "div" [⟨"class", "alert alert-primary"⟩] [text "Heads up!"]) []
    [0, 1, 1, 0] rfl (by decide) (by decide) rfl ⟨"true", by decide, by decide⟩
    (by decide) (by decide)


theorem GoMap.keys_set (m : GoMap) (k v : String) (h : (m.map Prod.fst).Nodup) :
    ((m.set k v).map Prod.fst).Nodup := by
  unfold GoMap.set
  split
  · have : (m.map (fun e => if e.1 == k then (k, v) else e)).map Prod.fst = m.map Prod.fst := by
      rw [List.map_map]
      apply List.map_congr_left
      intro e _
      by_cases he : e.1 = k
      · simp [he]
      · simp [he]
    rw [this]
    exact h
  · rename_i hany
    simp only [Bool.not_eq_true, List.any_eq_false, beq_iff_eq] at hany
    rw [List.map_append, List.nodup_append]
    refine ⟨h, by simp, ?_⟩
    intro x hx hx2
    simp only [List.map_cons, List.map_nil, List.mem_singleton] at hx2
    subst hx2
    obtain ⟨e, he, hek⟩ := List.mem_map.mp hx
    exact hany e he hek

theorem templateAttributes_keys_nodup (attrs : List Attribute) (m : GoMap)
    (h : (m.map Prod.fst).Nodup) :
    ((attrs.foldl (fun m a => m.set a.Key a.Val) m).map Prod.fst).Nodup := by
  induction attrs generalizing m with
  | nil => exact h
  | cons a r ih => exact ih _ (GoMap.keys_set m a.Key a.Val h)

theorem GoMap.mem_iff_get (m : GoMap) (h : (m.map Prod.fst).Nodup) (k v : String) :
    (k, v) ∈ m ↔ m.get k = some v := by
  induction m with
  | nil => simp [GoMap.get]
  | cons e r ih =>
    obtain ⟨k0, v0⟩ := e
    simp only [List.map_cons, List.nodup_cons] at h
    have ih1 := ih h.2
    unfold GoMap.get at ih1 ⊢
    simp only [List.mem_cons, Prod.mk.injEq, List.find?_cons]
    by_cases hk : k0 = k
    · subst hk
      simp only [beq_self_eq_true, Option.map_some', Option.some.injEq, true_and]
      constructor
      · rintro (h1 | h1)
        · exact h1.symm
        · exact absurd (List.mem_map.mpr ⟨(k0, v), h1, rfl⟩) h.1
      · intro h1
        exact Or.inl h1.symm
    · have hk2 : (k0 == k) = false := by simpa using hk
      have hk3 : ¬ k = k0 := fun e => hk e.symm
      simp only [hk2, hk3, false_and, false_or]
      exact ih1

/-- C12 (as stated, refuted): for the template element `<template file="name.html">` and
the file text `<p>{{file}}</p>`, the text that `ProcessTemplateNode` hands to the parser
is `<p>name.html</p>`: the token of the file key is replaced by the file name, and the
payload put into the tree is the one parsed from that text. -/
theorem templateText_replaces_file_token :
    templateContent fileTokenEnv (element "template" [⟨"file", "name.html"⟩] [])
      = some "<p>\x7b\x7bfile\x7d\x7d</p>"
    ∧ templateText fileTokenEnv (element "template" [⟨"file", "name.html"⟩] [])
      = some "<p>name.html</p>"
    ∧ ProcessTemplateNode fileTokenEnv pageTemplateFileToken [0, 1, 0]
      = GoResult.returned (page [element "p" [] [text "name.html"]]) none :=
  ⟨by decide, by decide, by rfl⟩

/-- C12 (amended): the text that `ProcessTemplateNode` parses as the template fragment is
the file text in which, for the attribute keys of the template element one after the
other in the order in which the attribute map is ranged over, the file key included,
every occurrence of the token `{{key}}` is replaced by the value of the key (the last
one, when the element carries the key several times). -/
theorem templateText_substitutes_every_key (env : TemplateEnv) (node : Node) (content : String)
    (hcontent : templateContent env node = some content)
    (horder : ∀ m, (env.rangeOrder m).Perm m) :
    ∃ entries : List (String × String),
      (entries.map Prod.fst).Nodup
      ∧ (∀ k v, (k, v) ∈ entries ↔
          (node.attr.reverse.find? (fun a => a.Key == k)).map (fun a => a.Val) = some v)
      ∧ (∃ file, (TemplateFileKey, file) ∈ entries)
      ∧ templateText env node
          = some (entries.foldl
              (fun text kv => ReplaceAll text ("\x7b\x7b" ++ kv.1 ++ "\x7d\x7d") kv.2) content)
      ∧ templateFragment env node
          = env.parse (entries.foldl
              (fun text kv => ReplaceAll text ("\x7b\x7b" ++ kv.1 ++ "\x7d\x7d") kv.2) content) := by
  have hperm := horder (templateAttributes node)
  have hnodup : ((templateAttributes node).map Prod.fst).Nodup :=
    templateAttributes_keys_nodup node.attr [] (by simp)
  have hmem : ∀ k v, (k, v) ∈ env.rangeOrder (templateAttributes node) ↔
      (node.attr.reverse.find? (fun a => a.Key == k)).map (fun a => a.Val) = some v := by
    intro k v
    rw [hperm.mem_iff, GoMap.mem_iff_get _ hnodup]
    unfold templateAttributes
    rw [templateAttributes_get_fold]
    cases node.attr.reverse.find? (fun a => a.Key == k) with
    | none => simp [GoMap.get]
    | some a => simp
  refine ⟨env.rangeOrder (templateAttributes node), ?_, hmem, ?_, ?_, ?_⟩
  · exact (hperm.map Prod.fst).nodup_iff.mpr hnodup
  · cases hfile : (templateAttributes node).get TemplateFileKey with
    | none => simp [templateContent, hfile] at hcontent
    | some file =>
      exact ⟨file, hperm.mem_iff.mpr ((GoMap.mem_iff_get _ hnodup _ _).mpr hfile)⟩
  · simp [templateText, hcontent, substitute]
  · simp [templateFragment, hcontent, substitute]

theorem templateText_substitutes_every_key_witness :
    ∃ entries : List (String × String),
      (entries.map Prod.fst).Nodup
      ∧ (∀ k v, (k, v) ∈ entries ↔
          ((element "template" [⟨"file", "name.html"⟩] []).attr.reverse.find?
            (fun a => a.Key == k)).map (fun a => a.Val) = some v)
      ∧ (∃ file, (TemplateFileKey, file) ∈ entries)
      ∧ templateText fileTokenEnv (element "template" [⟨"file", "name.html"⟩] [])
          = some (entries.foldl
              (fun text kv => ReplaceAll text ("\x7b\x7b" ++ kv.1 ++ "\x7d\x7d") kv.2)
              "<p>\x7b\x7bfile\x7d\x7d</p>")
      ∧ templateFragment fileTokenEnv (element "template" [⟨"file", "name.html"⟩] [])
          = fileTokenEnv.parse (entries.foldl
              (fun text kv => ReplaceAll text ("\x7b\x7b" ++ kv.1 ++ "\x7d\x7d") kv.2)
              "<p>\x7b\x7bfile\x7d\x7d</p>") :=
  templateText_substitutes_every_key fileTokenEnv
    (element "template" [⟨"file", "name.html"⟩] []) "<p>\x7b\x7bfile\x7d\x7d</p>"
    (by decide) (fun m => List.Perm.refl m)

set_option maxRecDepth 100000 in
/-- C20: on the text of a page whose body holds the title marker and one table,
`ProcessHTMLTree` succeeds and the table of the output is a child of the column div,
without a wrapper div of class table-responsive and without the class rule configured
for tag table: the third call of `ProcessNodesOfType` is made for the directory type
again, and the last walk leaves table elements alone. -/
theorem ProcessHTMLTree_leaves_table_unwrapped :
    renderTree pageTitleAndTable
      = "<html><head></head><body><attributes title=\"T\"></attributes><table><tbody><tr><td></td></tr></tbody></table></body></html>"
    ∧ defaultDocument.Config.Rules TableNode
      = [("class", "table table-bordered table-striped table-hover table-sm")]
    ∧ ∃ attributes,
      ProcessHTMLTree (worldOf [pageTitleAndTable, pageOnlyTable]) defaultDocument 1
          (renderTree pageTitleAndTable)
        = some (GoResult.returned
            ("<html><head><link href=\"/assets/bootstrap.min.css\" rel=\"stylesheet\" crossorigin=\"anonymous\"/><link href=\"/assets/custom.css\" rel=\"stylesheet\" crossorigin=\"anonymous\"/></head><body><div class=\"container\"><div class=\"row\"><div class=\"col-lg-12\"><table><tbody><tr><td></td></tr></tbody></table></div></div></div></body></html>",
              attributes)
            none) :=
  ⟨by decide, by rfl, _, by rfl⟩

mutual
theorem GetNodeOfType_eq_find (n : Node) (ty : String) :
    GetNodeOfType n ty
      = n.subtree.find? (fun m => decide (m.type = NodeType.ElementNode ∧ m.data = ty)) := by
  match n with
  | Node.mk t d a cs =>
    simp only [GetNodeOfType, Node.subtree, List.find?_cons, Node.type, Node.data]
    by_cases h : t = NodeType.ElementNode ∧ d = ty
    · simp [h]
    · simp only [h, if_false, decide_False]
      exact GetNodeOfTypeChildren_eq_find cs ty
theorem GetNodeOfTypeChildren_eq_find (cs : List Node) (ty : String) :
    GetNodeOfTypeChildren cs ty
      = (Node.subtreeList cs).find?
          (fun m => decide (m.type = NodeType.ElementNode ∧ m.data = ty)) := by
  match cs with
  | [] => rfl
  | c :: rest =>
    simp only [GetNodeOfTypeChildren, Node.subtreeList, List.find?_append,
      ← GetNodeOfType_eq_find c ty, ← GetNodeOfTypeChildren_eq_find rest ty]
    cases GetNodeOfType c ty <;> rfl
end

/-- C29: for every tree and tag name, `GetNodeOfType` returns the first node in pre-order
(the root included) that is an element whose tag equals the name, and it returns nil
if and only if the tree has no such element. -/
theorem GetNodeOfType_first_in_preorder (n : Node) (nodeType : String) :
    GetNodeOfType n nodeType
        = n.subtree.find? (fun m => decide (m.type = NodeType.ElementNode ∧ m.data = nodeType))
    ∧ (GetNodeOfType n nodeType = none
        ↔ ∀ m ∈ n.subtree, ¬ (m.type = NodeType.ElementNode ∧ m.data = nodeType)) := by
  refine ⟨GetNodeOfType_eq_find n nodeType, ?_⟩
  rw [GetNodeOfType_eq_find, List.find?_eq_none]
  simp

theorem rangeOrder_nil (w : World) (horder : ∀ m, (w.rangeOrder m).Perm m) :
    w.rangeOrder [] = [] := List.Perm.eq_nil (horder [])

theorem rangeOrder_singleton (w : World) (horder : ∀ m, (w.rangeOrder m).Perm m)
    (e : String × String) : w.rangeOrder [e] = [e] := List.perm_singleton.mp (horder [e])

/-- C22: for a node whose tag has no rule (its rule map is empty), `ProcessNode` leaves
the node as it is: the same attributes with the same values in the same order. -/
theorem ProcessNode_without_rule (w : World) (cfg : Config) (n : Node)
    (horder : ∀ m, (w.rangeOrder m).Perm m) (hrules : cfg.Rules n.data = []) :
    ProcessNode w cfg n = n := by
  obtain ⟨t, d, a, cs⟩ := n
  simp only [Node.data] at hrules
  simp [ProcessNode, Node.data, hrules, rangeOrder_nil w horder, applyRules, Node.setAttr,
    Node.attr]

theorem ProcessNode_without_rule_witness :
    ProcessNode plainWorld defaultConfig (element "p" [⟨"id", "x"⟩, ⟨"class", "y"⟩] [text "z"])
      = element "p" [⟨"id", "x"⟩, ⟨"class", "y"⟩] [text "z"] :=
  ProcessNode_without_rule plainWorld defaultConfig
    (element "p" [⟨"id", "x"⟩, ⟨"class", "y"⟩] [text "z"]) (fun m => List.Perm.refl m) (by decide)

/-- C23: for an element whose tag has exactly one rule (key K, value V): when no attribute
of the element has key K, `ProcessNode` appends the attribute (K, V) after the existing
ones; when the first attribute with key K has the value W, that value becomes W, one
space, V.  Every other attribute keeps its key, value and place. -/
theorem ProcessNode_single_rule (w : World) (cfg : Config) (t : NodeType) (d : String)
    (attr : List Attribute) (cs : List Node) (K V : String)
    (horder : ∀ m, (w.rangeOrder m).Perm m) (hrules : cfg.Rules d = [(K, V)]) :
    ((∀ x ∈ attr, x.Key ≠ K) →
        ProcessNode w cfg (Node.mk t d attr cs) = Node.mk t d (attr ++ [⟨K, V⟩]) cs)
    ∧ (∀ pre W post, attr = pre ++ ⟨K, W⟩ :: post → (∀ x ∈ pre, x.Key ≠ K) →
        ProcessNode w cfg (Node.mk t d attr cs)
          = Node.mk t d (pre ++ ⟨K, W ++ " " ++ V⟩ :: post) cs) := by
  have hrun : ProcessNode w cfg (Node.mk t d attr cs)
      = Node.mk t d (applyRules [(K, V)] attr) cs := by
    simp [ProcessNode, Node.data, hrules, rangeOrder_singleton w horder, Node.setAttr, Node.attr]
  refine ⟨fun h => ?_, fun pre W post hattr h => ?_⟩
  · rw [hrun]
    simp [applyRules, appendToAttr_none K V attr h]
  · rw [hrun, hattr]
    simp [applyRules, appendToAttr_some K V W pre post h]

theorem ProcessNode_single_rule_witness :
    ProcessNode plainWorld defaultConfig (element "img" [⟨"src", "test.jpg"⟩] [])
      = element "img" [⟨"src", "test.jpg"⟩, ⟨"style", "max-width: 100%;"⟩] []
    ∧ ProcessNode plainWorld defaultConfig
        (element "img" [⟨"src", "test.jpg"⟩, ⟨"style", "min-width: 50%;"⟩] [])
      = element "img" [⟨"src", "test.jpg"⟩, ⟨"style", "min-width: 50%; max-width: 100%;"⟩] [] :=
  ⟨(ProcessNode_single_rule plainWorld defaultConfig NodeType.ElementNode "img"
      [⟨"src", "test.jpg"⟩] [] "style" "max-width: 100%;" (fun m => List.Perm.refl m) rfl).1
      (by decide),
    (ProcessNode_single_rule plainWorld defaultConfig NodeType.ElementNode "img"
      [⟨"src", "test.jpg"⟩, ⟨"style", "min-width: 50%;"⟩] [] "style" "max-width: 100%;"
      (fun m => List.Perm.refl m) rfl).2 [⟨"src", "test.jpg"⟩] "min-width: 50%;" [] rfl
      (by decide)⟩

theorem appendLinks_eq (cfg : Config) (imports : List String) (children : List Node) :
    appendLinks cfg imports children = children ++ imports.map (linkNode cfg) := by
  induction imports generalizing children with
  | nil => simp [appendLinks]
  | cons i rest ih => simp [appendLinks, ih]

/-- C25: for every head node and every list of CSS imports, `ProcessHeadNode` returns no
error and leaves as children of the head its former children, in their order, followed
by one link element for each import in the configured order, with exactly the attributes
href = assets prefix followed by the import, rel = stylesheet, crossorigin = anonymous,
in this order. -/
theorem ProcessHeadNode_appends_links (cfg : Config) (n : Node) :
    ProcessHeadNode cfg n
      = GoResult.returned
          (n.setChildren (n.children ++ cfg.CSSImports.map (fun cssImport =>
            Node.mk NodeType.ElementNode "link"
              [⟨"href", cfg.Routing.AssetsPrefix ++ cssImport⟩, ⟨"rel", "stylesheet"⟩,
                ⟨"crossorigin", "anonymous"⟩] [])))
          none := by
  simp only [ProcessHeadNode, appendLinks_eq]
  rfl

/-- C24: an img element that has both a class and a style attribute, under a rule set
with the two keys style and class: in each of the two orders in which the keys can be
visited, `ProcessNode` extends the value of the key visited first and returns, so the
other configured key keeps its old value. -/
theorem ProcessNode_stops_after_first_existing_key :
    ProcessNode plainWorld twoRulesConfig
        (element "img" [⟨"class", "wide"⟩, ⟨"style", "min-width: 50%;"⟩] [])
      = element "img" [⟨"class", "wide"⟩, ⟨"style", "min-width: 50%; max-width: 100%;"⟩] []
    ∧ ProcessNode reverseWorld twoRulesConfig
        (element "img" [⟨"class", "wide"⟩, ⟨"style", "min-width: 50%;"⟩] [])
      = element "img" [⟨"class", "wide img-fluid"⟩, ⟨"style", "min-width: 50%;"⟩] []
    ∧ (plainWorld.rangeOrder (twoRulesConfig.Rules "img")).Perm (twoRulesConfig.Rules "img")
    ∧ (reverseWorld.rangeOrder (twoRulesConfig.Rules "img")).Perm
        (twoRulesConfig.Rules "img") := by
  refine ⟨by decide, by decide, List.Perm.refl _, List.reverse_perm _⟩

/-- C26: for every configuration and head node, `ProcessHeadNode` returns no error and
the title elements among the children of the head are exactly those it had before, in
the same places among themselves: none is added and none is removed.  For a head
without children under the default configuration the result holds the two links only. -/
theorem ProcessHeadNode_adds_no_title :
    (∀ (cfg : Config) (n : Node), ∃ result,
        ProcessHeadNode cfg n = GoResult.returned result none
        ∧ result.children.filter (fun m => decide (m.data = "title"))
            = n.children.filter (fun m => decide (m.data = "title")))
    ∧ ProcessHeadNode defaultConfig (element "head" [] [])
        = GoResult.returned
            (element "head" []
              [element "link" [⟨"href", "/assets/bootstrap.min.css"⟩, ⟨"rel", "stylesheet"⟩,
                  ⟨"crossorigin", "anonymous"⟩] [],
                element "link" [⟨"href", "/assets/custom.css"⟩, ⟨"rel", "stylesheet"⟩,
                  ⟨"crossorigin", "anonymous"⟩] []])
            none
    ∧ ProcessHeadNode defaultConfig (element "head" [] [element "title" [] [text "Test"]])
        = GoResult.returned
            (element "head" []
              [element "title" [] [text "Test"],
                element "link" [⟨"href", "/assets/bootstrap.min.css"⟩, ⟨"rel", "stylesheet"⟩,
                  ⟨"crossorigin", "anonymous"⟩] [],
                element "link" [⟨"href", "/assets/custom.css"⟩, ⟨"rel", "stylesheet"⟩,
                  ⟨"crossorigin", "anonymous"⟩] []])
            none := by
  refine ⟨fun cfg n => ⟨_, rfl, ?_⟩, rfl, rfl⟩
  obtain ⟨t, d, a, cs⟩ := n
  simp [appendLinks_eq, Node.setChildren, Node.children, List.filter_append, linkNode,
    Node.data, LinkNode]

theorem ProcessNodesOfType_error_output (w : World) (document : Document) (fuel : Nat)
    (htmlstr nodeType output : String) (err : Error)
    (h : ProcessNodesOfType w document fuel htmlstr nodeType
      = some (GoResult.returned output (some err))) : output = "" := by
  unfold ProcessNodesOfType at h
  repeat' split at h
  all_goals simp_all

theorem ProcessHTMLTree_error_output (w : World) (document : Document) (fuel : Nat)
    (htmlstr output : String) (attributes : AttrMap) (err : Error)
    (h : ProcessHTMLTree w document fuel htmlstr
      = some (GoResult.returned (output, attributes) (some err))) : output = "" := by
  unfold ProcessHTMLTree at h
  repeat' split at h
  all_goals simp_all

set_option maxRecDepth 100000 in
/-- C27: whenever `ProcessNodesOfType` or `ProcessHTMLTree` returns an error, the string
it returns is empty, for every input, document and bound on the rounds of the loops.
Both return an error on some input: a text that does not parse, and a page whose marker
has no title. -/
theorem error_returns_empty_output :
    (∀ (w : World) (document : Document) (fuel : Nat) (htmlstr nodeType output : String)
        (err : Error),
        ProcessNodesOfType w document fuel htmlstr nodeType
            = some (GoResult.returned output (some err)) → output = "")
    ∧ (∀ (w : World) (document : Document) (fuel : Nat) (htmlstr output : String)
        (attributes : AttrMap) (err : Error),
        ProcessHTMLTree w document fuel htmlstr
            = some (GoResult.returned (output, attributes) (some err)) → output = "")
    ∧ ProcessNodesOfType plainWorld defaultDocument 0 "<p>" DirectoryNode
        = some (GoResult.returned "" (some Error.HTMLParseError))
    ∧ (∃ attributes,
        ProcessHTMLTree (worldOf [pageWithoutTitle]) defaultDocument 0
            (renderTree pageWithoutTitle)
          = some (GoResult.returned ("", attributes) (some Error.MissingTitleAttribute))) :=
  ⟨ProcessNodesOfType_error_output, ProcessHTMLTree_error_output, rfl, ⟨_, rfl⟩⟩

theorem countP_subtreeList_set (P : Node → Bool) (cs : List Node) (i : Nat) (c x : Node)
    (hc : cs[i]? = some c) :
    (Node.subtreeList (cs.set i x)).countP P + c.subtree.countP P
      = (Node.subtreeList cs).countP P + x.subtree.countP P := by
  induction cs generalizing i with
  | nil => simp at hc
  | cons y rest ih =>
    cases i with
    | zero =>
      simp only [List.getElem?_cons_zero, Option.some.injEq] at hc
      subst hc
      simp only [List.set_cons_zero, Node.subtreeList, List.countP_append]
      omega
    | succ i1 =>
      simp only [List.getElem?_cons_succ] at hc
      have := ih i1 hc
      simp only [List.set_cons_succ, Node.subtreeList, List.countP_append]
      omega

theorem countOfType_replaceAt (ty : String) (n : List Nat) :
    ∀ (doc node x : Node), doc.get? n = some node →
      countOfType ty (doc.replaceAt n x) + countOfType ty node
        = countOfType ty doc + countOfType ty x := by
  induction n with
  | nil =>
    intro doc node x h
    simp only [Node.get?, Option.some.injEq] at h
    subst h
    simp only [Node.replaceAt]
    omega
  | cons i p ih =>
    intro doc node x h
    obtain ⟨t, d, a, cs⟩ := doc
    simp only [Node.get?] at h
    cases hc : cs[i]? with
    | none => simp [hc] at h
    | some c =>
      simp only [hc] at h
      have h1 := ih c node x h
      have h2 := countP_subtreeList_set
        (fun m => decide (m.type = NodeType.ElementNode ∧ m.data = ty)) cs i c
        (c.replaceAt p x) hc
      have hP : ∀ cs1 : List Node,
          decide ((Node.mk t d a cs1).type = NodeType.ElementNode ∧ (Node.mk t d a cs1).data = ty)
            = decide (t = NodeType.ElementNode ∧ d = ty) := fun _ => rfl
      simp only [countOfType] at h1 ⊢
      simp only [Node.replaceAt, hc, Node.subtree, List.countP_cons, hP]
      omega

theorem countOfType_eq_zero_iff (ty : String) (doc : Node) :
    countOfType ty doc = 0 ↔ GetNodeOfTypePath doc ty = none := by
  rw [GetNodeOfTypePath_none_iff, countOfType, List.countP_eq_zero]
  simp

theorem countOfType_pos_of_match (ty : String) (m : Node)
    (hm : m.type = NodeType.ElementNode ∧ m.data = ty) : 0 < countOfType ty m := by
  rw [countOfType, List.countP_pos_iff]
  exact ⟨m, subtree_self m, by simpa using hm⟩

theorem GetNodeOfTypePathChildren_directoryItems (cfg : Config) (docs : List String) :
    ∀ i, GetNodeOfTypePathChildren (directoryItems cfg docs) DirectoryNode i = none := by
  induction docs with
  | nil => intro i; rfl
  | cons doc rest ih =>
    intro i
    simp only [directoryItems]
    split
    · exact ih i
    · have hi := ih (i + 1)
      simp only [DirectoryNode] at hi
      simp [GetNodeOfTypePathChildren, directoryItem, GetNodeOfTypePath, hi, DirectoryNode]

theorem countOfType_directory_list (cfg : Config) (docs : List String) :
    countOfType DirectoryNode
      (Node.mk NodeType.ElementNode "ul" [] (directoryItems cfg docs)) = 0 := by
  rw [countOfType_eq_zero_iff]
  simp only [GetNodeOfTypePath, GetNodeOfTypePathChildren_directoryItems]
  simp [DirectoryNode]

theorem replaceAt_root (n : List Nat) (hn : n ≠ []) (doc x : Node) :
    (doc.replaceAt n x).type = doc.type ∧ (doc.replaceAt n x).data = doc.data := by
  obtain ⟨t, d, a, cs⟩ := doc
  cases n with
  | nil => exact absurd rfl hn
  | cons i p =>
    simp only [Node.replaceAt]
    cases cs[i]? <;> exact ⟨rfl, rfl⟩

theorem GetNodeOfTypePath_ne_nil (ty : String) (doc : Node) (n : List Nat)
    (hroot : ¬ (doc.type = NodeType.ElementNode ∧ doc.data = ty))
    (h : GetNodeOfTypePath doc ty = some n) : n ≠ [] := by
  intro hn
  subst hn
  obtain ⟨m, hm, hty⟩ := GetNodeOfTypePath_found ty [] doc h
  simp only [Node.get?, Option.some.injEq] at hm
  subst hm
  exact hroot hty

theorem drainNodesOfType_directory (w : World) (document : Document) (docs : List String)
    (hdir : document.DocumentDirectory = some docs) :
    ∀ (fuel : Nat) (doc : Node),
      ¬ (doc.type = NodeType.ElementNode ∧ doc.data = DirectoryNode) →
      countOfType DirectoryNode doc ≤ fuel →
      ∃ result, drainNodesOfType w document DirectoryNode fuel doc
          = some (GoResult.returned result none)
        ∧ countOfType DirectoryNode result = 0 := by
  intro fuel
  induction fuel with
  | zero =>
    intro doc _ hcount
    have h0 : countOfType DirectoryNode doc = 0 := by omega
    have hnone := (countOfType_eq_zero_iff DirectoryNode doc).mp h0
    exact ⟨doc, by simp [drainNodesOfType, hnone], h0⟩
  | succ fuel ih =>
    intro doc hroot hcount
    cases hfind : GetNodeOfTypePath doc DirectoryNode with
    | none =>
      exact ⟨doc, by simp [drainNodesOfType, hfind],
        (countOfType_eq_zero_iff DirectoryNode doc).mpr hfind⟩
    | some n =>
      have hn := GetNodeOfTypePath_ne_nil DirectoryNode doc n hroot hfind
      obtain ⟨node, hget, hty⟩ := GetNodeOfTypePath_found DirectoryNode n doc hfind
      have hstep : processSpecialNode w document DirectoryNode doc n
          = GoResult.returned (doc.replaceAt n
              (Node.mk NodeType.ElementNode "ul" [] (directoryItems document.Config docs)))
            none := by
        have hne : DirectoryNode ≠ TemplateNode := by decide
        simp only [processSpecialNode, hne, if_false, if_true, hdir]
        exact ProcessDirectoryNode_eq document.Config docs doc node n hget hn
      have hcnt := countOfType_replaceAt DirectoryNode n doc node
        (Node.mk NodeType.ElementNode "ul" [] (directoryItems document.Config docs)) hget
      rw [countOfType_directory_list] at hcnt
      have hpos := countOfType_pos_of_match DirectoryNode node hty
      have hroot1 := replaceAt_root n hn doc
        (Node.mk NodeType.ElementNode "ul" [] (directoryItems document.Config docs))
      obtain ⟨result, hres, hzero⟩ := ih
        (doc.replaceAt n
          (Node.mk NodeType.ElementNode "ul" [] (directoryItems document.Config docs)))
        (by rw [hroot1.1, hroot1.2]; exact hroot) (by omega)
      exact ⟨result, by simp only [drainNodesOfType, hfind, hstep]; exact hres, hzero⟩

/-- C28: for every tree whose root is not itself a directory element and every non-nil
list of sibling names, the directory drain ends without an error within as many rounds
(one call of `ProcessDirectoryNode` each) as the tree has directory elements, and the
tree it leaves has no directory element. -/
theorem directory_drain_terminates (w : World) (document : Document) (docs : List String)
    (doc : Node) (fuel : Nat)
    (hdir : document.DocumentDirectory = some docs)
    (hroot : ¬ (doc.type = NodeType.ElementNode ∧ doc.data = DirectoryNode))
    (hfuel : countOfType DirectoryNode doc ≤ fuel) :
    ∃ result, drainNodesOfType w document DirectoryNode fuel doc
        = some (GoResult.returned result none)
      ∧ ∀ m ∈ result.subtree, ¬ (m.type = NodeType.ElementNode ∧ m.data = DirectoryNode) := by
  obtain ⟨result, hres, hzero⟩ :=
    drainNodesOfType_directory w document docs hdir fuel doc hroot hfuel
  exact ⟨result, hres,
    (GetNodeOfTypePath_none_iff result DirectoryNode).mp
      ((countOfType_eq_zero_iff DirectoryNode result).mp hzero)⟩

theorem directory_drain_terminates_witness :
    ∃ result, drainNodesOfType plainWorld defaultDocument DirectoryNode 3
        (page [element "directory" [] [element "directory" [] []], element "directory" [] []])
        = some (GoResult.returned result none)
      ∧ ∀ m ∈ result.subtree, ¬ (m.type = NodeType.ElementNode ∧ m.data = DirectoryNode) :=
  directory_drain_terminates plainWorld defaultDocument ["test1", "test2"]
    (page [element "directory" [] [element "directory" [] []], element "directory" [] []]) 3
    rfl (by decide) (by decide)

theorem map_set_eq (G : Node → Option (List Nat)) (cs : List Node) (i : Nat) (x : Node) :
    (cs.set i x).map G = (cs.map G).set i (G x) := by
  induction cs generalizing i with
  | nil => rfl
  | cons y rest ih =>
    cases i with
    | zero => rfl
    | succ i1 => simp [ih i1]

theorem GetNodeOfTypePath_replaceAt_found (ty : String) (x : Node) (q : List Nat)
    (hx : GetNodeOfTypePath x ty = some q) (n : List Nat) :
    ∀ doc : Node, GetNodeOfTypePath doc ty = some n →
      GetNodeOfTypePath (doc.replaceAt n x) ty = some (n ++ q) := by
  induction n with
  | nil => intro doc _; simpa [Node.replaceAt] using hx
  | cons j p ih =>
    intro doc h
    obtain ⟨t, d, a, cs⟩ := doc
    rw [GetNodeOfTypePath_mk] at h
    by_cases hroot : t = NodeType.ElementNode ∧ d = ty
    · simp [hroot] at h
    · simp only [hroot, if_false] at h
      cases hf : firstSome (cs.map (fun c => GetNodeOfTypePath c ty)) with
      | none => simp [hf] at h
      | some jp =>
        obtain ⟨j1, p1⟩ := jp
        simp only [hf, Option.some.injEq, List.cons.injEq] at h
        obtain ⟨hj, hp⟩ := h
        subst hj hp
        have hat := firstSome_at _ j1 p1 hf
        simp only [List.getElem?_map] at hat
        cases hc : cs[j1]? with
        | none => simp [hc] at hat
        | some c =>
          simp only [hc, Option.map_some', Option.some.injEq] at hat
          have hrec := ih c hat
          simp only [Node.replaceAt, hc, GetNodeOfTypePath_mk, hroot, if_false, map_set_eq,
            hrec, List.cons_append]
          rw [firstSome_set _ j1 j1 p1 (some (p1 ++ q)) hf (fun hlt => absurd hlt (by omega))]
          simp

theorem GetNodeOfTypePath_of_match (y : Node) (ty : String)
    (h : y.type = NodeType.ElementNode ∧ y.data = ty) : GetNodeOfTypePath y ty = some [] := by
  obtain ⟨t, d, a, cs⟩ := y
  simp only [Node.type, Node.data] at h
  simp [GetNodeOfTypePath, h.1, h.2]

theorem ProcessNode_type_data (w : World) (cfg : Config) (n : Node) :
    (ProcessNode w cfg n).type = n.type ∧ (ProcessNode w cfg n).data = n.data := by
  obtain ⟨t, d, a, cs⟩ := n
  exact ⟨rfl, rfl⟩

theorem drainNodesOfType_table (w : World) (document : Document) :
    ∀ (fuel : Nat) (doc : Node) (n : List Nat),
      GetNodeOfTypePath doc TableNode = some n → n ≠ [] →
      drainNodesOfType w document TableNode fuel doc = none := by
  intro fuel
  induction fuel with
  | zero => intro doc n hfind _; simp [drainNodesOfType, hfind]
  | succ fuel ih =>
    intro doc n hfind hn
    obtain ⟨node, hget, hty⟩ := GetNodeOfTypePath_found TableNode n doc hfind
    have hstep : processSpecialNode w document TableNode doc n
        = GoResult.returned (doc.replaceAt n (Node.mk NodeType.ElementNode DivNode
            [⟨ClassAttribute, DivTableResponsiveClass⟩] [ProcessNode w document.Config node]))
          none := by
      have h1 : TableNode ≠ TemplateNode := by decide
      have h2 : TableNode ≠ DirectoryNode := by decide
      simp only [processSpecialNode, h1, h2, if_false, if_true]
      exact ProcessTableNode_eq w document.Config doc node n hget hn
    have hdiv : GetNodeOfTypePath (Node.mk NodeType.ElementNode DivNode
        [⟨ClassAttribute, DivTableResponsiveClass⟩] [ProcessNode w document.Config node])
        TableNode = some [0] := by
      have hpn := ProcessNode_type_data w document.Config node
      have hroot := GetNodeOfTypePath_of_match (ProcessNode w document.Config node) TableNode
        ⟨hpn.1.trans hty.1, hpn.2.trans hty.2⟩
      have hne : DivNode ≠ TableNode := by decide
      simp [GetNodeOfTypePath, GetNodeOfTypePathChildren, hroot, hne]
    have hnext := GetNodeOfTypePath_replaceAt_found TableNode _ [0] hdiv n doc hfind
    simp only [drainNodesOfType, hfind, hstep]
    exact ih _ (n ++ [0]) hnext (by simp)

set_option maxRecDepth 100000 in
/-- C21: the table drain does not end on a tree in which the first table has a parent:
the handler leaves the table in the tree, as the child of the new div, so the next
search finds the same table again, for every number of rounds.  On the page whose body
holds one table, `ProcessNodesOfType` with the node type table has no result within any
number of rounds, though the page parses and its first search finds the table. -/
theorem table_drain_never_ends :
    (∀ (w : World) (document : Document) (doc : Node) (n : List Nat),
        GetNodeOfTypePath doc TableNode = some n → n ≠ [] →
        ∀ fuel, drainNodesOfType w document TableNode fuel doc = none)
    ∧ (∀ fuel, ProcessNodesOfType (worldOf [pageOnlyTable]) defaultDocument fuel
        (renderTree pageOnlyTable) TableNode = none)
    ∧ (worldOf [pageOnlyTable]).parse (renderTree pageOnlyTable) = some pageOnlyTable
    ∧ GetNodeOfTypePath pageOnlyTable TableNode = some [0, 1, 0] := by
  have hparse : (worldOf [pageOnlyTable]).parse (renderTree pageOnlyTable)
      = some pageOnlyTable := rfl
  refine ⟨fun w document doc n hfind hn fuel =>
      drainNodesOfType_table w document fuel doc n hfind hn, fun fuel => ?_, hparse, rfl⟩
  simp only [ProcessNodesOfType, hparse]
  rw [drainNodesOfType_table (worldOf [pageOnlyTable]) defaultDocument fuel pageOnlyTable
    [0, 1, 0] rfl (by simp)]

theorem rdropWhile_take_initial (p : Char → Bool) (l : List Char) :
    ∀ k, (l.take k).rdropWhile p <+: l.rdropWhile p := by
  induction l using List.reverseRecOn with
  | nil => intro k; simp
  | append_singleton l1 x ih =>
    intro k
    by_cases hk : k ≤ l1.length
    · rw [List.take_append_of_le_length hk]
      by_cases hx : p x = true
      · rw [List.rdropWhile_concat_pos _ _ _ hx]
        exact ih k
      · rw [List.rdropWhile_concat_neg _ _ _ hx]
        exact ((List.rdropWhile_prefix p _).trans (List.take_prefix k l1)).trans
          (List.prefix_append l1 [x])
    · rw [List.take_of_length_le (by simp; omega)]

/-- C30: for every title and every `maxLength` that is not negative,
`GetTitleURLFromString` returns a text of at most `maxLength` characters, which is a
prefix of the slug before truncation with its trailing hyphens removed; that text is
what the function returns when `maxLength` is the length of the slug. -/
theorem GetTitleURLFromString_within_maxLength (title : String) (maxLength : Int)
    (lowerCase : Bool) (hmax : 0 ≤ maxLength) :
    ∃ output, GetTitleURLFromString title maxLength lowerCase = some output
      ∧ (output.length : Int) ≤ maxLength
      ∧ output.data <+: trimTrailingHyphens (slugBeforeTruncation title lowerCase)
      ∧ GetTitleURLFromString title (slugBeforeTruncation title lowerCase).length lowerCase
          = some (String.mk (trimTrailingHyphens (slugBeforeTruncation title lowerCase))) := by
  have hneg : ¬ maxLength < 0 := by omega
  have hrun : GetTitleURLFromString title maxLength lowerCase
      = some (String.mk (trimTrailingHyphens ((slugBeforeTruncation title lowerCase).take
          (min (slugBeforeTruncation title lowerCase).length maxLength.toNat)))) := by
    simp only [GetTitleURLFromString, hneg, if_false]
  refine ⟨_, hrun, ?_, ?_, ?_⟩
  · have h1 := (List.rdropWhile_prefix (fun c => c == '-')
      ((slugBeforeTruncation title lowerCase).take
        (min (slugBeforeTruncation title lowerCase).length maxLength.toNat))).length_le
    simp only [List.length_take] at h1
    simp only [String.length, trimTrailingHyphens]
    omega
  · simp only [trimTrailingHyphens]
    exact rdropWhile_take_initial _ _ _
  · have hn : ¬ ((slugBeforeTruncation title lowerCase).length : Int) < 0 := by omega
    simp only [GetTitleURLFromString, hn, if_false, Int.toNat_ofNat, Nat.min_self,
      List.take_length]

theorem GetTitleURLFromString_within_maxLength_witness :
    ∃ output, GetTitleURLFromString "Wow! This message's getting some _good_ publicity!" 36
          true = some output
      ∧ (output.length : Int) ≤ 36
      ∧ output.data <+: trimTrailingHyphens
          (slugBeforeTruncation "Wow! This message's getting some _good_ publicity!" true)
      ∧ GetTitleURLFromString "Wow! This message's getting some _good_ publicity!"
          (slugBeforeTruncation "Wow! This message's getting some _good_ publicity!"
            true).length true
          = some (String.mk (trimTrailingHyphens
              (slugBeforeTruncation "Wow! This message's getting some _good_ publicity!"
                true))) :=
  GetTitleURLFromString_within_maxLength "Wow! This message's getting some _good_ publicity!"
    36 true (by decide)

theorem toLower_of_isUpper (c : Char) (h : c.isUpper = true) : c.toLower.isLower = true := by
  have hc : Char.ofNat c.toNat = c := Char.ofNat_toNat c
  have h1 : 65 ≤ c.toNat ∧ c.toNat ≤ 90 := by
    simp only [Char.isUpper, Bool.and_eq_true, decide_eq_true_eq] at h
    exact ⟨h.1, h.2⟩
  obtain ⟨hlo, hhi⟩ := h1
  rw [← hc]
  generalize c.toNat = n at hlo hhi
  interval_cases n <;> decide

theorem toLower_of_not_isUpper (c : Char) (h : c.isUpper = false) : c.toLower = c := by
  have h1 : ¬ (c.toNat ≥ 65 ∧ c.toNat ≤ 90) := by
    intro h2
    have : c.isUpper = true := by
      simp only [Char.isUpper, Bool.and_eq_true, decide_eq_true_eq]
      exact ⟨h2.1, h2.2⟩
    rw [h] at this
    cases this
  simp only [Char.toLower, h1, if_false]
theorem mem_collapseHyphens (c : Char) :
    ∀ l : List Char, c ∈ collapseHyphens l → c ∈ l := by
  intro l
  induction l with
  | nil => intro h; simp [collapseHyphens] at h
  | cons x rest ih =>
    intro h
    simp only [collapseHyphens] at h
    split at h
    · exact List.mem_cons_of_mem _ (ih h)
    · rcases List.mem_cons.mp h with h1 | h1
      · exact h1 ▸ List.mem_cons_self _ _
      · exact List.mem_cons_of_mem _ (ih h1)

theorem slug_chars (title : String) (c : Char)
    (h : c ∈ slugBeforeTruncation title true) :
    c.isLower = true ∨ c.isDigit = true ∨ c = '-' ∨ c = '^' := by
  have h1 := mem_collapseHyphens c _ h
  simp only [whitespaceToHyphens, ite_true, List.mem_map, stripSpecial, List.mem_filter,
    exists_exists_and_eq_and] at h1
  obtain ⟨c0, ⟨_, hkept⟩, hc⟩ := h1
  by_cases hw : isWhitespace c0.toLower = true
  · simp only [hw, if_true] at hc
    exact Or.inr (Or.inr (Or.inl hc.symm))
  · simp only [hw] at hc
    subst hc
    cases hup : c0.isUpper with
    | true => exact Or.inl (toLower_of_isUpper c0 hup)
    | false =>
      rw [toLower_of_not_isUpper c0 hup] at hw ⊢
      simp only [isKept, hup, Bool.or_eq_true, beq_iff_eq, Bool.or_false] at hkept
      rcases hkept with ((((hd | hcaret)) | hl) | hh) | hws
      · exact Or.inr (Or.inl hd)
      · exact Or.inr (Or.inr (Or.inr hcaret))
      · exact Or.inl hl
      · exact Or.inr (Or.inr (Or.inl hh))
      · exact absurd hws hw

theorem mem_trim_take (l : List Char) (k : Nat) (c : Char)
    (h : c ∈ trimTrailingHyphens (l.take k)) : c ∈ l :=
  (List.take_prefix k l).subset ((List.rdropWhile_prefix _ _).subset h)

/-- C31: with `lowerCase` true every character of the result of `GetTitleURLFromString`
is a lower-case letter of ASCII, a digit, a hyphen or a caret, and the caret does occur:
the title `a^b` comes back as it is, and `2^10 = 1024` gives `2^10-1024`. -/
theorem GetTitleURLFromString_keeps_caret :
    GetTitleURLFromString "a^b" 36 true = some "a^b"
    ∧ GetTitleURLFromString "2^10 = 1024" 36 true = some "2^10-1024"
    ∧ (∀ (title : String) (maxLength : Int) (output : String),
        GetTitleURLFromString title maxLength true = some output →
        ∀ c ∈ output.data, c.isLower = true ∨ c.isDigit = true ∨ c = '-' ∨ c = '^') := by
  refine ⟨by decide, by decide, fun title maxLength output h c hc => ?_⟩
  simp only [GetTitleURLFromString] at h
  split at h
  · cases h
  · simp only [Option.some.injEq] at h
    subst h
    exact slug_chars title c (mem_trim_take _ _ c hc)

theorem collapseHyphens_head (l : List Char) : (collapseHyphens l).head? = l.head? := by
  induction l with
  | nil => rfl
  | cons x rest ih =>
    simp only [collapseHyphens]
    split
    · rename_i h
      rw [ih, h.2, h.1]
      rfl
    · rfl

theorem collapseHyphens_chain (l : List Char) :
    List.Chain' (fun a b => ¬ (a = '-' ∧ b = '-')) (collapseHyphens l) := by
  induction l with
  | nil => exact List.chain'_nil
  | cons x rest ih =>
    simp only [collapseHyphens]
    split
    · exact ih
    · rename_i h
      rw [List.chain'_cons']
      refine ⟨fun y hy => ?_, ih⟩
      rw [collapseHyphens_head] at hy
      rintro ⟨hx, hy1⟩
      exact h ⟨hx, by rw [← hy1]; simpa using hy⟩

theorem trimTrailingHyphens_getLast (l : List Char) :
    (trimTrailingHyphens l).getLast? ≠ some '-' := by
  intro h
  have hne : trimTrailingHyphens l ≠ [] := by
    intro h0
    rw [h0] at h
    cases h
  have hlast := List.rdropWhile_last_not (fun c => c == '-') l hne
  rw [List.getLast?_eq_getLast _ hne, Option.some.injEq] at h
  simp only [trimTrailingHyphens] at h
  rw [h] at hlast
  exact hlast rfl

/-- C32: for every title and every `maxLength` that is not negative, the result of
`GetTitleURLFromString` does not end with a hyphen and has no two hyphens in a row. -/
theorem GetTitleURLFromString_hyphens (title : String) (maxLength : Int) (lowerCase : Bool)
    (hmax : 0 ≤ maxLength) :
    ∃ output, GetTitleURLFromString title maxLength lowerCase = some output
      ∧ output.data.getLast? ≠ some '-'
      ∧ ¬ (['-', '-'] <:+: output.data) := by
  have hneg : ¬ maxLength < 0 := by omega
  have hrun : GetTitleURLFromString title maxLength lowerCase
      = some (String.mk (trimTrailingHyphens ((slugBeforeTruncation title lowerCase).take
          (min (slugBeforeTruncation title lowerCase).length maxLength.toNat)))) := by
    simp only [GetTitleURLFromString, hneg, if_false]
  refine ⟨_, hrun, trimTrailingHyphens_getLast _, fun hinfix => ?_⟩
  have hchain : List.Chain' (fun a b => ¬ (a = '-' ∧ b = '-'))
      (slugBeforeTruncation title lowerCase) := collapseHyphens_chain _
  have hpre := (List.rdropWhile_prefix (fun c => c == '-')
      ((slugBeforeTruncation title lowerCase).take
        (min (slugBeforeTruncation title lowerCase).length maxLength.toNat))).trans
    (List.take_prefix _ _)
  have h1 := List.Chain'.prefix hchain hpre
  have h2 := List.Chain'.infix h1 hinfix
  simp [List.chain'_cons] at h2

theorem GetTitleURLFromString_hyphens_witness :
    ∃ output, GetTitleURLFromString "a - b -- c" 4 false = some output
      ∧ output.data.getLast? ≠ some '-'
      ∧ ¬ (['-', '-'] <:+: output.data) :=
  GetTitleURLFromString_hyphens "a - b -- c" 4 false (by decide)

/-- C33: `LoadFileDirectory` takes every name that contains `.md` somewhere and cuts
from its end every character that is a dot, an m or a d: `cmd.md` gives `c`, and
`notes.md.bak`, which is no markdown file, is listed as it is. -/
theorem LoadFileDirectory_cuts_too_much :
    LoadFileDirectory
        [⟨"cmd.md", false⟩, ⟨"notes.md.bak", false⟩, ⟨"test1.md", false⟩, ⟨"x.txt", false⟩]
      = ["c", "notes.md.bak", "test1"] := by
  decide

/-- C34: with the root `../tests/walkstep`, `WalkStep` lists the path
`../tests/walkstep/a`, which does not end in `.md`, as `a` (the offset -1 of a missing
`.md` equals the length 2 less 3), and it does not list `../tests/walkstep/notes.md.md`,
which ends in `.md` (the first `.md` is not the last); the entries already in `Files`
always stay in front. -/
theorem WalkStep_compares_first_offset :
    (WalkStep ⟨["t"], "../tests/walkstep"⟩ "../tests/walkstep/a" none).1.Files = ["t", "a"]
    ∧ (WalkStep ⟨["t"], "../tests/walkstep"⟩ "../tests/walkstep/a" none).2 = none
    ∧ (WalkStep ⟨["t"], "../tests/walkstep"⟩ "../tests/walkstep/notes.md.md" none).1.Files
        = ["t"]
    ∧ (WalkStep ⟨["t"], "../tests/walkstep"⟩ "../tests/walkstep/nested1/nestedtest1.md"
        none).1.Files = ["t", "nested1/nestedtest1"]
    ∧ (∀ (dirList : DirectoryListing) (path : String) (err : Option String),
        dirList.Files <+: (WalkStep dirList path err).1.Files) := by
  refine ⟨by decide, by decide, by decide, by decide, fun dirList path err => ?_⟩
  cases err with
  | some e => exact List.prefix_refl _
  | none =>
    simp only [WalkStep]
    split_ifs
    · exact List.prefix_append _ _
    · exact List.prefix_refl _
    · exact List.prefix_refl _

theorem modify_last (documents : List Document) (newDoc : Document)
    (f : Document → Document) :
    (documents ++ [newDoc]).modify f documents.length = documents ++ [f newDoc] := by
  induction documents with
  | nil => rfl
  | cons d rest ih => simp [ih]

theorem ParseDocument_entry (w : World) (toHTML : String → String) (fuel : Nat) (conf : Config)
    (documents : List Document) (documentDirectory : Option (List String))
    (fileName : String) (documents1 : List Document) (finalMarkdown : String)
    (err : Option Error)
    (h : ParseDocument w toHTML fuel conf documents documentDirectory fileName
      = some (GoResult.returned (documents1, finalMarkdown) err)) :
    ∃ entry, documents1 = documents ++ [entry]
      ∧ entry.FileName = fileName
      ∧ entry.FileContents = finalMarkdown
      ∧ (err ≠ none → finalMarkdown = "")
      ∧ ((∃ content, w.readFile
            (conf.Directories.Documents ++ "/" ++ fileName ++ MarkdownFileSuffix) = some content)
          → entry.DocumentName = TrimRight fileName ".md") := by
  have hlen : ∀ d : Document, (documents ++ [d]).length - 1 = documents.length := by
    intro d; simp
  unfold ParseDocument at h
  simp only [hlen, modify_last] at h
  repeat' split at h
  all_goals simp only [Option.some.injEq, GoResult.returned.injEq, Prod.mk.injEq, reduceCtorEq,
    false_and, and_false] at h
  all_goals obtain ⟨⟨h1, h2⟩, h3⟩ := h
  all_goals subst h1 h2 h3
  all_goals exact ⟨_, rfl, rfl, rfl, by simp_all, by simp_all⟩

set_option maxRecDepth 100000 in
/-- C37: `ParseDocument` stores as `DocumentName` the file name without every character
at its end that is a dot, an m or a d (`strings.TrimRight` with the cutset `.md`), not
the file name without the suffix `.md`: for the file name `word`, which `WalkStep` lists
for the file `word.md`, the call succeeds and the entry has the `DocumentName` `wor`. -/
theorem ParseDocument_cuts_DocumentName :
    (∀ (w : World) (toHTML : String → String) (fuel : Nat) (conf : Config)
        (documents : List Document) (documentDirectory : Option (List String))
        (fileName content : String) (documents1 : List Document) (finalMarkdown : String)
        (err : Option Error),
        w.readFile (conf.Directories.Documents ++ "/" ++ fileName ++ MarkdownFileSuffix)
            = some content →
        ParseDocument w toHTML fuel conf documents documentDirectory fileName
            = some (GoResult.returned (documents1, finalMarkdown) err) →
        ∃ entry, documents1 = documents ++ [entry]
          ∧ entry.DocumentName = TrimRight fileName ".md")
    ∧ TrimRight "word" ".md" = "wor"
    ∧ (WalkStep ⟨[], "./src/content"⟩ "./src/content/word.md" none).1.Files = ["word"]
    ∧ (∃ entry finalMarkdown,
        ParseDocument (wordWorld [pageTitleAndTable, pageOnlyTable])
            (fun _ => renderTree pageTitleAndTable) 1 defaultConfig [] (some ["word"]) "word"
          = some (GoResult.returned ([entry], finalMarkdown) none)
        ∧ entry.FileName = "word" ∧ entry.DocumentName = "wor") := by
  refine ⟨fun w toHTML fuel conf documents documentDirectory fileName content documents1
      finalMarkdown err hread h => ?_, by decide, by decide, ⟨_, _, rfl, rfl, by decide⟩⟩
  obtain ⟨entry, h1, _, _, _, h5⟩ :=
    ParseDocument_entry w toHTML fuel conf documents documentDirectory fileName documents1
      finalMarkdown err h
  exact ⟨entry, h1, h5 ⟨content, hread⟩⟩

theorem ProcessNode_setChildren (w : World) (cfg : Config) (n : Node) (ks : List Node) :
    (ProcessNode w cfg n).setChildren ks = ProcessNode w cfg (n.setChildren ks) := by
  obtain ⟨t, d, a, cs⟩ := n
  rfl

theorem ProcessNode_children (w : World) (cfg : Config) (n : Node) :
    (ProcessNode w cfg n).children = n.children := by
  obtain ⟨t, d, a, cs⟩ := n
  rfl

theorem walkTree_step (w : World) (cfg : Config) (fuel : Nat) (n n1 : Node)
    (e e2 : Option Error) (ks : List Node)
    (h1 : processElement w cfg n = GoResult.returned n1 e)
    (h2 : walkList (walkTree w cfg fuel) n1.children = some (GoResult.returned ks e2)) :
    walkTree w cfg (fuel + 1) n = some (GoResult.returned (n1.setChildren ks) none) := by
  simp only [walkTree, h1, h2]

theorem processElement_plain (w : World) (cfg : Config) (t : NodeType) (d : String)
    (a : List Attribute) (cs : List Node)
    (hd : ¬ (t = NodeType.ElementNode ∧ (d = BodyNode ∨ d = HeadNode))) :
    processElement w cfg (Node.mk t d a cs)
      = GoResult.returned
          (if t = NodeType.ElementNode ∧ d ≠ TableNode then ProcessNode w cfg (Node.mk t d a cs)
            else Node.mk t d a cs) none := by
  have h1 : (Node.mk t d a cs).type = t := rfl
  have h2 : (Node.mk t d a cs).data = d := rfl
  simp only [processElement, h1, h2]
  by_cases ht : t = NodeType.ElementNode
  · have hb : d ≠ BodyNode := fun h => hd ⟨ht, Or.inl h⟩
    have hh : d ≠ HeadNode := fun h => hd ⟨ht, Or.inr h⟩
    rw [if_pos ht, if_neg hb, if_neg hh]
    by_cases htab : d = TableNode
    · rw [if_neg (not_not.mpr htab), if_neg (fun h => h.2 htab)]
    · rw [if_pos htab, if_pos ⟨ht, htab⟩]
  · rw [if_neg ht, if_neg (fun h => ht h.1)]

theorem walkTree_plain (w : World) (cfg : Config) (fuel : Nat) (t : NodeType) (d : String)
    (a : List Attribute) (cs ks : List Node)
    (hd : ¬ (t = NodeType.ElementNode ∧ (d = BodyNode ∨ d = HeadNode)))
    (hks : walkList (walkTree w cfg fuel) cs = some (GoResult.returned ks none)) :
    walkTree w cfg (fuel + 1) (Node.mk t d a cs)
      = some (GoResult.returned
          (if t = NodeType.ElementNode ∧ d ≠ TableNode then ProcessNode w cfg (Node.mk t d a ks)
            else Node.mk t d a ks) none) := by
  have hp := processElement_plain w cfg t d a cs hd
  by_cases hc : t = NodeType.ElementNode ∧ d ≠ TableNode
  · rw [if_pos hc] at hp ⊢
    rw [walkTree_step w cfg fuel _ _ none none ks hp
      (by rw [ProcessNode_children]; exact hks), ProcessNode_setChildren]
    rfl
  · rw [if_neg hc] at hp ⊢
    rw [walkTree_step w cfg fuel _ _ none none ks hp hks]
    rfl

theorem walkList_append (g : Node → Option (GoResult Node)) (xs ys xs1 ys1 : List Node)
    (hx : walkList g xs = some (GoResult.returned xs1 none))
    (hy : walkList g ys = some (GoResult.returned ys1 none)) :
    walkList g (xs ++ ys) = some (GoResult.returned (xs1 ++ ys1) none) := by
  induction xs generalizing xs1 with
  | nil =>
    simp only [walkList, Option.some.injEq, GoResult.returned.injEq, and_true] at hx
    subst hx
    simpa using hy
  | cons x rest ih =>
    simp only [List.cons_append, walkList] at hx ⊢
    cases hg : g x with
    | none => simp [hg] at hx
    | some r =>
      cases r with
      | panicked => simp [hg] at hx
      | returned c1 e =>
        simp only [hg] at hx ⊢
        cases hr : walkList g rest with
        | none => simp [hr] at hx
        | some r2 =>
          cases r2 with
          | panicked => simp [hr] at hx
          | returned rest1 e2 =>
            simp only [hr, Option.some.injEq, GoResult.returned.injEq, and_true] at hx
            subst hx
            have hrest : walkList g rest = some (GoResult.returned rest1 none) := by
              rw [hr]
              cases rest with
              | nil =>
                simp only [walkList, Option.some.injEq, GoResult.returned.injEq] at hr
                rw [← hr.2]
              | cons y r3 =>
                simp only [walkList] at hr
                repeat' split at hr
                all_goals simp_all
            have h3 : walkList g (rest.append ys)
                = some (GoResult.returned (rest1 ++ ys1) none) := ih rest1 hrest
            rw [h3]
            rfl

theorem walkTree_div (w : World) (cfg : Config) (fuel : Nat) (cls : String)
    (cs ks : List Node)
    (hks : walkList (walkTree w cfg fuel) cs = some (GoResult.returned ks none)) :
    walkTree w cfg (fuel + 1) (divWithClass cls cs)
      = some (GoResult.returned (ProcessNode w cfg (divWithClass cls ks)) none) := by
  have h := walkTree_plain w cfg fuel NodeType.ElementNode DivNode [⟨ClassAttribute, cls⟩]
    cs ks (by decide) hks
  rw [if_pos (by decide)] at h
  exact h

theorem walkList_single (g : Node → Option (GoResult Node)) (c c1 : Node)
    (h : g c = some (GoResult.returned c1 none)) :
    walkList g [c] = some (GoResult.returned [c1] none) := by
  simp only [walkList, h]

theorem walkList_links (w : World) (cfg : Config) (fuel : Nat) (imports : List String) :
    walkList (walkTree w cfg (fuel + 1)) (imports.map (linkNode cfg))
      = some (GoResult.returned
          (imports.map (fun cssImport => ProcessNode w cfg (linkNode cfg cssImport))) none) := by
  induction imports with
  | nil => rfl
  | cons i rest ih =>
    have h := walkTree_plain w cfg fuel NodeType.ElementNode LinkNode
      [⟨HrefAttribute, cfg.Routing.AssetsPrefix ++ i⟩, ⟨RelAttribute, StylesheetVal⟩,
        ⟨CrossOriginAttribute, AnonymousVal⟩] [] [] (by decide) rfl
    rw [if_pos (by decide)] at h
    have h1 : walkTree w cfg (fuel + 1) (linkNode cfg i)
        = some (GoResult.returned (ProcessNode w cfg (linkNode cfg i)) none) := h
    simp only [List.map_cons, walkList, h1, ih]

mutual
theorem walkTree_finalWalk (w : World) (cfg : Config) (n : Node) :
    ∀ fuel, 4 * n.height ≤ fuel →
      walkTree w cfg fuel n = some (GoResult.returned (finalWalk w cfg n) none) := by
  match n with
  | Node.mk t d a cs =>
    intro fuel hfuel
    simp only [Node.height] at hfuel
    obtain ⟨f, rfl⟩ : ∃ f, fuel = f + 4 := ⟨fuel - 4, by omega⟩
    by_cases hbody : t = NodeType.ElementNode ∧ d = BodyNode
    · have hcs := walkList_finalWalk w cfg cs f (by omega)
      have hcol := walkTree_div w cfg f cfg.BodyConfig.ColClass cs _ hcs
      have hrow := walkTree_div w cfg (f + 1) cfg.BodyConfig.RowClass _ _
        (walkList_single _ _ _ hcol)
      have hcont := walkTree_div w cfg (f + 2) cfg.BodyConfig.ContainerClass _ _
        (walkList_single _ _ _ hrow)
      have hp : processElement w cfg (Node.mk t d a cs)
          = GoResult.returned
              ((Node.mk t d a cs).setChildren [containerNode cfg.BodyConfig cs]) none := by
        have h1 : (Node.mk t d a cs).type = t := rfl
        have h2 : (Node.mk t d a cs).data = d := rfl
        simp only [processElement, h1, h2]
        rw [if_pos hbody.1, if_pos hbody.2, ProcessBodyNode_eq]
        rfl
      rw [walkTree_step w cfg (f + 3) _ _ none none _ hp (walkList_single _ _ _ hcont)]
      simp only [finalWalk]
      rw [if_pos hbody.1, if_pos hbody.2]
      rfl
    · by_cases hhead : t = NodeType.ElementNode ∧ d = HeadNode
      · have hcs := walkList_finalWalk w cfg cs (f + 3) (by omega)
        have hlinks := walkList_links w cfg (f + 2) cfg.CSSImports
        have hp : processElement w cfg (Node.mk t d a cs)
            = GoResult.returned
                ((Node.mk t d a cs).setChildren (cs ++ cfg.CSSImports.map (linkNode cfg)))
                none := by
          have h1 : (Node.mk t d a cs).type = t := rfl
          have h2 : (Node.mk t d a cs).data = d := rfl
          have hne : d ≠ BodyNode := fun h => hbody ⟨hhead.1, h⟩
          simp only [processElement, h1, h2]
          rw [if_pos hhead.1, if_neg hne, if_pos hhead.2]
          simp only [ProcessHeadNode, appendLinks_eq]
          rfl
        rw [walkTree_step w cfg (f + 3) _ _ none none _ hp
          (walkList_append _ _ _ _ _ hcs hlinks)]
        have hne : d ≠ BodyNode := fun h => hbody ⟨hhead.1, h⟩
        simp only [finalWalk]
        rw [if_pos hhead.1, if_neg hne, if_pos hhead.2]
        rfl
      · have hcs := walkList_finalWalk w cfg cs (f + 3) (by omega)
        have hd : ¬ (t = NodeType.ElementNode ∧ (d = BodyNode ∨ d = HeadNode)) := by
          rintro ⟨ht, hb | hh⟩
          · exact hbody ⟨ht, hb⟩
          · exact hhead ⟨ht, hh⟩
        rw [walkTree_plain w cfg (f + 3) t d a cs _ hd hcs]
        simp only [finalWalk]
        by_cases ht : t = NodeType.ElementNode
        · have hb : d ≠ BodyNode := fun h => hbody ⟨ht, h⟩
          have hh : d ≠ HeadNode := fun h => hhead ⟨ht, h⟩
          rw [if_pos ht, if_neg hb, if_neg hh]
          by_cases htab : d = TableNode
          · rw [if_neg (fun h => h.2 htab), if_neg (not_not.mpr htab)]
          · rw [if_pos ⟨ht, htab⟩, if_pos htab]
        · rw [if_neg ht, if_neg (fun h => ht h.1)]
theorem walkList_finalWalk (w : World) (cfg : Config) (cs : List Node) :
    ∀ fuel, 4 * Node.heightList cs ≤ fuel →
      walkList (walkTree w cfg fuel) cs
        = some (GoResult.returned (finalWalkList w cfg cs) none) := by
  match cs with
  | [] => intro fuel _; rfl
  | c :: rest =>
    intro fuel hfuel
    simp only [Node.heightList] at hfuel
    have h1 := walkTree_finalWalk w cfg c fuel (by omega)
    have h2 := walkList_finalWalk w cfg rest fuel (by omega)
    simp only [walkList, h1, h2, finalWalkList]
end

set_option maxRecDepth 100000 in
/-- C35: with the fuel that `ProcessHTMLTree` gives it, the final walk returns, without
an error, the tree `finalWalk` of its input: `ProcessNode` is applied once to every
element other than body, head and table, the three wrapper divs of a body and the links
of a head included, and body, head and table keep their attributes.  With the rule
`data-x` = `1` for every tag, the html, link, div, tr and p elements of a page get that
attribute once, and body, head and table do not get it. -/
theorem final_walk_applies_ProcessNode_once :
    (∀ (w : World) (cfg : Config) (n : Node),
        walkTree w cfg (4 * n.height) n = some (GoResult.returned (finalWalk w cfg n) none))
    ∧ (∀ (w : World) (cfg : Config) (t : NodeType) (d : String) (a : List Attribute)
        (cs : List Node), t = NodeType.ElementNode →
        ((d = BodyNode ∨ d = HeadNode ∨ d = TableNode) →
          (finalWalk w cfg (Node.mk t d a cs)).attr = a)
        ∧ (¬ (d = BodyNode ∨ d = HeadNode ∨ d = TableNode) →
          finalWalk w cfg (Node.mk t d a cs)
            = ProcessNode w cfg (Node.mk t d a (finalWalkList w cfg cs))))
    ∧ renderTree (finalWalk plainWorld everyTagConfig
        (page [element "table" [] [element "tr" [] []],
          element "p" [⟨"data-x", "0"⟩] [text "t"]]))
      = "<html data-x=\"1\"><head><link href=\"/assets/custom.css\" rel=\"stylesheet\" crossorigin=\"anonymous\" data-x=\"1\"/></head><body><div class=\"container\" data-x=\"1\"><div class=\"row\" data-x=\"1\"><div class=\"col-lg-12\" data-x=\"1\"><table><tr data-x=\"1\"></tr></table><p data-x=\"0 1\">t</p></div></div></div></body></html>" := by
  refine ⟨fun w cfg n => walkTree_finalWalk w cfg n _ (Nat.le_refl _),
    fun w cfg t d a cs ht => ⟨fun hd => ?_, fun hd => ?_⟩, by decide⟩
  · simp only [finalWalk]
    rw [if_pos ht]
    by_cases hb : d = BodyNode
    · rw [if_pos hb]; rfl
    · rw [if_neg hb]
      by_cases hh : d = HeadNode
      · rw [if_pos hh]; rfl
      · rw [if_neg hh]
        have htab : d = TableNode := by
          rcases hd with h | h | h
          · exact absurd h hb
          · exact absurd h hh
          · exact h
        rw [if_neg (not_not.mpr htab)]
        rfl
  · simp only [finalWalk]
    rw [if_pos ht, if_neg (fun h => hd (Or.inl h)), if_neg (fun h => hd (Or.inr (Or.inl h))),
      if_pos (fun h => hd (Or.inr (Or.inr h)))]

theorem updateAt_eq_replaceAt (f : Node → Node) (p : List Nat) :
    ∀ (doc x : Node), doc.get? p = some x → doc.updateAt p f = doc.replaceAt p (f x) := by
  induction p with
  | nil =>
    intro doc x h
    simp only [Node.get?, Option.some.injEq] at h
    subst h
    simp [Node.updateAt, Node.replaceAt]
  | cons i q ih =>
    intro doc x h
    obtain ⟨t, d, a, cs⟩ := doc
    simp only [Node.get?] at h
    cases hc : cs[i]? with
    | none => simp [hc] at h
    | some c =>
      simp only [hc] at h
      simp only [Node.updateAt, Node.replaceAt, hc]
      rw [List.modify_eq_set_get?, List.get?_eq_getElem?, hc]
      simp [ih c x h]

theorem countOfType_updateAt (ty : String) (f : Node → Node) (p : List Nat) (doc x : Node)
    (h : doc.get? p = some x) :
    countOfType ty (doc.updateAt p f) + countOfType ty x
      = countOfType ty doc + countOfType ty (f x) := by
  rw [updateAt_eq_replaceAt f p doc x h]
  exact countOfType_replaceAt ty p doc x (f x) h

theorem updateAt_root (f : Node → Node)
    (hf : ∀ x, (f x).type = x.type ∧ (f x).data = x.data) (p : List Nat) (doc : Node) :
    (doc.updateAt p f).type = doc.type ∧ (doc.updateAt p f).data = doc.data := by
  obtain ⟨t, d, a, cs⟩ := doc
  cases p with
  | nil => exact hf _
  | cons i q => exact ⟨rfl, rfl⟩

theorem setChildren_root (n : Node) (cs : List Node) :
    (n.setChildren cs).type = n.type ∧ (n.setChildren cs).data = n.data := by
  obtain ⟨t, d, a, cs0⟩ := n
  exact ⟨rfl, rfl⟩

theorem countOfType_prependChild (ty : String) (P n : Node) :
    countOfType ty (Node.prependChild P n) = countOfType ty n + countOfType ty P := by
  obtain ⟨t, d, a, cs⟩ := n
  have hP : ∀ cs1 : List Node,
      decide ((Node.mk t d a cs1).type = NodeType.ElementNode ∧ (Node.mk t d a cs1).data = ty)
        = decide (t = NodeType.ElementNode ∧ d = ty) := fun _ => rfl
  have h1 : Node.prependChild P (Node.mk t d a cs) = Node.mk t d a (P :: cs) := rfl
  simp only [h1, countOfType, Node.subtree, Node.subtreeList, List.countP_cons,
    List.countP_append, hP]
  omega

theorem countP_subtreeList_eraseIdx (Q : Node → Bool) (cs : List Node) (i : Nat) (x : Node)
    (hc : cs[i]? = some x) :
    (Node.subtreeList (cs.eraseIdx i)).countP Q + x.subtree.countP Q
      = (Node.subtreeList cs).countP Q := by
  induction cs generalizing i with
  | nil => simp at hc
  | cons y rest ih =>
    cases i with
    | zero =>
      simp only [List.getElem?_cons_zero, Option.some.injEq] at hc
      subst hc
      simp only [List.eraseIdx_cons_zero, Node.subtreeList, List.countP_append]
      omega
    | succ i1 =>
      simp only [List.getElem?_cons_succ] at hc
      have := ih i1 hc
      simp only [List.eraseIdx_cons_succ, Node.subtreeList, List.countP_append]
      omega

theorem countOfType_eraseChild (ty : String) (n x : Node) (i : Nat)
    (hc : n.children[i]? = some x) :
    countOfType ty (n.setChildren (n.children.eraseIdx i)) + countOfType ty x
      = countOfType ty n := by
  obtain ⟨t, d, a, cs⟩ := n
  have hP : ∀ cs1 : List Node,
      decide ((Node.mk t d a cs1).type = NodeType.ElementNode ∧ (Node.mk t d a cs1).data = ty)
        = decide (t = NodeType.ElementNode ∧ d = ty) := fun _ => rfl
  have h1 : (Node.mk t d a cs).children = cs := rfl
  have h2 : ∀ cs1, (Node.mk t d a cs).setChildren cs1 = Node.mk t d a cs1 := fun _ => rfl
  rw [h1] at hc
  have h3 := countP_subtreeList_eraseIdx
    (fun m => decide (m.type = NodeType.ElementNode ∧ m.data = ty)) cs i x hc
  simp only [h1, h2, countOfType, Node.subtree, List.countP_cons, hP] at h3 ⊢
  omega

theorem get?_after_prepend (P : Node) (b : List Nat) :
    ∀ (n : List Nat) (doc bd node : Node), doc.get? b = some bd → doc.get? n = some node →
      ∃ x, (doc.updateAt b (Node.prependChild P)).get? (pathAfterInsertFirst b n) = some x
        ∧ x.type = node.type ∧ x.data = node.data := by
  induction b with
  | nil =>
    intro n doc bd node _ hn
    obtain ⟨t, d, a, cs⟩ := doc
    cases n with
    | nil =>
      simp only [Node.get?, Option.some.injEq] at hn
      subst hn
      exact ⟨_, rfl, rfl, rfl⟩
    | cons i rest =>
      refine ⟨node, ?_, rfl, rfl⟩
      simp only [Node.get?] at hn
      simp only [pathAfterInsertFirst, Node.updateAt, Node.prependChild, Node.setChildren,
        Node.children, Node.get?, List.getElem?_cons_succ]
      exact hn
  | cons j b1 ih =>
    intro n doc bd node hb hn
    obtain ⟨t, d, a, cs⟩ := doc
    cases n with
    | nil =>
      simp only [Node.get?, Option.some.injEq] at hn
      subst hn
      exact ⟨_, rfl, rfl, rfl⟩
    | cons i rest =>
      simp only [Node.get?] at hb hn
      cases hcj : cs[j]? with
      | none => simp [hcj] at hb
      | some cj =>
        simp only [hcj] at hb
        by_cases hij : i = j
        · subst hij
          simp only [hcj] at hn
          obtain ⟨x, hx, hty⟩ := ih rest cj bd node hb hn
          refine ⟨x, ?_, hty⟩
          simp only [pathAfterInsertFirst, if_true, Node.updateAt, Node.get?]
          rw [List.modify_eq_set_get?, List.get?_eq_getElem?, hcj]
          have hlt : i < cs.length := by
            rcases List.getElem?_eq_some_iff.mp hcj with ⟨h, _⟩
            exact h
          simp only [Option.map_eq_map, Option.map_some', Option.getD_some]
          rw [List.getElem?_set_self hlt]
          exact hx
        · refine ⟨node, ?_, rfl, rfl⟩
          simp only [pathAfterInsertFirst, hij, if_false, Node.updateAt, Node.get?]
          rw [List.modify_eq_set_get?, List.get?_eq_getElem?, hcj]
          simp only [Option.map_eq_map, Option.map_some', Option.getD_some]
          rw [List.getElem?_set_ne (fun h => hij h.symm)]
          exact hn

theorem placeRenderedTemplate_count (doc node P st : Node) (n : List Nat) (attrs : GoMap)
    (hn : doc.get? n = some node) (hparent : n ≠ [])
    (hty : node.type = NodeType.ElementNode ∧ node.data = TemplateNode)
    (hP : countOfType TemplateNode P = 0)
    (h : placeRenderedTemplate doc n attrs P = GoResult.returned st none) :
    countOfType TemplateNode st < countOfType TemplateNode doc
      ∧ st.type = doc.type ∧ st.data = doc.data := by
  have hpos := countOfType_pos_of_match TemplateNode node hty
  by_cases hh : ∃ heading, attrs.get TemplateHeadingKey = some heading ∧
      ParseBool heading = some true
  · obtain ⟨heading, h1, h2⟩ := hh
    unfold placeRenderedTemplate at h
    simp only [h1, h2] at h
    cases hb : GetNodeOfTypePath doc BodyNode with
    | none => simp [hb] at h
    | some b =>
      simp only [hb] at h
      cases hq : parentOf (pathAfterInsertFirst b n) with
      | none => simp [hq] at h
      | some qi =>
        obtain ⟨q, i⟩ := qi
        simp only [hq, GoResult.returned.injEq, and_true] at h
        obtain ⟨bd, hbd, _⟩ := GetNodeOfTypePath_found BodyNode b doc hb
        have hc1 := countOfType_updateAt TemplateNode (Node.prependChild P) b doc bd hbd
        rw [countOfType_prependChild, hP] at hc1
        have hdoc1 : doc.updateAt b (Node.prependChild P)
            = doc.updateAt b (fun b => b.setChildren (P :: b.children)) := rfl
        obtain ⟨x, hx, hxty⟩ := get?_after_prepend P b n doc bd node hbd hn
        have hxpos := countOfType_pos_of_match TemplateNode x
          ⟨hxty.1.trans hty.1, hxty.2.trans hty.2⟩
        obtain ⟨pn, hpn, hch, _⟩ := replaceAt_parent (pathAfterInsertFirst b n)
          (doc.updateAt b (Node.prependChild P)) x x q i hx hq
        have hc2 := countOfType_updateAt TemplateNode
          (fun p => p.setChildren (p.children.eraseIdx i)) q
          (doc.updateAt b (Node.prependChild P)) pn hpn
        have hc3 := countOfType_eraseChild TemplateNode pn x i hch
        simp only at hc2
        rw [← hdoc1] at h
        rw [h] at hc2
        have hr1 := updateAt_root (fun p => p.setChildren (p.children.eraseIdx i))
          (fun y => setChildren_root y _) q (doc.updateAt b (Node.prependChild P))
        have hr2 := updateAt_root (Node.prependChild P)
          (fun y => setChildren_root y _) b doc
        rw [h] at hr1
        exact ⟨by omega, hr1.1.trans hr2.1, hr1.2.trans hr2.2⟩
  · rw [placeRenderedTemplate_of_not_heading doc P n attrs hh,
      insertBeforeThenRemove_eq doc node P n hn hparent] at h
    simp only [GoResult.returned.injEq, and_true] at h
    subst h
    have hc := countOfType_replaceAt TemplateNode n doc node P hn
    have hr := replaceAt_root n hparent doc P
    exact ⟨by omega, hr.1, hr.2⟩

theorem drainNodesOfType_template (w : World) (document : Document)
    (hpayload : ∀ node P, templatePayload (templateEnv w document.Config) node = some P →
      countOfType TemplateNode P = 0) :
    ∀ (fuel : Nat) (doc : Node),
      ¬ (doc.type = NodeType.ElementNode ∧ doc.data = TemplateNode) →
      countOfType TemplateNode doc ≤ fuel →
      ∃ r, drainNodesOfType w document TemplateNode fuel doc = some r
        ∧ ∀ result, r = GoResult.returned result none →
            countOfType TemplateNode result = 0 := by
  intro fuel
  induction fuel with
  | zero =>
    intro doc _ hcount
    have h0 : countOfType TemplateNode doc = 0 := by omega
    have hnone := (countOfType_eq_zero_iff TemplateNode doc).mp h0
    refine ⟨GoResult.returned doc none, by simp [drainNodesOfType, hnone], fun result hr => ?_⟩
    simp only [GoResult.returned.injEq, and_true] at hr
    rw [← hr]
    exact h0
  | succ fuel ih =>
    intro doc hroot hcount
    cases hfind : GetNodeOfTypePath doc TemplateNode with
    | none =>
      refine ⟨GoResult.returned doc none, by simp [drainNodesOfType, hfind],
        fun result hr => ?_⟩
      simp only [GoResult.returned.injEq, and_true] at hr
      rw [← hr]
      exact (countOfType_eq_zero_iff TemplateNode doc).mpr hfind
    | some n =>
      have hn := GetNodeOfTypePath_ne_nil TemplateNode doc n hroot hfind
      obtain ⟨node, hget, hty⟩ := GetNodeOfTypePath_found TemplateNode n doc hfind
      have hstep : processSpecialNode w document TemplateNode doc n
          = ProcessTemplateNode (templateEnv w document.Config) doc n := by
        simp only [processSpecialNode, if_true]
      cases hres : ProcessTemplateNode (templateEnv w document.Config) doc n with
      | panicked =>
        exact ⟨GoResult.panicked, by simp [drainNodesOfType, hfind, hstep, hres],
          fun result hr => by cases hr⟩
      | returned st e =>
        cases e with
        | some err =>
          exact ⟨GoResult.returned st (some err),
            by simp [drainNodesOfType, hfind, hstep, hres], fun result hr => by cases hr⟩
        | none =>
          cases hpl : templatePayload (templateEnv w document.Config) node with
          | none =>
            obtain ⟨e, he⟩ := ProcessTemplateNode_of_payload_none
              (templateEnv w document.Config) doc node n hget hpl
            rw [he] at hres
            cases hres
          | some P =>
            rw [ProcessTemplateNode_of_payload_some (templateEnv w document.Config) doc node P
              n hget hpl] at hres
            obtain ⟨hlt, ht1, ht2⟩ := placeRenderedTemplate_count doc node P st n _ hget hn
              hty (hpayload node P hpl) hres
            obtain ⟨r, hr, hzero⟩ := ih st (by rw [ht1, ht2]; exact hroot) (by omega)
            refine ⟨r, ?_, hzero⟩
            rw [← ProcessTemplateNode_of_payload_some (templateEnv w document.Config) doc
              node P n hget hpl] at hres
            simp only [drainNodesOfType, hfind, hstep, hres]
            exact hr

/-- C36: when no template element yields a payload that holds a template element, and
the root of the tree is not itself a template element, the template drain ends (with
the tree, with the error of a handler, or with its panic) within as many rounds, one
call of `ProcessTemplateNode` each, as the tree has template elements; when it ends
without an error the tree has no template element. -/
theorem template_drain_terminates (w : World) (document : Document) (doc : Node) (fuel : Nat)
    (hpayload : ∀ node P, templatePayload (templateEnv w document.Config) node = some P →
      ∀ m ∈ P.subtree, ¬ (m.type = NodeType.ElementNode ∧ m.data = TemplateNode))
    (hroot : ¬ (doc.type = NodeType.ElementNode ∧ doc.data = TemplateNode))
    (hfuel : countOfType TemplateNode doc ≤ fuel) :
    ∃ r, drainNodesOfType w document TemplateNode fuel doc = some r
      ∧ ∀ result, r = GoResult.returned result none →
          ∀ m ∈ result.subtree, ¬ (m.type = NodeType.ElementNode ∧ m.data = TemplateNode) := by
  obtain ⟨r, hr, hzero⟩ := drainNodesOfType_template w document
    (fun node P h => (countOfType_eq_zero_iff TemplateNode P).mpr
      ((GetNodeOfTypePath_none_iff P TemplateNode).mpr (hpayload node P h)))
    fuel doc hroot hfuel
  exact ⟨r, hr, fun result h =>
    (GetNodeOfTypePath_none_iff result TemplateNode).mp
      ((countOfType_eq_zero_iff TemplateNode result).mp (hzero result h))⟩

theorem alertWorld_payload (node P : Node)
    (h : templatePayload (templateEnv alertWorld defaultDocument.Config) node = some P) :
    ∀ m ∈ P.subtree, ¬ (m.type = NodeType.ElementNode ∧ m.data = TemplateNode) := by
  unfold templatePayload templateFragment at h
  cases hc : templateContent (templateEnv alertWorld defaultDocument.Config) node with
  | none => simp [hc] at h
  | some content =>
    simp only [hc] at h
    have hparse : ∀ s, (templateEnv alertWorld defaultDocument.Config).parse s = none
        ∨ (templateEnv alertWorld defaultDocument.Config).parse s
          = some (page [element "div" [⟨"class", "alert alert-primary"⟩] [text "Heads up!"]]) := by
      intro s
      simp only [templateEnv, alertWorld, alertEnv]
      split
      · exact Or.inr rfl
      · exact Or.inl rfl
    rcases hparse (substitute (templateEnv alertWorld defaultDocument.Config)
      (templateAttributes node) content) with hp | hp
    · simp [hp] at h
    · rw [hp] at h
      have hP : P = element "div" [⟨"class", "alert alert-primary"⟩] [text "Heads up!"] := by
        have : (some (element "div" [⟨"class", "alert alert-primary"⟩] [text "Heads up!"])
            : Option Node) = some P := h
        exact (Option.some.inj this).symm
      subst hP
      decide

set_option maxRecDepth 100000 in
theorem template_drain_terminates_witness :
    ∃ r, drainNodesOfType alertWorld defaultDocument TemplateNode 2 pageTwoTemplates = some r
      ∧ ∀ result, r = GoResult.returned result none →
          ∀ m ∈ result.subtree, ¬ (m.type = NodeType.ElementNode ∧ m.data = TemplateNode) :=
  template_drain_terminates alertWorld defaultDocument pageTwoTemplates 2 alertWorld_payload
    (by decide) (by decide)

theorem ParseDocument_eq_Run (w : World) (toHTML : String → String) (fuel : Nat)
    (conf : Config) (documents : List Document) (documentDirectory : Option (List String))
    (fileName : String) :
    ParseDocument w toHTML fuel conf documents documentDirectory fileName
      = match (ParseDocumentRun w toHTML fuel conf documents documentDirectory fileName).2 with
        | none => none
        | some GoResult.panicked => some GoResult.panicked
        | some (GoResult.returned finalMarkdown err) =>
          some (GoResult.returned
            ((ParseDocumentRun w toHTML fuel conf documents documentDirectory fileName).1,
              finalMarkdown) err) := by
  unfold ParseDocument ParseDocumentRun
  simp only
  cases w.readFile (conf.Directories.Documents ++ "/" ++ fileName ++ MarkdownFileSuffix) with
  | none => rfl
  | some content =>
    simp only
    cases ProcessHTMLTree w
        { FileName := fileName, ID := fileName, Attributes := fun _ => none,
          DocumentDirectory := documentDirectory, Config := conf }
        fuel (toHTML (TrimLeft content "\n")) with
    | none => rfl
    | some r =>
      cases r with
      | panicked => rfl
      | returned st err =>
        obtain ⟨out, attributes⟩ := st
        cases err with
        | none => rfl
        | some e => rfl

theorem ParseDocumentRun_entry (w : World) (toHTML : String → String) (fuel : Nat)
    (conf : Config) (documents : List Document) (documentDirectory : Option (List String))
    (fileName : String) :
    ∃ entry,
      (ParseDocumentRun w toHTML fuel conf documents documentDirectory fileName).1
        = documents ++ [entry]
      ∧ entry.FileName = fileName
      ∧ (∀ finalMarkdown err,
          (ParseDocumentRun w toHTML fuel conf documents documentDirectory fileName).2
            = some (GoResult.returned finalMarkdown (some err)) →
          entry.FileContents = "" ∧ finalMarkdown = "") := by
  have hlen : ∀ d : Document, (documents ++ [d]).length - 1 = documents.length := by
    intro d; simp
  unfold ParseDocumentRun
  simp only [hlen, modify_last]
  cases w.readFile (conf.Directories.Documents ++ "/" ++ fileName ++ MarkdownFileSuffix) with
  | none =>
    refine ⟨_, rfl, rfl, fun finalMarkdown err h => ?_⟩
    simp only [Option.some.injEq, GoResult.returned.injEq] at h
    exact ⟨rfl, h.1.symm⟩
  | some content =>
    simp only
    cases ProcessHTMLTree w
        { FileName := fileName, ID := fileName, Attributes := fun _ => none,
          DocumentDirectory := documentDirectory, Config := conf }
        fuel (toHTML (TrimLeft content "\n")) with
    | none => exact ⟨_, rfl, rfl, fun finalMarkdown err h => by cases h⟩
    | some r =>
      cases r with
      | panicked => exact ⟨_, rfl, rfl, fun finalMarkdown err h => by cases h⟩
      | returned st err =>
        obtain ⟨out, attributes⟩ := st
        cases err with
        | none => exact ⟨_, rfl, rfl, fun finalMarkdown err h => by cases h⟩
        | some e =>
          refine ⟨_, rfl, rfl, fun finalMarkdown err h => ?_⟩
          simp only [Option.some.injEq, GoResult.returned.injEq] at h
          exact ⟨rfl, h.1.symm⟩

theorem drainNodesOfType_loop (document : Document)
    (hcfg : document.Config = defaultConfig) :
    ∀ fuel, drainNodesOfType loopWorld document TemplateNode fuel pageLoop = none := by
  have hfind : GetNodeOfTypePath pageLoop TemplateNode = some [0, 1, 0] := rfl
  have hstep : processSpecialNode loopWorld document TemplateNode pageLoop [0, 1, 0]
      = GoResult.returned pageLoop none := by
    simp only [processSpecialNode, if_true, hcfg]
    rfl
  intro fuel
  induction fuel with
  | zero => simp only [drainNodesOfType, hfind]
  | succ fuel ih => simp only [drainNodesOfType, hfind, hstep, ih]

set_option maxRecDepth 100000 in
theorem ProcessHTMLTree_loop (document : Document) (hcfg : document.Config = defaultConfig) :
    ∀ fuel, ProcessHTMLTree loopWorld document fuel (renderTree pageTitleAndLoop) = none := by
  intro fuel
  have hparse : loopWorld.parse (renderTree pageTitleAndLoop) = some pageTitleAndLoop := rfl
  obtain ⟨attributes, hattr⟩ : ∃ attributes,
      ProcessAttributes pageTitleAndLoop document.Attributes
        = GoResult.returned (pageLoop, attributes) none := ⟨_, rfl⟩
  have hrender : loopWorld.render pageLoop = some (renderTree pageLoop) := rfl
  have hparse2 : loopWorld.parse (renderTree pageLoop) = some pageLoop := rfl
  have hdrain : ProcessNodesOfType loopWorld document fuel (renderTree pageLoop) TemplateNode
      = none := by
    simp only [ProcessNodesOfType, hparse2, drainNodesOfType_loop document hcfg fuel]
  simp only [ProcessHTMLTree, hparse, hattr, hrender, hdrain]

set_option maxRecDepth 100000 in
/-- C38: in every outcome of a call of `ParseDocument` (it returns, with or without an
error, it panics, or it does not end) the list of documents is the list of before with
one entry added at its end, for the file name of the call; when the call returns an
error that entry has empty `FileContents` and the text returned is empty.
`ParseDocumentRun` gives the list in every outcome and agrees with `ParseDocument` on
each call that returns.  The conjuncts after the first two are calls of each kind: a
file that cannot be read, and a page with a template that yields itself, for which the
call does not end within any number of rounds and the list has the new entry. -/
theorem ParseDocument_appends_entry :
    (∀ (w : World) (toHTML : String → String) (fuel : Nat) (conf : Config)
        (documents : List Document) (documentDirectory : Option (List String))
        (fileName : String),
        ∃ entry,
          (ParseDocumentRun w toHTML fuel conf documents documentDirectory fileName).1
            = documents ++ [entry]
          ∧ (ParseDocumentRun w toHTML fuel conf documents documentDirectory fileName).1.length
            = documents.length + 1
          ∧ entry.FileName = fileName
          ∧ (∀ finalMarkdown err,
              (ParseDocumentRun w toHTML fuel conf documents documentDirectory fileName).2
                = some (GoResult.returned finalMarkdown (some err)) →
              entry.FileContents = "" ∧ finalMarkdown = ""))
    ∧ (∀ (w : World) (toHTML : String → String) (fuel : Nat) (conf : Config)
        (documents : List Document) (documentDirectory : Option (List String))
        (fileName : String),
        ParseDocument w toHTML fuel conf documents documentDirectory fileName
          = match (ParseDocumentRun w toHTML fuel conf documents documentDirectory
              fileName).2 with
            | none => none
            | some GoResult.panicked => some GoResult.panicked
            | some (GoResult.returned finalMarkdown err) =>
              some (GoResult.returned
                ((ParseDocumentRun w toHTML fuel conf documents documentDirectory fileName).1,
                  finalMarkdown) err))
    ∧ ParseDocumentRun plainWorld (fun s => s) 0 defaultConfig [defaultDocument]
          (some ["missing"]) "missing"
        = ([defaultDocument, missingDocument],
            some (GoResult.returned "" (some Error.DocumentFileReadError)))
    ∧ (∀ fuel,
        (ParseDocumentRun loopWorld (fun _ => renderTree pageTitleAndLoop) fuel defaultConfig
            [defaultDocument] (some ["word"]) "word").2 = none
        ∧ ((ParseDocumentRun loopWorld (fun _ => renderTree pageTitleAndLoop) fuel
            defaultConfig [defaultDocument] (some ["word"]) "word").1.map
              (fun d => (d.FileName, d.FileContents)))
          = [("", ""), ("word", "")]) := by
  refine ⟨fun w toHTML fuel conf documents documentDirectory fileName => ?_,
    ParseDocument_eq_Run, rfl, fun fuel => ?_⟩
  · obtain ⟨entry, h1, h2, h3⟩ :=
      ParseDocumentRun_entry w toHTML fuel conf documents documentDirectory fileName
    exact ⟨entry, h1, by rw [h1]; simp, h2, h3⟩
  · have hloop := ProcessHTMLTree_loop
      { FileName := "word", ID := "word", Attributes := fun _ => none,
        DocumentDirectory := some ["word"], Config := defaultConfig } rfl fuel
    have hread : loopWorld.readFile
        (defaultConfig.Directories.Documents ++ "/" ++ "word" ++ MarkdownFileSuffix)
          = some "\n# Word" := by decide
    simp only [ParseDocumentRun, hread, hloop]
    exact ⟨trivial, rfl⟩

mutual
theorem visitedMarkers_sublist (n : Node) : (visitedMarkers n).Sublist (outerMarkers n) := by
  match n with
  | Node.mk t d a cs =>
    rw [visitedMarkers_eq, outerMarkers_eq]
    split
    · exact List.Sublist.refl _
    · exact visitedMarkersChildren_sublist cs
theorem visitedMarkersChildren_sublist (cs : List Node) :
    (visitedMarkersChildren cs).Sublist (outerMarkersList cs) := by
  match cs with
  | [] => exact List.Sublist.refl _
  | c :: rest =>
    simp only [visitedMarkersChildren, outerMarkersList]
    split
    · rename_i hm
      rw [outerMarkers_eq, if_pos hm]
      exact List.sublist_append_left _ _
    · exact List.Sublist.append (visitedMarkers_sublist c) (visitedMarkersChildren_sublist rest)
end

mutual
theorem no_marker_of_outerMarkers (n : Node) (h : outerMarkers n = []) :
    n.subtree.all (fun m => !isAttributesElement m) = true := by
  match n with
  | Node.mk t d a cs =>
    rw [outerMarkers_eq] at h
    by_cases hn : isAttributesElement (Node.mk t d a cs) = true
    · rw [if_pos hn] at h
      cases h
    · rw [if_neg hn] at h
      simp only [Node.subtree, List.all_cons, Bool.and_eq_true, Bool.not_eq_true']
      exact ⟨by simpa using hn, no_marker_of_outerMarkersList cs h⟩
theorem no_marker_of_outerMarkersList (cs : List Node) (h : outerMarkersList cs = []) :
    (Node.subtreeList cs).all (fun m => !isAttributesElement m) = true := by
  match cs with
  | [] => rfl
  | c :: rest =>
    simp only [outerMarkersList, List.append_eq_nil] at h
    simp only [Node.subtreeList, List.all_append, Bool.and_eq_true]
    exact ⟨no_marker_of_outerMarkers c h.1, no_marker_of_outerMarkersList rest h.2⟩
end

theorem append_eq_of_sublist (a b c d : List Node) (h1 : a.Sublist c) (h2 : b.Sublist d)
    (h : a ++ b = c ++ d) : a = c ∧ b = d := by
  have hl : (a ++ b).length = (c ++ d).length := by rw [h]
  simp only [List.length_append] at hl
  have ha := h1.length_le
  have hb := h2.length_le
  exact ⟨h1.eq_of_length (by omega), h2.eq_of_length (by omega)⟩

mutual
theorem noMarkerBehindMarker_of_visited (n : Node) (h : visitedMarkers n = outerMarkers n) :
    noMarkerBehindMarker n = true := by
  match n with
  | Node.mk t d a cs =>
    rw [visitedMarkers_eq, outerMarkers_eq] at h
    simp only [noMarkerBehindMarker]
    by_cases hn : isAttributesElement (Node.mk t d a cs) = true
    · rw [if_pos hn]
    · rw [if_neg hn, if_neg hn] at h
      rw [if_neg hn]
      exact noMarkerBehindMarkerList_of_visited cs h
theorem noMarkerBehindMarkerList_of_visited (cs : List Node)
    (h : visitedMarkersChildren cs = outerMarkersList cs) :
    noMarkerBehindMarkerList cs = true := by
  match cs with
  | [] => rfl
  | c :: rest =>
    simp only [visitedMarkersChildren, outerMarkersList] at h
    simp only [noMarkerBehindMarkerList]
    by_cases hm : isAttributesElement c = true
    · rw [if_pos hm] at h ⊢
      rw [outerMarkers_eq, if_pos hm] at h
      have hrest : outerMarkersList rest = [] := by
        have := congrArg List.length h
        simp only [List.length_singleton, List.length_append] at this
        exact List.length_eq_zero.mp (by omega)
      exact no_marker_of_outerMarkersList rest hrest
    · rw [if_neg hm] at h ⊢
      obtain ⟨h1, h2⟩ := append_eq_of_sublist _ _ _ _ (visitedMarkers_sublist c)
        (visitedMarkersChildren_sublist rest) h
      rw [noMarkerBehindMarker_of_visited c h1, noMarkerBehindMarkerList_of_visited rest h2]
      rfl
end

theorem noMarkerBehindMarker_iff (n : Node) :
    noMarkerBehindMarker n = true ↔ visitedMarkers n = outerMarkers n :=
  ⟨visitedMarkers_outer n, noMarkerBehindMarker_of_visited n⟩

end LightSites
